import Mathlib

/-!
Verification of the generic hierarchical page-table engine
(`src/mm/page_table/src/table64.rs`) of the x-kernel repository, together
with the per-architecture entry codecs (`src/mm/page_table/src/arch/`).

The engine is embedded shallowly: physical memory is a map from frame
physical address and entry index to an entry value, the frame allocator is
a fresh-counter mock that records every `alloc_frame` / `dealloc_frame`
call (the spec, section 8, describes exactly such a mock `PagingHandler`),
and every function of `table64.rs` is translated into a pure Lean function
threading that state.

The crate `defs.rs` (the `PageSize`, `PagingFlags`, `PtError` types and the
`PageTableEntry` / `PagingMetaData` / `PagingHandler` traits) is not part
of the provided sources; those types are modelled from the spec (sections
3, 6 and 7), and each such definition carries a doc comment saying so.
-/

namespace PT

/-- Modelled from the spec: `PagingFlags` of the missing `defs.rs` — the
architecture-neutral permission bitset `READ`, `WRITE`, `EXECUTE`, `USER`,
`DEVICE`, `UNCACHED` (spec section 3). -/
structure PagingFlags where
  read : Bool
  write : Bool
  execute : Bool
  user : Bool
  device : Bool
  uncached : Bool
deriving DecidableEq, Repr

/-- The empty flag set (no permission bits). -/
def PagingFlags.empty : PagingFlags :=
  ⟨false, false, false, false, false, false⟩

/-- Rust `PagingFlags::is_empty`. -/
def PagingFlags.is_empty (f : PagingFlags) : Bool :=
  f = PagingFlags.empty

/-- Modelled from the spec: `PtError` of the missing `defs.rs`, the error
taxonomy of spec section 7. -/
inductive PtError where
  | NoMemory
  | NotMapped
  | AlreadyMapped
  | MappedToHugePage
  | NotAligned
deriving DecidableEq, Repr

/-- Modelled from the spec: `PageSize` of the missing `defs.rs` — the leaf
sizes `Size4K`, `Size2M`, `Size1G`, each carrying its byte size (spec
section 3).  In Rust the enum discriminant is the byte size
(`PageSize::Size1G as usize`). -/
inductive PageSize where
  | Size4K
  | Size2M
  | Size1G
deriving DecidableEq, Repr

/-- The byte size of a `PageSize` (the Rust `as usize` value). -/
def PageSize.bytes : PageSize → Nat
  | .Size4K => 4096
  | .Size2M => 2097152
  | .Size1G => 1073741824

/-- Rust `PageSize::is_huge`: every size other than the base 4K size. -/
def PageSize.is_huge : PageSize → Bool
  | .Size4K => false
  | _ => true

/-- `memaddr` alignment check: `addr` is a multiple of the size. -/
def PageSize.is_aligned (sz : PageSize) (addr : Nat) : Bool :=
  addr % sz.bytes = 0

/-- `memaddr` `align_offset`: the in-page offset of `addr`. -/
def PageSize.align_offset (sz : PageSize) (addr : Nat) : Nat :=
  addr % sz.bytes

/-- `memaddr` `align_down`: `addr` rounded down to the size's alignment. -/
def PageSize.align_down (sz : PageSize) (addr : Nat) : Nat :=
  addr - addr % sz.bytes

/-- Modelled from the spec: the logical content of one hardware page-table
entry, the idealised (lossless) instance of the `PageTableEntry` trait of
the missing `defs.rs`.  Spec section 3: "An entry is either `unused` (all
zero), a `table` pointer (non-huge, points to a full child table), or a
`page` mapping (huge or leaf-level)"; section 6 requires the codec to
round-trip `(paddr, flags, huge)` exactly. -/
inductive Entry where
  | unused
  | table (paddr : Nat)
  | page (paddr : Nat) (flags : PagingFlags) (huge : Bool)
deriving DecidableEq, Repr

/-- Trait method `PageTableEntry::new_page`. -/
def Entry.new_page (paddr : Nat) (flags : PagingFlags) (huge : Bool) : Entry :=
  .page paddr flags huge

/-- Trait method `PageTableEntry::new_table`. -/
def Entry.new_table (paddr : Nat) : Entry :=
  .table paddr

/-- Trait method `PageTableEntry::paddr`; an all-zero entry reads back
physical address `0`. -/
def Entry.paddr : Entry → Nat
  | .unused => 0
  | .table p => p
  | .page p _ _ => p

/-- Trait method `PageTableEntry::flags`; only page entries carry logical
permission flags. -/
def Entry.flags : Entry → PagingFlags
  | .page _ f _ => f
  | _ => PagingFlags.empty

/-- Trait method `PageTableEntry::is_unused` (the all-zero entry). -/
def Entry.is_unused : Entry → Bool
  | .unused => true
  | _ => false

/-- Trait method `PageTableEntry::is_present`: table pointers and page
mappings are present, the unused entry is not. -/
def Entry.is_present : Entry → Bool
  | .unused => false
  | _ => true

/-- Trait method `PageTableEntry::is_huge`. -/
def Entry.is_huge : Entry → Bool
  | .page _ _ h => h
  | _ => false

/-- Trait method `PageTableEntry::set_paddr`: replaces the physical-address
bits, keeping the flag bits (on an all-zero entry it leaves the flag bits
zero, i.e. a non-present page skeleton, as the hardware encodings do). -/
def Entry.set_paddr : Entry → Nat → Entry
  | .unused, p => .page p PagingFlags.empty false
  | .table _, p => .table p
  | .page _ f h, p => .page p f h

/-- Trait method `PageTableEntry::set_flags`: replaces the flag bits
(including the huge bit), keeping the physical-address bits. -/
def Entry.set_flags : Entry → PagingFlags → Bool → Entry
  | .unused, f, h => .page 0 f h
  | .table p, f, h => .page p f h
  | .page p _ _, f, h => .page p f h

/-- Trait method `PageTableEntry::clear` (write the all-zero entry). -/
def Entry.clear : Entry → Entry := fun _ => .unused

/-- The state of the external `PagingHandler` collaborator: the byte
content of physical memory (per frame physical address and entry index), a
fresh-frame watermark, and the chronological logs of every `alloc_frame`
and `dealloc_frame` call.  The allocator is the balanced-alloc/dealloc
mock the spec's section 8 tests with; it hands out the frames
`4096, 8192, …` in order and never fails. -/
structure HMem where
  mem : Nat → Nat → Entry
  fresh : Nat
  allocs : List Nat
  deallocs : List Nat

/-- The initial handler state: all memory zero, no frame handed out. -/
def HMem.init : HMem :=
  { mem := fun _ _ => .unused, fresh := 4096, allocs := [], deallocs := [] }

/-- `PagingHandler::alloc_frame` of the mock: returns the next fresh frame
and logs it. -/
def HMem.allocFrame (s : HMem) : Nat × HMem :=
  (s.fresh,
    { s with fresh := s.fresh + 4096, allocs := s.allocs ++ [s.fresh] })

/-- `PagingHandler::dealloc_frame` of the mock: logs the returned frame. -/
def HMem.deallocFrame (s : HMem) (p : Nat) : HMem :=
  { s with deallocs := s.deallocs ++ [p] }

/-- Write one page-table entry at frame `f`, index `i`. -/
def HMem.write (s : HMem) (f i : Nat) (e : Entry) : HMem :=
  { s with mem := fun g j => if g = f ∧ j = i then e else s.mem g j }

/-- Zero-fill one whole frame (the `core::ptr::write_bytes(ptr, 0, …)` of
`PageTable64::alloc_table`). -/
def HMem.zeroFrame (s : HMem) (f : Nat) : HMem :=
  { s with mem := fun g j => if g = f then .unused else s.mem g j }

/-- `PageTable64::alloc_table`: allocate one frame and zero-fill it.  The
mock allocator never fails, so the `NoMemory` branch of the source is never
taken here. -/
def alloc_table (s : HMem) : Nat × HMem :=
  let (p, s1) := s.allocFrame
  (p, s1.zeroFrame p)

/-- The `PageTable64` structure: the root frame and (for the `copy-from`
feature) the bitmap of borrowed top-level entries. -/
structure Table where
  root : Nat
  borrowed : Nat → Bool

/-- `PageTable64::try_new`: allocate and zero the root frame; the borrowed
bitmap starts all clear. -/
def try_new (s : HMem) : Table × HMem :=
  let (p, s1) := alloc_table s
  ({ root := p, borrowed := fun _ => false }, s1)

/-- `ENTRY_COUNT` of `table64.rs`. -/
def ENTRY_COUNT : Nat := 512

/-- `p4_idx`: `(vaddr >> (12 + 27)) & (ENTRY_COUNT - 1)`. -/
def p4_idx (vaddr : Nat) : Nat := vaddr / 2 ^ 39 % 512

/-- `p3_idx`: `(vaddr >> (12 + 18)) & (ENTRY_COUNT - 1)`. -/
def p3_idx (vaddr : Nat) : Nat := vaddr / 2 ^ 30 % 512

/-- `p2_idx`: `(vaddr >> (12 + 9)) & (ENTRY_COUNT - 1)`. -/
def p2_idx (vaddr : Nat) : Nat := vaddr / 2 ^ 21 % 512

/-- `p1_idx`: `(vaddr >> 12) & (ENTRY_COUNT - 1)`. -/
def p1_idx (vaddr : Nat) : Nat := vaddr / 2 ^ 12 % 512

/-- The `M::LEVELS` constant: the source supports exactly the values 3 and
4 (any other value is `unreachable!`). -/
inductive Levels where
  | three
  | four
deriving DecidableEq, Repr

/-- The numeric value of `M::LEVELS`. -/
def Levels.num : Levels → Nat
  | .three => 3
  | .four => 4

/-- `PageTable64::next_table` (and `next_table_mut`, which performs the
same checks): an entry with zero physical address is `NotMapped`, a huge
entry is `MappedToHugePage`, otherwise the child table frame is returned. -/
def next_table (e : Entry) : Except PtError Nat :=
  if e.paddr = 0 then .error .NotMapped
  else if e.is_huge then .error .MappedToHugePage
  else .ok e.paddr

/-- Whether `next_table` succeeds on this entry (the condition under which
the deallocation walks recurse into it). -/
def nextTableOk (e : Entry) : Bool :=
  decide (e.paddr ≠ 0) && !e.is_huge

/-- The top step of the read-only walk of `PageTable64::get_entry`: with 3
levels the root frame is the `p3` table, with 4 levels the root's `p4`
entry is followed through `next_table`. -/
def topFrame (s : HMem) (t : Table) (L : Levels) (v : Nat) : Except PtError Nat :=
  match L with
  | .three => .ok t.root
  | .four => next_table (s.mem t.root (p4_idx v))

/-- `PageTable64::get_entry`: walk from the root, stopping at a huge entry
or at the final leaf level; returns the location (frame, index) of the
found entry and the page size of that level.  `get_entry_mut` performs the
identical computation (the source duplicates it only for borrow-checker
reasons). -/
def get_entry (s : HMem) (t : Table) (L : Levels) (v : Nat) :
    Except PtError (Nat × Nat × PageSize) :=
  match topFrame s t L v with
  | .error e => .error e
  | .ok p3f =>
    if (s.mem p3f (p3_idx v)).is_huge then .ok (p3f, p3_idx v, .Size1G)
    else
      match next_table (s.mem p3f (p3_idx v)) with
      | .error e => .error e
      | .ok p2f =>
        if (s.mem p2f (p2_idx v)).is_huge then .ok (p2f, p2_idx v, .Size2M)
        else
          match next_table (s.mem p2f (p2_idx v)) with
          | .error e => .error e
          | .ok p1f => .ok (p1f, p1_idx v, .Size4K)

/-- `PageTable64::query`: walk to the entry, require it to be present, and
return its physical address with the in-page offset added back, its flags
and its size. -/
def query (s : HMem) (t : Table) (L : Levels) (v : Nat) :
    Except PtError (Nat × PagingFlags × PageSize) :=
  match get_entry s t L v with
  | .error e => .error e
  | .ok (f, i, size) =>
    if !(s.mem f i).is_present then .error .NotMapped
    else .ok ((s.mem f i).paddr + size.align_offset v, (s.mem f i).flags, size)

/-- `FLUSH_THRESHOLD` of `table64.rs`: the `ArrayVec` capacity. -/
def FLUSH_THRESHOLD : Nat := 16

/-- The `ToFlush` state machine of deferred TLB invalidations:
`None → Addresses(≤16) → Full`. -/
inductive ToFlush where
  | noneYet
  | addresses (l : List Nat)
  | full
deriving DecidableEq, Repr

/-- `PageTableMut::flush`: record one address; from `None` start a list,
from `Addresses` append — `try_push` fails exactly when the list already
holds `FLUSH_THRESHOLD` addresses, in which case the address is dropped and
the state becomes `Full`; `Full` absorbs everything. -/
def flushOp (fl : ToFlush) (vaddr : Nat) : ToFlush :=
  match fl with
  | .noneYet => .addresses [vaddr]
  | .addresses l =>
      if l.length < FLUSH_THRESHOLD then .addresses (l ++ [vaddr]) else .full
  | .full => .full

/-- `PageTableMut::finish`: the list of `M::flush_tlb` calls issued (each
`some a` a single-address flush, `none` the full flush), together with the
reset (`None`) flush state.  `Drop` of `PageTableMut` calls this too. -/
def finish (fl : ToFlush) : List (Option Nat) × ToFlush :=
  (match fl with
   | .noneYet => []
   | .addresses l => l.map Option.some
   | .full => [Option.none],
   .noneYet)

/-- `PageTableMut::next_table_mut_or_create` at the cell `(f, i)`: if the
entry is unused, allocate a fresh zeroed table frame and install a table
entry for it; otherwise behave as `next_table_mut`. -/
def ntmoc (s : HMem) (f i : Nat) : Except PtError Nat × HMem :=
  let e := s.mem f i
  if e.is_unused then
    let (p, s1) := alloc_table s
    (.ok p, (s1.write f i (Entry.new_table p)))
  else
    (next_table e, s)

/-- The top step of `PageTableMut::get_entry_mut_or_create`: with 3 levels
the root is the `p3` table, with 4 levels the root's `p4` entry is followed
(or created). -/
def topFrameOrCreate (s : HMem) (t : Table) (L : Levels) (v : Nat) :
    Except PtError Nat × HMem :=
  match L with
  | .three => (.ok t.root, s)
  | .four => ntmoc s t.root (p4_idx v)

/-- `PageTableMut::get_entry_mut_or_create`: descend to the level matching
`page_size`, creating intermediate tables on unused entries, and return the
location of the target entry. -/
def gemoc (s : HMem) (t : Table) (L : Levels) (v : Nat) (page_size : PageSize) :
    Except PtError (Nat × Nat) × HMem :=
  match topFrameOrCreate s t L v with
  | (.error e, s1) => (.error e, s1)
  | (.ok p3f, s1) =>
    if page_size = PageSize.Size1G then (.ok (p3f, p3_idx v), s1)
    else
      match ntmoc s1 p3f (p3_idx v) with
      | (.error e, s2) => (.error e, s2)
      | (.ok p2f, s2) =>
        if page_size = PageSize.Size2M then (.ok (p2f, p2_idx v), s2)
        else
          match ntmoc s2 p2f (p2_idx v) with
          | (.error e, s3) => (.error e, s3)
          | (.ok p1f, s3) => (.ok (p1f, p1_idx v), s3)

/-- `PageTableMut::map`: walk-or-create to the entry for `page_size`; fail
with `AlreadyMapped` if it is not unused; otherwise install
`new_page(target aligned down, flags, is_huge)` and record the address for
deferred flush. -/
def map (s : HMem) (t : Table) (L : Levels) (fl : ToFlush)
    (vaddr target : Nat) (page_size : PageSize) (flags : PagingFlags) :
    Except PtError Unit × HMem × ToFlush :=
  match gemoc s t L vaddr page_size with
  | (.error e, s1) => (.error e, s1, fl)
  | (.ok (f, i), s1) =>
    if !(s1.mem f i).is_unused then (.error .AlreadyMapped, s1, fl)
    else
      (.ok (),
       s1.write f i
         (Entry.new_page (page_size.align_down target) flags page_size.is_huge),
       flushOp fl vaddr)

/-- `PageTableMut::remap`: look up the existing entry at whatever level
holds it, overwrite its physical address and flags in place, record the
address for flush, and return the found size. -/
def remap (s : HMem) (t : Table) (L : Levels) (fl : ToFlush)
    (vaddr paddr : Nat) (flags : PagingFlags) :
    Except PtError PageSize × HMem × ToFlush :=
  match get_entry s t L vaddr with
  | .error e => (.error e, s, fl)
  | .ok (f, i, size) =>
    let e1 := (s.mem f i).set_paddr paddr
    let e2 := e1.set_flags flags size.is_huge
    (.ok size, s.write f i e2, flushOp fl vaddr)

/-- `PageTableMut::protect`: like `remap` but flags-only; requires the
found entry to be present. -/
def protect (s : HMem) (t : Table) (L : Levels) (fl : ToFlush)
    (vaddr : Nat) (flags : PagingFlags) :
    Except PtError PageSize × HMem × ToFlush :=
  match get_entry s t L vaddr with
  | .error e => (.error e, s, fl)
  | .ok (f, i, size) =>
    if !(s.mem f i).is_present then (.error .NotMapped, s, fl)
    else
      (.ok size, s.write f i ((s.mem f i).set_flags flags size.is_huge),
       flushOp fl vaddr)

/-- `PageTableMut::unmap`: look up the entry; if not present, clear it
anyway and return `NotMapped` without recording a flush; if present,
capture its paddr and flags, clear it, record the flush, and return the
captured values with the size. -/
def unmap (s : HMem) (t : Table) (L : Levels) (fl : ToFlush) (vaddr : Nat) :
    Except PtError (Nat × PagingFlags × PageSize) × HMem × ToFlush :=
  match get_entry s t L vaddr with
  | .error e => (.error e, s, fl)
  | .ok (f, i, size) =>
    if !(s.mem f i).is_present then
      (.error .NotMapped, s.write f i ((s.mem f i).clear), fl)
    else
      let paddr := (s.mem f i).paddr
      let flags := (s.mem f i).flags
      (.ok (paddr, flags, size), s.write f i ((s.mem f i).clear),
       flushOp fl vaddr)

/-- One single-page mutation request, for reasoning about arbitrary
sequences of operations performed through one `PageTableMut`. -/
inductive Op where
  | map (vaddr target : Nat) (page_size : PageSize) (flags : PagingFlags)
  | unmap (vaddr : Nat)
  | remap (vaddr paddr : Nat) (flags : PagingFlags)
  | protect (vaddr : Nat) (flags : PagingFlags)

/-- Apply one mutation request; the `Bool` reports whether the operation
succeeded (exactly the successful operations record a flush address). -/
def stepOp (s : HMem) (t : Table) (L : Levels) (fl : ToFlush) (op : Op) :
    Bool × HMem × ToFlush :=
  match op with
  | .map v p sz f =>
      match map s t L fl v p sz f with
      | (.ok _, s', fl') => (true, s', fl')
      | (.error _, s', fl') => (false, s', fl')
  | .unmap v =>
      match unmap s t L fl v with
      | (.ok _, s', fl') => (true, s', fl')
      | (.error _, s', fl') => (false, s', fl')
  | .remap v p f =>
      match remap s t L fl v p f with
      | (.ok _, s', fl') => (true, s', fl')
      | (.error _, s', fl') => (false, s', fl')
  | .protect v f =>
      match protect s t L fl v f with
      | (.ok _, s', fl') => (true, s', fl')
      | (.error _, s', fl') => (false, s', fl')

/-- The virtual address an operation targets. -/
def Op.vaddr : Op → Nat
  | .map v _ _ _ => v
  | .unmap v => v
  | .remap v _ _ => v
  | .protect v _ => v

/-- Run a sequence of single-page mutations through one `PageTableMut`
session, collecting the list of recorded (flushed) virtual addresses —
one per successful mutation, in order. -/
def runOps (s : HMem) (t : Table) (L : Levels) (fl : ToFlush) :
    List Op → HMem × ToFlush × List Nat
  | [] => (s, fl, [])
  | op :: rest =>
      let (ok, s', fl') := stepOp s t L fl op
      let (s'', fl'', rec') := runOps s' t L fl' rest
      (s'', fl'', (if ok then [op.vaddr] else []) ++ rec')

/-- `PageTable64::dealloc_tree`: below the last level, recurse into every
entry whose `next_table` succeeds, depth-first in index order, then free
the table's own frame.  `level` counts from the root as in the source; the
recursion stops descending at `level = LEVELS - 1`. -/
def dealloc_tree (s : HMem) (L : Levels) (table_paddr : Nat) : Nat → HMem
  | 0 => s.deallocFrame table_paddr
  | fuel + 1 =>
      let s' := (List.range ENTRY_COUNT).foldl
        (fun acc i =>
          if nextTableOk (s.mem table_paddr i) then
            dealloc_tree acc L (s.mem table_paddr i).paddr fuel
          else acc) s
      s'.deallocFrame table_paddr

/-- `Drop for PageTable64`: for every non-borrowed root entry whose
`next_table` succeeds, deallocate the child subtree (the root is `level`
0, so children get `LEVELS - 2` further levels of recursion), then free the
root frame. -/
def dropTable (s : HMem) (t : Table) (L : Levels) : HMem :=
  let s' := (List.range ENTRY_COUNT).foldl
    (fun acc i =>
      if t.borrowed i then acc
      else if nextTableOk (s.mem t.root i) then
        dealloc_tree acc L (s.mem t.root i).paddr (L.num - 2)
      else acc) s
  s'.deallocFrame t.root

/-- `PageTableMut::copy_from`, inner loop over one top-level index: if the
borrowed bit was not already set and the destination entry leads to a
subtree, deallocate that subtree; then overwrite the entry with the source
table's entry bit pattern and mark the index borrowed.  Deallocation reads
the destination state before this loop's writes to other indices cannot
alias it (each index is written once, and reads of the source go to the
other table's root frame). -/
def copyFromStep (src : Table) (dst : Table) (L : Levels) (s : HMem) (i : Nat) :
    Table × HMem :=
  let wasBorrowed := dst.borrowed i
  let dst' := { dst with borrowed := fun j => if j = i then true else dst.borrowed j }
  let e := s.mem dst.root i
  let s1 := if ¬wasBorrowed ∧ nextTableOk e then
              dealloc_tree s L e.paddr (L.num - 2)
            else s
  (dst', s1.write dst.root i (s1.mem src.root i))

/-- `PageTableMut::copy_from`: for `size > 0`, copy the top-level entries
of the other table over the index range `[index_fn(start),
index_fn(start + size - 1) + 1)`, marking each index borrowed (and freeing
any subtree this table owned there). -/
def copy_from (s : HMem) (dst : Table) (src : Table) (L : Levels)
    (start size : Nat) : Table × HMem :=
  if size = 0 then (dst, s)
  else
    let index_fn := match L with
      | .three => p3_idx
      | .four => p4_idx
    let start_idx := index_fn start
    let end_idx := index_fn (start + size - 1) + 1
    (List.range' start_idx (end_idx - start_idx)).foldl
      (fun (acc : Table × HMem) i => copyFromStep src acc.1 L acc.2 i)
      (dst, s)

/-- Rust release-mode `usize` subtraction: wraps modulo `2^64`. -/
def usizeSub (a b : Nat) : Nat := (a + 2 ^ 64 - b) % 2 ^ 64

/-- Rust release-mode `usize` addition: wraps modulo `2^64`. -/
def usizeAdd (a b : Nat) : Nat := (a + b) % 2 ^ 64

/-- The page-size selection of `PageTableMut::map_region`: with
`allow_huge`, try `Size1G` then `Size2M` (virtual and physical alignment
and enough remaining size), falling back to `Size4K`; without `allow_huge`
always `Size4K`. -/
def chooseSize (allow_huge : Bool) (vaddr paddr rem : Nat) : PageSize :=
  if allow_huge then
    if PageSize.Size1G.is_aligned vaddr ∧ PageSize.Size1G.is_aligned paddr
        ∧ rem ≥ PageSize.Size1G.bytes then
      .Size1G
    else if PageSize.Size2M.is_aligned vaddr ∧ PageSize.Size2M.is_aligned paddr
        ∧ rem ≥ PageSize.Size2M.bytes then
      .Size2M
    else .Size4K
  else .Size4K

/-- The `while rem_size > 0` loop of `PageTableMut::map_region`, with a
fuel bound (`none` = fuel exhausted) and the chronological trace of the
`map` calls it issues (virtual address, physical address from the getter,
chosen size); a failing `map` call is the last entry of the trace. -/
def mapRegionLoop (t : Table) (L : Levels) (getter : Nat → Nat)
    (flags : PagingFlags) (allow_huge : Bool) :
    Nat → HMem → ToFlush → Nat → Nat →
    Option (Except PtError Unit × HMem × ToFlush × List (Nat × Nat × PageSize))
  | 0, _, _, _, _ => none
  | fuel + 1, s, fl, vaddr_val, rem =>
    if rem = 0 then some (.ok (), s, fl, [])
    else
      let p_addr := getter vaddr_val
      let p_size := chooseSize allow_huge vaddr_val p_addr rem
      match map s t L fl vaddr_val p_addr p_size flags with
      | (.error e, s', fl') => some (.error e, s', fl', [(vaddr_val, p_addr, p_size)])
      | (.ok _, s', fl') =>
        match mapRegionLoop t L getter flags allow_huge fuel s' fl'
            (usizeAdd vaddr_val p_size.bytes) (usizeSub rem p_size.bytes) with
        | none => none
        | some (res, s'', fl'', tr) =>
            some (res, s'', fl'', (vaddr_val, p_addr, p_size) :: tr)

/-- `PageTableMut::map_region`: reject a start address or size that is not
base-page aligned, then run the greedy chunking loop. -/
def map_region (s : HMem) (t : Table) (L : Levels) (fl : ToFlush)
    (vaddr : Nat) (getter : Nat → Nat) (size : Nat) (flags : PagingFlags)
    (allow_huge : Bool) (fuel : Nat) :
    Option (Except PtError Unit × HMem × ToFlush × List (Nat × Nat × PageSize)) :=
  if ¬ PageSize.Size4K.is_aligned vaddr ∨ ¬ PageSize.Size4K.is_aligned size then
    some (.error .NotAligned, s, fl, [])
  else mapRegionLoop t L getter flags allow_huge fuel s fl vaddr size

/-- One iteration record of `unmap_region` / `protect_region`: the current
virtual address, the remaining size before the step, and the page size by
which the loop advanced. -/
structure RegionStep where
  vaddr : Nat
  rem : Nat
  psize : PageSize
deriving DecidableEq, Repr

/-- The `while rem_size > 0` loop of `PageTableMut::unmap_region`: call
`unmap`, abort on error, otherwise advance by the reported page size with
wrapping `usize` arithmetic.  Fuel-bounded; returns the iteration trace. -/
def unmapRegionLoop (t : Table) (L : Levels) :
    Nat → HMem → ToFlush → Nat → Nat →
    Option (Except PtError Unit × HMem × ToFlush × List RegionStep)
  | 0, _, _, _, _ => none
  | fuel + 1, s, fl, vaddr_val, rem =>
    if rem = 0 then some (.ok (), s, fl, [])
    else
      match unmap s t L fl vaddr_val with
      | (.error e, s', fl') => some (.error e, s', fl', [])
      | (.ok (_, _, p_size), s', fl') =>
        match unmapRegionLoop t L fuel s' fl'
            (usizeAdd vaddr_val p_size.bytes) (usizeSub rem p_size.bytes) with
        | none => none
        | some (res, s'', fl'', tr) =>
            some (res, s'', fl'', ⟨vaddr_val, rem, p_size⟩ :: tr)

/-- `PageTableMut::unmap_region` (fuel-bounded, with iteration trace). -/
def unmap_region (s : HMem) (t : Table) (L : Levels) (fl : ToFlush)
    (vaddr size fuel : Nat) :
    Option (Except PtError Unit × HMem × ToFlush × List RegionStep) :=
  unmapRegionLoop t L fuel s fl vaddr size

/-- The `while rem_size > 0` loop of `PageTableMut::protect_region`: call
`protect`; a `NotMapped` result is tolerated and treated as a `Size4K`
step; any other error aborts.  Fuel-bounded; returns the iteration trace. -/
def protectRegionLoop (t : Table) (L : Levels) (flags : PagingFlags) :
    Nat → HMem → ToFlush → Nat → Nat →
    Option (Except PtError Unit × HMem × ToFlush × List RegionStep)
  | 0, _, _, _, _ => none
  | fuel + 1, s, fl, vaddr_val, rem =>
    if rem = 0 then some (.ok (), s, fl, [])
    else
      match protect s t L fl vaddr_val flags with
      | (.error .NotMapped, s', fl') =>
        match protectRegionLoop t L flags fuel s' fl'
            (usizeAdd vaddr_val PageSize.Size4K.bytes)
            (usizeSub rem PageSize.Size4K.bytes) with
        | none => none
        | some (res, s'', fl'', tr) =>
            some (res, s'', fl'', ⟨vaddr_val, rem, .Size4K⟩ :: tr)
      | (.error e, s', fl') => some (.error e, s', fl', [])
      | (.ok p_size, s', fl') =>
        match protectRegionLoop t L flags fuel s' fl'
            (usizeAdd vaddr_val p_size.bytes) (usizeSub rem p_size.bytes) with
        | none => none
        | some (res, s'', fl'', tr) =>
            some (res, s'', fl'', ⟨vaddr_val, rem, p_size⟩ :: tr)

/-- `PageTableMut::protect_region` (fuel-bounded, with iteration trace). -/
def protect_region (s : HMem) (t : Table) (L : Levels) (fl : ToFlush)
    (vaddr size : Nat) (flags : PagingFlags) (fuel : Nat) :
    Option (Except PtError Unit × HMem × ToFlush × List RegionStep) :=
  protectRegionLoop t L flags fuel s fl vaddr size

/-! ### Architecture entry codecs (`src/mm/page_table/src/arch/`)

The raw 64-bit entries are modelled as `Nat` with field extraction written
as `% 2^k / 2^j` arithmetic; flag-bit sets and the (disjoint) address-bit
field are combined by addition, which on these disjoint bit ranges agrees
with the source's bitwise `|`. -/

/-- The x86_64 hardware flag bits used by the codec (`PTF` of the `x86_64`
crate): `PRESENT` bit 0, `WRITABLE` bit 1, `USER_ACCESSIBLE` bit 2,
`WRITE_THROUGH` bit 3, `NO_CACHE` bit 4, `HUGE_PAGE` bit 7, `NO_EXECUTE`
bit 63. -/
structure PTF where
  present : Bool
  writable : Bool
  user : Bool
  writeThrough : Bool
  noCache : Bool
  huge : Bool
  noExecute : Bool
deriving DecidableEq, Repr

/-- `PTF::bits`: the raw bit pattern of the flag set. -/
def PTF.bits (f : PTF) : Nat :=
  (if f.present then 1 else 0) + (if f.writable then 2 else 0) +
  (if f.user then 4 else 0) + (if f.writeThrough then 8 else 0) +
  (if f.noCache then 16 else 0) + (if f.huge then 128 else 0) +
  (if f.noExecute then 2 ^ 63 else 0)

/-- `PTF::from_bits_truncate`: read the used flag bits out of a raw 64-bit
value. -/
def PTF.ofBits (e : Nat) : PTF :=
  ⟨e % 2 = 1, e / 2 % 2 = 1, e / 4 % 2 = 1, e / 8 % 2 = 1,
   e / 16 % 2 = 1, e / 128 % 2 = 1, e / 2 ^ 63 % 2 = 1⟩

/-- `impl From&lt;PagingFlags&gt; for PTF` (x86_64.rs): empty maps to empty;
otherwise `PRESENT` is always set, `WRITABLE` from `WRITE`, `NO_EXECUTE`
from the absence of `EXECUTE`, `USER_ACCESSIBLE` from `USER`, and
`NO_CACHE | WRITE_THROUGH` from `DEVICE` or `UNCACHED`. -/
def ptfOfFlags (f : PagingFlags) : PTF :=
  if f.is_empty then ⟨false, false, false, false, false, false, false⟩
  else
    { present := true
      writable := f.write
      user := f.user
      writeThrough := f.device || f.uncached
      noCache := f.device || f.uncached
      huge := false
      noExecute := !f.execute }

/-- `impl From&lt;PTF&gt; for PagingFlags` (x86_64.rs): non-present maps to
empty; otherwise `READ` is always set, `WRITE` from `WRITABLE`, `EXECUTE`
from the absence of `NO_EXECUTE`, `USER` from `USER_ACCESSIBLE`, `UNCACHED`
from `NO_CACHE`. -/
def flagsOfPtf (f : PTF) : PagingFlags :=
  if !f.present then PagingFlags.empty
  else
    { read := true
      write := f.writable
      execute := !f.noExecute
      user := f.user
      device := false
      uncached := f.noCache }

/-- `X64PageEntry::PADDR_MASK` application: `e & 0x000f_ffff_ffff_f000`,
the bit range 12–51. -/
def x64Mask (e : Nat) : Nat := e % 2 ^ 52 / 2 ^ 12 * 2 ^ 12

/-- `X64PageEntry::new_page`: the hardware flag bits (plus `HUGE_PAGE` when
huge) combined with the masked physical address. -/
def x64_new_page (paddr : Nat) (flags : PagingFlags) (is_huge : Bool) : Nat :=
  { ptfOfFlags flags with huge := is_huge || (ptfOfFlags flags).huge }.bits
    + x64Mask paddr

/-- `X64PageEntry::paddr`. -/
def x64_paddr (e : Nat) : Nat := x64Mask e

/-- `X64PageEntry::flags`. -/
def x64_flags (e : Nat) : PagingFlags := flagsOfPtf (PTF.ofBits e)

/-- `X64PageEntry::is_huge`. -/
def x64_is_huge (e : Nat) : Bool := (PTF.ofBits e).huge

/-- The RISC-V `RvFlags` bits used by the codec: `V` bit 0, `R` bit 1, `W`
bit 2, `X` bit 3, `U` bit 4, `A` bit 6, `D` bit 7. -/
structure RvFlags where
  v : Bool
  r : Bool
  w : Bool
  x : Bool
  u : Bool
  a : Bool
  d : Bool
deriving DecidableEq, Repr

/-- `RvFlags::bits`. -/
def RvFlags.bits (f : RvFlags) : Nat :=
  (if f.v then 1 else 0) + (if f.r then 2 else 0) + (if f.w then 4 else 0) +
  (if f.x then 8 else 0) + (if f.u then 16 else 0) + (if f.a then 64 else 0) +
  (if f.d then 128 else 0)

/-- `RvFlags::from_bits_truncate` on a raw entry value. -/
def RvFlags.ofBits (e : Nat) : RvFlags :=
  ⟨e % 2 = 1, e / 2 % 2 = 1, e / 4 % 2 = 1, e / 8 % 2 = 1,
   e / 16 % 2 = 1, e / 64 % 2 = 1, e / 128 % 2 = 1⟩

/-- `impl From&lt;PagingFlags&gt; for RvFlags` (riscv.rs): empty maps to empty;
otherwise `V` is always set and `R`/`W`/`X`/`U` mirror
`READ`/`WRITE`/`EXECUTE`/`USER`. -/
def rvOfFlags (f : PagingFlags) : RvFlags :=
  if f.is_empty then ⟨false, false, false, false, false, false, false⟩
  else ⟨true, f.read, f.write, f.execute, f.user, false, false⟩

/-- `impl From&lt;RvFlags&gt; for PagingFlags` (riscv.rs): non-`V` maps to
empty; otherwise `R`/`W`/`X`/`U` map back to
`READ`/`WRITE`/`EXECUTE`/`USER` (`DEVICE` and `UNCACHED` are dropped). -/
def flagsOfRv (f : RvFlags) : PagingFlags :=
  if !f.v then PagingFlags.empty
  else { read := f.r, write := f.w, execute := f.x, user := f.u,
         device := false, uncached := false }

/-- `Rv64PageEntry::PADDR_MASK` application on the shifted address:
`x & ((1 << 54) - (1 << 10))`, the bit range 10–53. -/
def rvMask (e : Nat) : Nat := e % 2 ^ 54 / 2 ^ 10 * 2 ^ 10

/-- `Rv64PageEntry::new_page`: flag bits (with `A | D` always added, the
huge argument ignored) combined with `(paddr >> 2) & PADDR_MASK`. -/
def rv_new_page (paddr : Nat) (flags : PagingFlags) (_is_huge : Bool) : Nat :=
  { rvOfFlags flags with a := true, d := true }.bits + rvMask (paddr / 4)

/-- `Rv64PageEntry::paddr`: `(e & PADDR_MASK) << 2`. -/
def rv_paddr (e : Nat) : Nat := rvMask e * 4

/-- `Rv64PageEntry::flags`. -/
def rv_flags (e : Nat) : PagingFlags := flagsOfRv (RvFlags.ofBits e)

/-- `Rv64PageEntry::is_huge`: `V && (R || X)` — hugeness on RISC-V is
read off the permission bits, not a dedicated bit. -/
def rv_is_huge (e : Nat) : Bool :=
  (RvFlags.ofBits e).v && ((RvFlags.ofBits e).r || (RvFlags.ofBits e).x)

/-! ### Theorems -/

/-- A convenient nonempty flag value: `READ | WRITE`. -/
def flagsRW : PagingFlags := ⟨true, true, false, false, false, false⟩

/-- The flag value `WRITE` alone (no `READ`). -/
def flagsW : PagingFlags := ⟨false, true, false, false, false, false⟩

/-- C8 counterexample: the claim "`flags()` = flags … for every flag
combination" fails on the x86_64 codec at the concrete input
`flags = WRITE`: the entry built by `new_page(0, WRITE, false)` reads its
flags back as `READ | WRITE` (x86 cannot encode write-without-read, the
`From&lt;PTF&gt;` conversion unconditionally adds `READ` for present entries).
Also the RISC-V codec violates `is_huge() = huge`: a non-huge readable 4K
page reads back `is_huge() = true` (`V && (R || X)`). -/
theorem c8_counterexample :
    x64_flags (x64_new_page 0 flagsW false) ≠ flagsW ∧
    x64_flags (x64_new_page 0 flagsW false) = flagsRW ∧
    rv_is_huge (rv_new_page 0 flagsRW false) ≠ false := by
  refine ⟨?_, ?_, ?_⟩ <;> decide

set_option maxHeartbeats 4000000 in
/-- The x86_64 bit-pattern decomposition: reading the flag bits and the
masked address back out of `flagbits | (paddr & PADDR_MASK)` recovers both
parts, because the flag bits (bits 0–7 and 63) and the address bits
(12–51) are disjoint. -/
lemma ptf_ofBits_bits_add (g : PTF) (p : Nat) (hp : p % 4096 = 0)
    (hlt : p < 2 ^ 52) :
    PTF.ofBits (g.bits + p) = g ∧ x64Mask (g.bits + p) = p := by
  rcases g with ⟨b0, b1, b2, b3, b4, b5, b6⟩
  rcases b0 <;> rcases b1 <;> rcases b2 <;> rcases b3 <;> rcases b4 <;>
    rcases b5 <;> rcases b6 <;>
    (simp [PTF.bits, PTF.ofBits, PTF.mk.injEq, x64Mask]; omega)

set_option maxHeartbeats 4000000 in
/-- The RISC-V analogue: flag bits 0–7 and the shifted address bits 10–53
are disjoint. -/
lemma rv_ofBits_bits_add (g : RvFlags) (q : Nat) (hq : q % 1024 = 0)
    (hlt : q < 2 ^ 54) :
    RvFlags.ofBits (g.bits + q) = g ∧ rvMask (g.bits + q) = q := by
  rcases g with ⟨b0, b1, b2, b3, b4, b5, b6⟩
  rcases b0 <;> rcases b1 <;> rcases b2 <;> rcases b3 <;> rcases b4 <;>
    rcases b5 <;> rcases b6 <;>
    (simp [RvFlags.bits, RvFlags.ofBits, RvFlags.mk.injEq, rvMask]; omega)

/-- Round trip of the x86_64 flag conversions alone, on the combinations
they encode losslessly. -/
lemma flagsOfPtf_ptfOfFlags (f : PagingFlags) (h : Bool)
    (hf : f = PagingFlags.empty ∨ (f.read = true ∧ f.device = false)) :
    flagsOfPtf { ptfOfFlags f with huge := h || (ptfOfFlags f).huge } = f := by
  rcases f with ⟨r, w, x, u, d, c⟩
  rcases r <;> rcases w <;> rcases x <;> rcases u <;> rcases d <;> rcases c <;>
    rcases h <;> first
      | exact absurd hf (by decide)
      | decide

/-- The `From&lt;PagingFlags&gt;` conversion never sets `HUGE_PAGE` by itself. -/
lemma ptfOfFlags_huge (f : PagingFlags) : (ptfOfFlags f).huge = false := by
  rcases f with ⟨r, w, x, u, d, c⟩
  rcases r <;> rcases w <;> rcases x <;> rcases u <;> rcases d <;> rcases c <;>
    decide

/-- Round trip of the RISC-V flag conversions alone, when `DEVICE` and
`UNCACHED` (which the codec drops) are absent. -/
lemma flagsOfRv_rvOfFlags (f : PagingFlags) (hd : f.device = false)
    (hc : f.uncached = false) :
    flagsOfRv { rvOfFlags f with a := true, d := true } = f := by
  rcases f with ⟨r, w, x, u, d, c⟩
  subst hd; subst hc
  rcases r <;> rcases w <;> rcases x <;> rcases u <;> decide

/-- What the RISC-V entry built by `new_page` reports as `is_huge`. -/
lemma rvOfFlags_hugeRead (f : PagingFlags) :
    (({ rvOfFlags f with a := true, d := true } : RvFlags).v &&
      (({ rvOfFlags f with a := true, d := true } : RvFlags).r ||
        ({ rvOfFlags f with a := true, d := true } : RvFlags).x))
      = (!f.is_empty && (f.read || f.execute)) := by
  rcases f with ⟨r, w, x, u, d, c⟩
  rcases r <;> rcases w <;> rcases x <;> rcases u <;> rcases d <;> rcases c <;>
    decide

/-- C8 (amended): the entry codecs round-trip `(paddr, flags, huge)`
exactly on the combinations they can encode losslessly.  On x86_64 this
holds for every flag set that is empty, or contains `READ` and not
`DEVICE`, with `paddr` 4K-aligned below `2^52`; on RISC-V the flags
round-trip whenever `DEVICE` and `UNCACHED` are absent, with `paddr`
4K-aligned below `2^56`, but `is_huge()` reads back
`¬flags.is_empty && (READ || EXECUTE)` — the `huge` argument of `new_page`
is ignored — so the huge bit round-trips only through the engine's
convention of querying `is_huge` solely on intermediate-level entries. -/
theorem c8_entry_codec_roundtrip :
    (∀ p f h, p % 4096 = 0 → p < 2 ^ 52 →
      (f = PagingFlags.empty ∨ (f.read = true ∧ f.device = false)) →
      x64_paddr (x64_new_page p f h) = p ∧
      x64_flags (x64_new_page p f h) = f ∧
      x64_is_huge (x64_new_page p f h) = h) ∧
    (∀ p f h, p % 4096 = 0 → p < 2 ^ 56 →
      f.device = false → f.uncached = false →
      rv_paddr (rv_new_page p f h) = p ∧
      rv_flags (rv_new_page p f h) = f ∧
      rv_is_huge (rv_new_page p f h) = (!f.is_empty && (f.read || f.execute))) := by
  constructor
  · intro p f h hp hlt hf
    have hmask : x64Mask p = p := by unfold x64Mask; omega
    obtain ⟨h1, h2⟩ :=
      ptf_ofBits_bits_add { ptfOfFlags f with huge := h || (ptfOfFlags f).huge }
        p hp hlt
    unfold x64_new_page x64_paddr x64_flags x64_is_huge
    rw [hmask, h1, h2]
    refine ⟨rfl, flagsOfPtf_ptfOfFlags f h hf, ?_⟩
    simp [ptfOfFlags_huge]
  · intro p f h hp hlt hd hc
    have hq : p / 4 % 1024 = 0 := by omega
    have hqlt : p / 4 < 2 ^ 54 := by omega
    have hmask : rvMask (p / 4) = p / 4 := by unfold rvMask; omega
    obtain ⟨h1, h2⟩ :=
      rv_ofBits_bits_add { rvOfFlags f with a := true, d := true }
        (p / 4) hq hqlt
    unfold rv_new_page rv_paddr rv_flags rv_is_huge
    rw [hmask, h1, h2]
    refine ⟨by omega, flagsOfRv_rvOfFlags f hd hc, rvOfFlags_hugeRead f⟩

/-- C8 witness: the amended round-trip evaluated at concrete inputs
(`paddr = 4096`, `flags = READ|WRITE`, both architectures). -/
theorem c8_entry_codec_roundtrip_witness :
    x64_flags (x64_new_page 4096 flagsRW true) = flagsRW ∧
    rv_paddr (rv_new_page 4096 flagsRW false) = 4096 :=
  ⟨(c8_entry_codec_roundtrip.1 4096 flagsRW true (by decide) (by decide)
      (Or.inr (by decide))).2.1,
   (c8_entry_codec_roundtrip.2 4096 flagsRW false (by decide) (by decide)
      (by decide) (by decide)).1⟩

/-- Every mutation updates the pending-flush record exactly when it
succeeds: a successful operation records its virtual address via `flush`,
a failed one leaves the record untouched. -/
lemma stepOp_flush (s : HMem) (t : Table) (L : Levels) (fl : ToFlush) (op : Op) :
    (stepOp s t L fl op).2.2 =
      if (stepOp s t L fl op).1 then flushOp fl op.vaddr else fl := by
  cases op with
  | map v p sz fgs =>
      simp only [stepOp, map, Op.vaddr]
      rcases hg : gemoc s t L v sz with ⟨res, s1⟩
      cases res with
      | error e => simp
      | ok loc =>
          rcases loc with ⟨f, i⟩
          by_cases hu : (s1.mem f i).is_unused <;> simp [hu]
  | unmap v =>
      simp only [stepOp, unmap, Op.vaddr]
      rcases hg : get_entry s t L v with e | loc
      · simp
      · rcases loc with ⟨f, i, sz⟩
        by_cases hp : (s.mem f i).is_present <;> simp [hp]
  | remap v p fgs =>
      simp only [stepOp, remap, Op.vaddr]
      rcases hg : get_entry s t L v with e | loc
      · simp
      · rcases loc with ⟨f, i, sz⟩; simp
  | protect v fgs =>
      simp only [stepOp, protect, Op.vaddr]
      rcases hg : get_entry s t L v with e | loc
      · simp
      · rcases loc with ⟨f, i, sz⟩
        by_cases hp : (s.mem f i).is_present <;> simp [hp]

/-- The pending-flush state after a mutation sequence is the fold of the
`flush` transition over the recorded (successful) addresses. -/
lemma runOps_flush (t : Table) (L : Levels) :
    ∀ (ops : List Op) (s : HMem) (fl : ToFlush),
      (runOps s t L fl ops).2.1 =
        List.foldl flushOp fl (runOps s t L fl ops).2.2 := by
  intro ops
  induction ops with
  | nil => intro s fl; simp [runOps]
  | cons op rest ih =>
      intro s fl
      have hstep := stepOp_flush s t L fl op
      rcases hs : stepOp s t L fl op with ⟨ok, s', fl'⟩
      rw [hs] at hstep
      simp only at hstep
      cases ok with
      | true =>
          simp only [runOps, hs, if_true, List.singleton_append]
          rw [ih s' fl', hstep]
          simp
      | false =>
          simp only [runOps, hs, if_false, List.nil_append]
          rw [ih s' fl', hstep]
          simp

/-- The `Full` state absorbs further flush recordings. -/
lemma foldl_flushOp_full (l : List Nat) :
    List.foldl flushOp .full l = .full := by
  induction l with
  | nil => rfl
  | cons v l ih => simpa [flushOp] using ih

/-- Folding the flush transition from an `Addresses` state: within the
capacity the addresses accumulate in order; one past it the state degrades
permanently to `Full`. -/
lemma foldl_flushOp_addresses (l : List Nat) :
    ∀ acc : List Nat, acc.length ≤ 16 →
      List.foldl flushOp (.addresses acc) l =
        if (acc ++ l).length ≤ 16 then .addresses (acc ++ l) else .full := by
  induction l with
  | nil => intro acc hacc; simp [hacc]
  | cons v l ih =>
      intro acc hacc
      by_cases hlt : acc.length < 16
      · have : flushOp (.addresses acc) v = .addresses (acc ++ [v]) := by
          simp [flushOp, FLUSH_THRESHOLD, hlt]
        rw [List.foldl_cons, this, ih (acc ++ [v]) (by simp; omega)]
        simp only [List.append_assoc, List.singleton_append]
      · have h16 : acc.length = 16 := by omega
        have : flushOp (.addresses acc) v = .full := by
          simp [flushOp, FLUSH_THRESHOLD, h16]
        rw [List.foldl_cons, this, foldl_flushOp_full]
        simp only [List.length_append, List.length_cons]
        rw [if_neg (by omega)]

/-- Folding the flush transition from the initial `None` state. -/
lemma foldl_flushOp_none (l : List Nat) :
    List.foldl flushOp .noneYet l =
      match l with
      | [] => .noneYet
      | _ => if l.length ≤ 16 then .addresses l else .full := by
  cases l with
  | nil => rfl
  | cons v l =>
      have : flushOp .noneYet v = .addresses [v] := rfl
      rw [List.foldl_cons, this, foldl_flushOp_addresses l [v] (by simp)]
      simp

/-- C5: flush batching threshold.  For any sequence of single-page
mutations in one `PageTableMut` session started with an empty flush
record, if the number of recorded (successfully mutated) addresses is at
most 16 then `finish` issues exactly that many single-address
`flush_tlb(Some(addr))` calls, one per recorded address in order; if 17
addresses were recorded, `finish` issues exactly one full `flush_tlb(None)`
call; in every case the pending-flush state afterwards is reset to `None`. -/
theorem c5_flush_batching (s : HMem) (t : Table) (L : Levels) (ops : List Op) :
    ((runOps s t L .noneYet ops).2.2.length ≤ 16 →
      (finish (runOps s t L .noneYet ops).2.1).1 =
        (runOps s t L .noneYet ops).2.2.map Option.some) ∧
    ((runOps s t L .noneYet ops).2.2.length = 17 →
      (finish (runOps s t L .noneYet ops).2.1).1 = [Option.none]) ∧
    (finish (runOps s t L .noneYet ops).2.1).2 = .noneYet := by
  have hfold := runOps_flush t L ops s .noneYet
  rw [foldl_flushOp_none] at hfold
  refine ⟨?_, ?_, ?_⟩
  · intro hle
    rw [hfold]
    rcases hrec : (runOps s t L .noneYet ops).2.2 with _ | ⟨v, l⟩
    · simp [finish]
    · rw [hrec] at hle
      simp only [hrec, hle, if_true, finish]
  · intro h17
    rw [hfold]
    rcases hrec : (runOps s t L .noneYet ops).2.2 with _ | ⟨v, l⟩
    · rw [hrec] at h17; simp at h17
    · rw [hrec] at h17
      have : ¬ ((v :: l).length ≤ 16) := by omega
      simp only [hrec, this, if_false, finish]
  · rcases hfl : (runOps s t L .noneYet ops).2.1 <;> simp [finish]

/-- C5 witness: a concrete two-mutation session records two addresses and
`finish` issues exactly the two single-address flushes. -/
theorem c5_flush_batching_witness :
    (runOps (try_new HMem.init).2 (try_new HMem.init).1 .four .noneYet
        [.map 4096 8192 .Size4K flagsRW, .map 8192 8192 .Size4K flagsRW]).2.2.length ≤ 16 ∧
    (finish (runOps (try_new HMem.init).2 (try_new HMem.init).1 .four .noneYet
        [.map 4096 8192 .Size4K flagsRW, .map 8192 8192 .Size4K flagsRW]).2.1).1 =
      [some 4096, some 8192] := by
  have h := (c5_flush_batching (try_new HMem.init).2 (try_new HMem.init).1 .four
    [.map 4096 8192 .Size4K flagsRW, .map 8192 8192 .Size4K flagsRW]).1
  have hrec : (runOps (try_new HMem.init).2 (try_new HMem.init).1 .four .noneYet
      [.map 4096 8192 .Size4K flagsRW, .map 8192 8192 .Size4K flagsRW]).2.2 =
      [4096, 8192] := by decide
  refine ⟨by rw [hrec]; decide, ?_⟩
  rw [h (by rw [hrec]; decide), hrec]
  rfl

/-- Modelled from the spec: `PagingMetaData::vaddr_is_valid` — "rejects
addresses outside the architecture's canonical virtual-address range"
(spec section 6), i.e. for a `VA_MAX_BITS`-bit scheme the 64-bit address
must be a sign extension of its low `VA_MAX_BITS` bits. -/
def vaddr_is_valid (vaBits v : Nat) : Bool :=
  decide (v < 2 ^ (vaBits - 1)) ||
    (decide (2 ^ 64 - 2 ^ (vaBits - 1) ≤ v) && decide (v < 2 ^ 64))

/-- C7 counterexample: the engine performs no virtual-address validation.
`2^47` is non-canonical for the 4-level 48-bit scheme
(`vaddr_is_valid 48 (2^47) = false`), yet `map` on a fresh table accepts
it, returns `Ok` and installs a live mapping there (`query` finds it),
instead of rejecting the address before the walk. -/
theorem c7_counterexample :
    vaddr_is_valid 48 (2 ^ 47) = false ∧
    (map (try_new HMem.init).2 (try_new HMem.init).1 .four .noneYet
        (2 ^ 47) 4096 .Size4K flagsRW).1 = .ok () ∧
    query (map (try_new HMem.init).2 (try_new HMem.init).1 .four .noneYet
        (2 ^ 47) 4096 .Size4K flagsRW).2.1 (try_new HMem.init).1 .four (2 ^ 47)
      = .ok (4096, flagsRW, .Size4K) := by
  exact ⟨by decide, rfl, rfl⟩

/-- The read-only walk depends on the virtual address only through the
four per-level index functions. -/
lemma get_entry_congr (s : HMem) (t : Table) (L : Levels) {v w : Nat}
    (h4 : L = .four → p4_idx v = p4_idx w) (h3 : p3_idx v = p3_idx w)
    (h2 : p2_idx v = p2_idx w) (h1 : p1_idx v = p1_idx w) :
    get_entry s t L v = get_entry s t L w := by
  cases L
  · simp only [get_entry, topFrame, h1, h2, h3]
  · simp only [get_entry, topFrame, h1, h2, h3, h4 rfl]

/-- `query` depends on the virtual address only through the index
functions and the in-page offset. -/
lemma query_congr (s : HMem) (t : Table) (L : Levels) {v w : Nat}
    (h4 : L = .four → p4_idx v = p4_idx w) (h3 : p3_idx v = p3_idx w)
    (h2 : p2_idx v = p2_idx w) (h1 : p1_idx v = p1_idx w)
    (ho : ∀ sz : PageSize, sz.align_offset v = sz.align_offset w) :
    query s t L v = query s t L w := by
  unfold query
  rw [get_entry_congr s t L h4 h3 h2 h1]
  rcases get_entry s t L w with e | ⟨f, i, sz⟩
  · rfl
  · simp [ho sz]

/-- The create-walk depends on the virtual address only through the index
functions. -/
lemma gemoc_congr (s : HMem) (t : Table) (L : Levels) {v w : Nat}
    (h4 : L = .four → p4_idx v = p4_idx w) (h3 : p3_idx v = p3_idx w)
    (h2 : p2_idx v = p2_idx w) (h1 : p1_idx v = p1_idx w)
    (sz : PageSize) : gemoc s t L v sz = gemoc s t L w sz := by
  cases L
  · simp only [gemoc, topFrameOrCreate, h1, h2, h3]
  · simp only [gemoc, topFrameOrCreate, h1, h2, h3, h4 rfl]

/-- The number of virtual-address bits the walk consumes: the index fields
of a 4-level walk span bits 12–47, those of a 3-level walk bits 12–38
(each on top of the 12 page-offset bits). -/
def vaBits : Levels → Nat
  | .three => 39
  | .four => 48

/-- `map` depends on its address only through the index functions, except
that the address recorded for flush on success is the original one. -/
lemma map_congr_full (s : HMem) (t : Table) (L : Levels) (fl : ToFlush)
    {v w : Nat}
    (h4 : L = .four → p4_idx v = p4_idx w) (h3 : p3_idx v = p3_idx w)
    (h2 : p2_idx v = p2_idx w) (h1 : p1_idx v = p1_idx w)
    (p : Nat) (sz : PageSize) (fgs : PagingFlags) :
    (map s t L fl v p sz fgs).1 = (map s t L fl w p sz fgs).1 ∧
    (map s t L fl v p sz fgs).2.1 = (map s t L fl w p sz fgs).2.1 ∧
    (map s t L fl v p sz fgs).2.2
      = (match (map s t L fl v p sz fgs).1 with
         | .ok _ => flushOp fl v
         | .error _ => fl) ∧
    (map s t L fl w p sz fgs).2.2
      = (match (map s t L fl w p sz fgs).1 with
         | .ok _ => flushOp fl w
         | .error _ => fl) := by
  unfold map
  rw [gemoc_congr s t L h4 h3 h2 h1 sz]
  rcases gemoc s t L w sz with ⟨res, s1⟩
  cases res with
  | error e => exact ⟨rfl, rfl, rfl, rfl⟩
  | ok loc =>
      rcases loc with ⟨f, i⟩
      by_cases hu : (s1.mem f i).is_unused <;> simp [hu]

/-- `remap` depends on its address only through the index functions, except
that the address recorded for flush on success is the original one. -/
lemma remap_congr (s : HMem) (t : Table) (L : Levels) (fl : ToFlush)
    {v w : Nat}
    (h4 : L = .four → p4_idx v = p4_idx w) (h3 : p3_idx v = p3_idx w)
    (h2 : p2_idx v = p2_idx w) (h1 : p1_idx v = p1_idx w)
    (p : Nat) (fgs : PagingFlags) :
    (remap s t L fl v p fgs).1 = (remap s t L fl w p fgs).1 ∧
    (remap s t L fl v p fgs).2.1 = (remap s t L fl w p fgs).2.1 ∧
    (remap s t L fl v p fgs).2.2
      = (match (remap s t L fl v p fgs).1 with
         | .ok _ => flushOp fl v
         | .error _ => fl) ∧
    (remap s t L fl w p fgs).2.2
      = (match (remap s t L fl w p fgs).1 with
         | .ok _ => flushOp fl w
         | .error _ => fl) := by
  unfold remap
  rw [get_entry_congr s t L h4 h3 h2 h1]
  rcases get_entry s t L w with e | ⟨f, i, size⟩
  · exact ⟨rfl, rfl, rfl, rfl⟩
  · exact ⟨rfl, rfl, rfl, rfl⟩

/-- `protect` depends on its address only through the index functions,
except that the address recorded for flush on success is the original
one. -/
lemma protect_congr (s : HMem) (t : Table) (L : Levels) (fl : ToFlush)
    {v w : Nat}
    (h4 : L = .four → p4_idx v = p4_idx w) (h3 : p3_idx v = p3_idx w)
    (h2 : p2_idx v = p2_idx w) (h1 : p1_idx v = p1_idx w)
    (fgs : PagingFlags) :
    (protect s t L fl v fgs).1 = (protect s t L fl w fgs).1 ∧
    (protect s t L fl v fgs).2.1 = (protect s t L fl w fgs).2.1 ∧
    (protect s t L fl v fgs).2.2
      = (match (protect s t L fl v fgs).1 with
         | .ok _ => flushOp fl v
         | .error _ => fl) ∧
    (protect s t L fl w fgs).2.2
      = (match (protect s t L fl w fgs).1 with
         | .ok _ => flushOp fl w
         | .error _ => fl) := by
  unfold protect
  rw [get_entry_congr s t L h4 h3 h2 h1]
  rcases get_entry s t L w with e | ⟨f, i, size⟩
  · exact ⟨rfl, rfl, rfl, rfl⟩
  · cases hp : (s.mem f i).is_present <;> simp [hp]

/-- `unmap` depends on its address only through the index functions (also
in the defensive clear of a non-present entry), except that the address
recorded for flush on success is the original one. -/
lemma unmap_congr (s : HMem) (t : Table) (L : Levels) (fl : ToFlush)
    {v w : Nat}
    (h4 : L = .four → p4_idx v = p4_idx w) (h3 : p3_idx v = p3_idx w)
    (h2 : p2_idx v = p2_idx w) (h1 : p1_idx v = p1_idx w) :
    (unmap s t L fl v).1 = (unmap s t L fl w).1 ∧
    (unmap s t L fl v).2.1 = (unmap s t L fl w).2.1 ∧
    (unmap s t L fl v).2.2
      = (match (unmap s t L fl v).1 with
         | .ok _ => flushOp fl v
         | .error _ => fl) ∧
    (unmap s t L fl w).2.2
      = (match (unmap s t L fl w).1 with
         | .ok _ => flushOp fl w
         | .error _ => fl) := by
  unfold unmap
  rw [get_entry_congr s t L h4 h3 h2 h1]
  rcases get_entry s t L w with e | ⟨f, i, size⟩
  · exact ⟨rfl, rfl, rfl, rfl⟩
  · cases hp : (s.mem f i).is_present <;> simp [hp]

/-- C7 (amended): `table64.rs` never calls `M::vaddr_is_valid` — no
operation validates its virtual address or rejects a non-canonical one.
The walk masks the address down to the per-level index bits, so every
single-page operation (`query`, `map`, `remap`, `protect`, `unmap`, with 3
or 4 levels) returns the same result and leaves the same memory state on
an arbitrary — in particular non-canonical — address as on that address
reduced to its low 48 (4-level) or 39 (3-level) bits; the only trace of
the full address is that a successful mutation records the original,
unmasked address for the deferred TLB flush. -/
theorem c7_no_vaddr_validation :
    ∀ (L : Levels) (s : HMem) (t : Table) (fl : ToFlush) (v : Nat),
      query s t L v = query s t L (v % 2 ^ vaBits L) ∧
      (∀ (p : Nat) (sz : PageSize) (fgs : PagingFlags),
        (map s t L fl v p sz fgs).1
          = (map s t L fl (v % 2 ^ vaBits L) p sz fgs).1 ∧
        (map s t L fl v p sz fgs).2.1
          = (map s t L fl (v % 2 ^ vaBits L) p sz fgs).2.1 ∧
        (map s t L fl v p sz fgs).2.2
          = (match (map s t L fl v p sz fgs).1 with
             | .ok _ => flushOp fl v
             | .error _ => fl) ∧
        (map s t L fl (v % 2 ^ vaBits L) p sz fgs).2.2
          = (match (map s t L fl (v % 2 ^ vaBits L) p sz fgs).1 with
             | .ok _ => flushOp fl (v % 2 ^ vaBits L)
             | .error _ => fl)) ∧
      (∀ (p : Nat) (fgs : PagingFlags),
        (remap s t L fl v p fgs).1
          = (remap s t L fl (v % 2 ^ vaBits L) p fgs).1 ∧
        (remap s t L fl v p fgs).2.1
          = (remap s t L fl (v % 2 ^ vaBits L) p fgs).2.1 ∧
        (remap s t L fl v p fgs).2.2
          = (match (remap s t L fl v p fgs).1 with
             | .ok _ => flushOp fl v
             | .error _ => fl) ∧
        (remap s t L fl (v % 2 ^ vaBits L) p fgs).2.2
          = (match (remap s t L fl (v % 2 ^ vaBits L) p fgs).1 with
             | .ok _ => flushOp fl (v % 2 ^ vaBits L)
             | .error _ => fl)) ∧
      (∀ fgs : PagingFlags,
        (protect s t L fl v fgs).1
          = (protect s t L fl (v % 2 ^ vaBits L) fgs).1 ∧
        (protect s t L fl v fgs).2.1
          = (protect s t L fl (v % 2 ^ vaBits L) fgs).2.1 ∧
        (protect s t L fl v fgs).2.2
          = (match (protect s t L fl v fgs).1 with
             | .ok _ => flushOp fl v
             | .error _ => fl) ∧
        (protect s t L fl (v % 2 ^ vaBits L) fgs).2.2
          = (match (protect s t L fl (v % 2 ^ vaBits L) fgs).1 with
             | .ok _ => flushOp fl (v % 2 ^ vaBits L)
             | .error _ => fl)) ∧
      ((unmap s t L fl v).1 = (unmap s t L fl (v % 2 ^ vaBits L)).1 ∧
        (unmap s t L fl v).2.1 = (unmap s t L fl (v % 2 ^ vaBits L)).2.1 ∧
        (unmap s t L fl v).2.2
          = (match (unmap s t L fl v).1 with
             | .ok _ => flushOp fl v
             | .error _ => fl) ∧
        (unmap s t L fl (v % 2 ^ vaBits L)).2.2
          = (match (unmap s t L fl (v % 2 ^ vaBits L)).1 with
             | .ok _ => flushOp fl (v % 2 ^ vaBits L)
             | .error _ => fl)) := by
  intro L s t fl v
  have hv4 : L = .four → p4_idx v = p4_idx (v % 2 ^ vaBits L) := by
    intro hc
    subst hc
    show p4_idx v = p4_idx (v % 2 ^ 48)
    unfold p4_idx
    omega
  have hv3 : p3_idx v = p3_idx (v % 2 ^ vaBits L) := by
    cases L
    · show p3_idx v = p3_idx (v % 2 ^ 39)
      unfold p3_idx
      omega
    · show p3_idx v = p3_idx (v % 2 ^ 48)
      unfold p3_idx
      omega
  have hv2 : p2_idx v = p2_idx (v % 2 ^ vaBits L) := by
    cases L
    · show p2_idx v = p2_idx (v % 2 ^ 39)
      unfold p2_idx
      omega
    · show p2_idx v = p2_idx (v % 2 ^ 48)
      unfold p2_idx
      omega
  have hv1 : p1_idx v = p1_idx (v % 2 ^ vaBits L) := by
    cases L
    · show p1_idx v = p1_idx (v % 2 ^ 39)
      unfold p1_idx
      omega
    · show p1_idx v = p1_idx (v % 2 ^ 48)
      unfold p1_idx
      omega
  have hoff : ∀ sz : PageSize,
      sz.align_offset v = sz.align_offset (v % 2 ^ vaBits L) := by
    intro sz
    cases L
    · show sz.align_offset v = sz.align_offset (v % 2 ^ 39)
      cases sz <;> simp only [PageSize.align_offset, PageSize.bytes] <;> omega
    · show sz.align_offset v = sz.align_offset (v % 2 ^ 48)
      cases sz <;> simp only [PageSize.align_offset, PageSize.bytes] <;> omega
  exact ⟨query_congr s t L hv4 hv3 hv2 hv1 hoff,
    fun p sz fgs => map_congr_full s t L fl hv4 hv3 hv2 hv1 p sz fgs,
    fun p fgs => remap_congr s t L fl hv4 hv3 hv2 hv1 p fgs,
    fun fgs => protect_congr s t L fl hv4 hv3 hv2 hv1 fgs,
    unmap_congr s t L fl hv4 hv3 hv2 hv1⟩

/-- A 2M huge mapping at virtual 0, used to exhibit the region-loop
underflow. -/
def huge2MState : HMem :=
  (map (try_new HMem.init).2 (try_new HMem.init).1 .four .noneYet
    0 2097152 .Size2M flagsRW).2.1

/-- C10 counterexample: `unmap_region(0, 4096)` on a table whose address 0
is covered by a 2M huge mapping advances by the reported `Size2M` — which
exceeds the remaining 4096 bytes — so `rem_size -= p_size` wraps below
zero and the loop runs on past the requested range (here failing with
`NotMapped` at the next address instead of terminating). -/
theorem c10_counterexample :
    (unmap_region huge2MState (try_new HMem.init).1 .four .noneYet 0 4096 5).map
        (fun x => x.2.2.2) = some [⟨0, 4096, .Size2M⟩] ∧
    PageSize.Size2M.bytes > 4096 ∧
    (unmap_region huge2MState (try_new HMem.init).1 .four .noneYet 0 4096 5).map
        (fun x => x.1) = some (.error .NotMapped) := by
  exact ⟨rfl, by decide, rfl⟩

/-- Membership in an empty iteration trace is vacuous. -/
lemma memNilRegion (tr : List RegionStep) (h : ([] : List RegionStep) = tr) :
    ∀ st ∈ tr, st.psize.bytes ≤ st.rem := by
  subst h
  intro st hst
  cases hst

/-- Underflow-freedom of the `unmap_region` loop when every iteration
advances by the base page size and the remaining size is page-aligned. -/
lemma unmapRegionLoop_no_underflow (t : Table) (L : Levels) :
    ∀ (fuel size v : Nat) (s : HMem) (fl : ToFlush)
      (r : Except PtError Unit) (s' : HMem) (fl' : ToFlush)
      (tr : List RegionStep),
      4096 ∣ size → size < 2 ^ 64 →
      unmapRegionLoop t L fuel s fl v size = some (r, s', fl', tr) →
      (∀ st ∈ tr, st.psize = .Size4K) →
      ∀ st ∈ tr, st.psize.bytes ≤ st.rem := by
  intro fuel
  induction fuel with
  | zero =>
      intro size v s fl r s' fl' tr _ _ h
      exact absurd h (by simp [unmapRegionLoop])
  | succ fuel ih =>
      intro size v s fl r s' fl' tr hdvd hlt h hsz
      rw [unmapRegionLoop] at h
      by_cases h0 : size = 0
      · rw [if_pos h0] at h
        simp only [Option.some.injEq, Prod.mk.injEq] at h
        exact memNilRegion tr h.2.2.2
      · rw [if_neg h0] at h
        rcases hu : unmap s t L fl v with ⟨res, s1, fl1⟩
        rw [hu] at h
        cases res with
        | error e =>
            simp only [Option.some.injEq, Prod.mk.injEq] at h
            exact memNilRegion tr h.2.2.2
        | ok out =>
            rcases out with ⟨pa, fgs, p_size⟩
            simp only at h
            rcases hrec : unmapRegionLoop t L fuel s1 fl1
                (usizeAdd v p_size.bytes) (usizeSub size p_size.bytes)
              with _ | ⟨r2, s2, fl2, tr2⟩
            · rw [hrec] at h
              exact absurd h (by simp)
            · rw [hrec] at h
              simp only [Option.some.injEq, Prod.mk.injEq] at h
              obtain ⟨hr, hs2, hfl2, htr⟩ := h
              subst htr
              have hhead : p_size = PageSize.Size4K :=
                hsz ⟨v, size, p_size⟩ (List.mem_cons_self _ _)
              subst hhead
              have h4 : (4096 : Nat) ≤ size := by omega
              have hsub : usizeSub size PageSize.Size4K.bytes = size - 4096 := by
                show (size + 2 ^ 64 - 4096) % 2 ^ 64 = size - 4096
                omega
              intro st hst
              rcases List.mem_cons.mp hst with hst1 | hst2
              · subst hst1
                show (4096 : Nat) ≤ size
                omega
              · exact ih _ _ s1 fl1 r2 s2 fl2 tr2
                  (by rw [hsub]; omega) (by rw [hsub]; omega) hrec
                  (fun st' hst' => hsz st' (List.mem_cons_of_mem _ hst'))
                  st hst2

/-- Underflow-freedom of the `protect_region` loop under the same
conditions (a tolerated `NotMapped` iteration advances by `Size4K`). -/
lemma protectRegionLoop_no_underflow (t : Table) (L : Levels)
    (flags : PagingFlags) :
    ∀ (fuel size v : Nat) (s : HMem) (fl : ToFlush)
      (r : Except PtError Unit) (s' : HMem) (fl' : ToFlush)
      (tr : List RegionStep),
      4096 ∣ size → size < 2 ^ 64 →
      protectRegionLoop t L flags fuel s fl v size = some (r, s', fl', tr) →
      (∀ st ∈ tr, st.psize = .Size4K) →
      ∀ st ∈ tr, st.psize.bytes ≤ st.rem := by
  intro fuel
  induction fuel with
  | zero =>
      intro size v s fl r s' fl' tr _ _ h
      exact absurd h (by simp [protectRegionLoop])
  | succ fuel ih =>
      intro size v s fl r s' fl' tr hdvd hlt h hsz
      rw [protectRegionLoop] at h
      by_cases h0 : size = 0
      · rw [if_pos h0] at h
        simp only [Option.some.injEq, Prod.mk.injEq] at h
        exact memNilRegion tr h.2.2.2
      · rw [if_neg h0] at h
        rcases hu : protect s t L fl v flags with ⟨res, s1, fl1⟩
        rw [hu] at h
        have hstep : ∀ p_size : PageSize,
            (match protectRegionLoop t L flags fuel s1 fl1
                (usizeAdd v p_size.bytes) (usizeSub size p_size.bytes) with
              | none => none
              | some (res2, s2, fl2, tr2) =>
                  some (res2, s2, fl2, RegionStep.mk v size p_size :: tr2))
              = some (r, s', fl', tr) →
            ∀ st ∈ tr, st.psize.bytes ≤ st.rem := by
          intro p_size hm
          rcases hrec : protectRegionLoop t L flags fuel s1 fl1
              (usizeAdd v p_size.bytes) (usizeSub size p_size.bytes)
            with _ | ⟨r2, s2, fl2, tr2⟩
          · rw [hrec] at hm
            exact absurd hm (by simp)
          · rw [hrec] at hm
            simp only [Option.some.injEq, Prod.mk.injEq] at hm
            obtain ⟨hr, hs2, hfl2, htr⟩ := hm
            subst htr
            have hhead : p_size = PageSize.Size4K :=
              hsz ⟨v, size, p_size⟩ (List.mem_cons_self _ _)
            subst hhead
            have h4 : (4096 : Nat) ≤ size := by omega
            have hsub : usizeSub size PageSize.Size4K.bytes = size - 4096 := by
              show (size + 2 ^ 64 - 4096) % 2 ^ 64 = size - 4096
              omega
            intro st hst
            rcases List.mem_cons.mp hst with hst1 | hst2
            · subst hst1
              show (4096 : Nat) ≤ size
              omega
            · exact ih _ _ s1 fl1 r2 s2 fl2 tr2
                (by rw [hsub]; omega) (by rw [hsub]; omega) hrec
                (fun st' hst' => hsz st' (List.mem_cons_of_mem _ hst'))
                st hst2
        cases res with
        | error e =>
            cases e with
            | NotMapped => exact hstep PageSize.Size4K h
            | NoMemory =>
                simp only [Option.some.injEq, Prod.mk.injEq] at h
                exact memNilRegion tr h.2.2.2
            | AlreadyMapped =>
                simp only [Option.some.injEq, Prod.mk.injEq] at h
                exact memNilRegion tr h.2.2.2
            | MappedToHugePage =>
                simp only [Option.some.injEq, Prod.mk.injEq] at h
                exact memNilRegion tr h.2.2.2
            | NotAligned =>
                simp only [Option.some.injEq, Prod.mk.injEq] at h
                exact memNilRegion tr h.2.2.2
        | ok p_size => exact hstep p_size h

/-- C10 (amended): the region-loop subtraction `rem_size -= p_size` does
not underflow as long as the range size is a multiple of the base page and
every iteration reports a `Size4K` step — then at every iteration the step
size is at most the remaining size.  (As `c10_counterexample` shows, the
original claim fails when a requested range ends strictly inside a huge
mapping: the reported huge size exceeds the remaining size and the
wrapping `usize` subtraction runs the loop past the range.) -/
theorem c10_region_size_accounting :
    (∀ (t : Table) (L : Levels) (fuel size v : Nat) (s : HMem) (fl : ToFlush)
        (tr : List RegionStep),
      4096 ∣ size → size < 2 ^ 64 →
      (unmap_region s t L fl v size fuel).map (fun x => x.2.2.2) = some tr →
      (∀ st ∈ tr, st.psize = .Size4K) →
      ∀ st ∈ tr, st.psize.bytes ≤ st.rem) ∧
    (∀ (t : Table) (L : Levels) (flags : PagingFlags) (fuel size v : Nat)
        (s : HMem) (fl : ToFlush) (tr : List RegionStep),
      4096 ∣ size → size < 2 ^ 64 →
      (protect_region s t L fl v size flags fuel).map (fun x => x.2.2.2) = some tr →
      (∀ st ∈ tr, st.psize = .Size4K) →
      ∀ st ∈ tr, st.psize.bytes ≤ st.rem) := by
  constructor
  · intro t L fuel size v s fl tr hdvd hlt h hsz
    rcases hu : unmap_region s t L fl v size fuel with _ | ⟨r, s', fl', tr'⟩
    · rw [hu] at h
      exact absurd h (by simp)
    · rw [hu] at h
      have htr : tr' = tr := Option.some.inj h
      subst htr
      exact unmapRegionLoop_no_underflow t L fuel size v s fl r s' fl' tr'
        hdvd hlt hu hsz
  · intro t L flags fuel size v s fl tr hdvd hlt h hsz
    rcases hu : protect_region s t L fl v size flags fuel with _ | ⟨r, s', fl', tr'⟩
    · rw [hu] at h
      exact absurd h (by simp)
    · rw [hu] at h
      have htr : tr' = tr := Option.some.inj h
      subst htr
      exact protectRegionLoop_no_underflow t L flags fuel size v s fl r s' fl' tr'
        hdvd hlt hu hsz

/-- The state with a single 4K mapping at virtual 0 (for the C10
witness). -/
def one4KState : HMem :=
  (map (try_new HMem.init).2 (try_new HMem.init).1 .four .noneYet
    0 4096 .Size4K flagsRW).2.1

/-- C10 witness: a 4K-aligned `unmap_region` over a purely-4K range at the
concrete state with one 4K page mapped — its single iteration satisfies
the no-underflow bound. -/
theorem c10_region_size_accounting_witness :
    ∀ st ∈ [RegionStep.mk 0 4096 .Size4K], st.psize.bytes ≤ st.rem :=
  c10_region_size_accounting.1 (try_new HMem.init).1 .four 3 4096 0
    one4KState .noneYet [RegionStep.mk 0 4096 .Size4K]
    (by decide) (by decide) rfl (by decide)

/-! ### Tree structure of a table: reachable frames, well-formedness -/

/-- The child-table frame an entry leads to, when `next_table` would
succeed on it. -/
def tableTarget (e : Entry) : Option Nat :=
  if nextTableOk e then some e.paddr else none

/-- The child-table frames of one table frame, in index order (the frames
the deallocation walks recurse into). -/
def childFrames (s : HMem) (f : Nat) : List Nat :=
  (List.range ENTRY_COUNT).filterMap (fun i => tableTarget (s.mem f i))

/-- All frames of the subtree rooted at table frame `f`, walking `ℓ` more
levels (the frames `dealloc_tree f` would free, in a different order). -/
def subFrames (s : HMem) (f : Nat) : Nat → List Nat
  | 0 => [f]
  | ℓ + 1 => f :: (childFrames s f).flatMap (fun c => subFrames s c ℓ)

/-- The frames of the subtree whose entries the walk actually reads (all
but the last level). -/
def scanned (s : HMem) (f : Nat) : Nat → List Nat
  | 0 => []
  | ℓ + 1 => f :: (childFrames s f).flatMap (fun c => scanned s c ℓ)

/-- The frames of the last level of the subtree (whose entries are never
read by the recursive walks). -/
def leafFrames (s : HMem) (f : Nat) : Nat → List Nat
  | 0 => [f]
  | ℓ + 1 => (childFrames s f).flatMap (fun c => leafFrames s c ℓ)

/-- Well-formedness of a table's frame tree: the root is a nonzero frame
below the allocation watermark, every reachable frame likewise, and no
frame occurs twice in the tree (each frame is owned by exactly one entry,
spec section 3). -/
def TreeWF (s : HMem) (t : Table) (L : Levels) : Prop :=
  (subFrames s t.root (L.num - 1)).Nodup ∧
  ∀ fr ∈ subFrames s t.root (L.num - 1), fr ≠ 0 ∧ fr < s.fresh

/-- The root frame is the head of its own subtree listing. -/
lemma root_mem_subFrames (s : HMem) (f ℓ : Nat) : f ∈ subFrames s f ℓ := by
  cases ℓ <;> simp [subFrames]

/-- Splitting the subtree listing into scanned and last-level frames. -/
lemma subFrames_eq_scanned_add_leaves (s : HMem) :
    ∀ (ℓ f : Nat), (subFrames s f ℓ : Multiset Nat) =
      (scanned s f ℓ : Multiset Nat) + (leafFrames s f ℓ : Multiset Nat) := by
  intro ℓ
  induction ℓ with
  | zero => intro f; simp [subFrames, scanned, leafFrames]
  | succ ℓ ih =>
      intro f
      have hbind : ∀ cs : List Nat,
          ((cs.flatMap fun c => subFrames s c ℓ : List Nat) : Multiset Nat) =
            ((cs.flatMap fun c => scanned s c ℓ : List Nat) : Multiset Nat) +
            ((cs.flatMap fun c => leafFrames s c ℓ : List Nat) : Multiset Nat) := by
        intro cs
        induction cs with
        | nil => simp
        | cons c cs ihc =>
            simp only [List.flatMap_cons]
            rw [← Multiset.coe_add, ← Multiset.coe_add, ← Multiset.coe_add,
              ihc, ih c]
            abel
      show ((f :: (childFrames s f).flatMap fun c => subFrames s c ℓ : List Nat) : Multiset Nat)
        = ((f :: (childFrames s f).flatMap fun c => scanned s c ℓ : List Nat) : Multiset Nat)
          + (((childFrames s f).flatMap fun c => leafFrames s c ℓ : List Nat) : Multiset Nat)
      rw [← Multiset.cons_coe, ← Multiset.cons_coe, hbind, Multiset.cons_add]

/-- A frame cannot be both a scanned frame and a last-level frame of a
duplicate-free tree. -/
lemma not_scanned_and_leaf (s : HMem) (f ℓ fr : Nat)
    (hnd : (subFrames s f ℓ).Nodup)
    (hsc : fr ∈ scanned s f ℓ) (hlf : fr ∈ leafFrames s f ℓ) : False := by
  have hms := subFrames_eq_scanned_add_leaves s ℓ f
  have hc1 : 1 ≤ Multiset.count fr (scanned s f ℓ : Multiset Nat) := by
    rw [Multiset.one_le_count_iff_mem, Multiset.mem_coe]
    exact hsc
  have hc2 : 1 ≤ Multiset.count fr (leafFrames s f ℓ : Multiset Nat) := by
    rw [Multiset.one_le_count_iff_mem, Multiset.mem_coe]
    exact hlf
  have hle : Multiset.count fr (subFrames s f ℓ : Multiset Nat) ≤ 1 :=
    Multiset.nodup_iff_count_le_one.mp (Multiset.coe_nodup.mpr hnd) fr
  rw [hms, Multiset.count_add] at hle
  omega

/-- Characterisation of child frames. -/
lemma mem_childFrames (s : HMem) (f c : Nat) :
    c ∈ childFrames s f ↔ ∃ i < ENTRY_COUNT, tableTarget (s.mem f i) = some c := by
  unfold childFrames
  rw [List.mem_filterMap]
  constructor
  · rintro ⟨i, hi, hT⟩
    exact ⟨i, List.mem_range.mp hi, hT⟩
  · rintro ⟨i, hi, hT⟩
    exact ⟨i, List.mem_range.mpr hi, hT⟩

/-- `next_table` succeeds exactly on entries with a nonzero physical
address and no huge bit. -/
lemma next_table_ok_iff (e : Entry) (c : Nat) :
    next_table e = .ok c ↔ e.paddr = c ∧ c ≠ 0 ∧ e.is_huge = false := by
  unfold next_table
  by_cases h0 : e.paddr = 0
  · rw [if_pos h0]
    constructor
    · intro h; cases h
    · rintro ⟨rfl, hc, -⟩
      exact absurd h0 hc
  · rw [if_neg h0]
    by_cases hh : e.is_huge
    · rw [if_pos hh]
      constructor
      · intro h; cases h
      · rintro ⟨-, -, hf⟩
        rw [hf] at hh
        cases hh
    · rw [if_neg hh]
      constructor
      · intro h
        injection h with h
        refine ⟨h, ?_, by simpa using hh⟩
        rw [← h]
        exact h0
      · rintro ⟨rfl, -, -⟩
        rfl

/-- `next_table` success as a `tableTarget` fact. -/
lemma next_table_ok_tableTarget {e : Entry} {c : Nat}
    (h : next_table e = .ok c) : tableTarget e = some c := by
  rw [next_table_ok_iff] at h
  obtain ⟨hp, hc, hh⟩ := h
  unfold tableTarget nextTableOk
  rw [hp, hh]
  simp [hc]

/-- A huge entry is a page entry with the huge bit. -/
lemma is_huge_elim {e : Entry} (h : e.is_huge = true) :
    ∃ p fl, e = .page p fl true := by
  cases e with
  | unused => cases h
  | table p => cases h
  | page p fl hu =>
      cases hu with
      | true => exact ⟨p, fl, rfl⟩
      | false => cases h

/-- An entry on which `next_table` succeeds is not unused. -/
lemma next_table_ok_not_unused {e : Entry} {c : Nat}
    (h : next_table e = .ok c) : e.is_unused = false := by
  rw [next_table_ok_iff] at h
  obtain ⟨h1, h2, -⟩ := h
  cases e with
  | unused =>
      simp only [Entry.paddr] at h1
      exact absurd h1.symm h2
  | table p => rfl
  | page p fl hu => rfl

/-- A huge entry is not unused. -/
lemma is_huge_not_unused {e : Entry} (h : e.is_huge = true) :
    e.is_unused = false := by
  obtain ⟨p, fl, rfl⟩ := is_huge_elim h
  rfl

/-- `next_table_mut_or_create` on a non-unused entry reads without
allocating. -/
lemma ntmoc_not_unused {s : HMem} {g i : Nat}
    (h : (s.mem g i).is_unused = false) :
    ntmoc s g i = (next_table (s.mem g i), s) := by
  simp [ntmoc, h]

/-- Eliminating a successful walk that stopped at the 1G level. -/
lemma get_entry_1G {s : HMem} {t : Table} {L : Levels} {v f i : Nat}
    (h : get_entry s t L v = .ok (f, i, .Size1G)) :
    topFrame s t L v = .ok f ∧ i = p3_idx v ∧
      (s.mem f (p3_idx v)).is_huge = true := by
  unfold get_entry at h
  split at h
  · simp at h
  next p3f htop =>
    split at h
    next h3 =>
      simp only [Except.ok.injEq, Prod.mk.injEq] at h
      obtain ⟨h1, h2, -⟩ := h
      subst h1
      exact ⟨htop, h2.symm, h3⟩
    next h3 =>
      split at h
      · simp at h
      next p2f hnt =>
        split at h
        next h2 => simp at h
        next h2 =>
          split at h
          · simp at h
          next p1f hnt2 => simp at h

/-- Eliminating a successful walk that stopped at the 2M level. -/
lemma get_entry_2M {s : HMem} {t : Table} {L : Levels} {v f i : Nat}
    (h : get_entry s t L v = .ok (f, i, .Size2M)) :
    ∃ p3f, topFrame s t L v = .ok p3f ∧
      (s.mem p3f (p3_idx v)).is_huge = false ∧
      next_table (s.mem p3f (p3_idx v)) = .ok f ∧ i = p2_idx v ∧
      (s.mem f (p2_idx v)).is_huge = true := by
  unfold get_entry at h
  split at h
  · simp at h
  next p3f htop =>
    split at h
    next h3 => simp at h
    next h3 =>
      split at h
      · simp at h
      next p2f hnt =>
        split at h
        next h2 =>
          simp only [Except.ok.injEq, Prod.mk.injEq] at h
          obtain ⟨h1, h2', -⟩ := h
          subst h1
          exact ⟨p3f, htop, by simpa using h3, hnt, h2'.symm, h2⟩
        next h2 =>
          split at h
          · simp at h
          next p1f hnt2 => simp at h

/-- Eliminating a successful walk that reached the leaf level. -/
lemma get_entry_4K {s : HMem} {t : Table} {L : Levels} {v f i : Nat}
    (h : get_entry s t L v = .ok (f, i, .Size4K)) :
    ∃ p3f p2f, topFrame s t L v = .ok p3f ∧
      (s.mem p3f (p3_idx v)).is_huge = false ∧
      next_table (s.mem p3f (p3_idx v)) = .ok p2f ∧
      (s.mem p2f (p2_idx v)).is_huge = false ∧
      next_table (s.mem p2f (p2_idx v)) = .ok f ∧ i = p1_idx v := by
  unfold get_entry at h
  split at h
  · simp at h
  next p3f htop =>
    split at h
    next h3 => simp at h
    next h3 =>
      split at h
      · simp at h
      next p2f hnt =>
        split at h
        next h2 => simp at h
        next h2 =>
          split at h
          · simp at h
          next p1f hnt2 =>
            simp only [Except.ok.injEq, Prod.mk.injEq] at h
            obtain ⟨h1, h2', -⟩ := h
            subst h1
            exact ⟨p3f, p2f, htop, by simpa using h3, hnt, by simpa using h2,
              hnt2, h2'.symm⟩

/-- Stepping into a child subtree: it inherits duplicate-freedom, lies
inside the parent's frame listing, and excludes the parent frame. -/
lemma subtree_step {s : HMem} {c0 c1 ℓ : Nat}
    (h1 : c1 ∈ childFrames s c0) (hnd : (subFrames s c0 (ℓ + 1)).Nodup) :
    (subFrames s c1 ℓ).Nodup ∧
    (∀ x ∈ subFrames s c1 ℓ, x ≠ c0) ∧
    (∀ x ∈ subFrames s c1 ℓ, x ∈ subFrames s c0 (ℓ + 1)) := by
  have hshape : subFrames s c0 (ℓ + 1) =
      c0 :: (childFrames s c0).flatMap (fun c => subFrames s c ℓ) := rfl
  rw [hshape, List.nodup_cons] at hnd
  obtain ⟨hc0, hX⟩ := hnd
  have hsubmem : ∀ x ∈ subFrames s c1 ℓ,
      x ∈ (childFrames s c0).flatMap (fun c => subFrames s c ℓ) := by
    intro x hx
    exact List.mem_flatMap.mpr ⟨c1, h1, hx⟩
  refine ⟨(List.nodup_flatMap.mp hX).1 c1 h1, ?_, ?_⟩
  · intro x hx hxc
    subst hxc
    exact hc0 (hsubmem _ hx)
  · intro x hx
    rw [hshape]
    exact List.mem_cons_of_mem _ (hsubmem x hx)

/-- A frame of a child's scanned set is scanned one level up. -/
lemma mem_scanned_child {s : HMem} {f c x ℓ : Nat}
    (h1 : c ∈ childFrames s f) (hm : x ∈ scanned s c ℓ) :
    x ∈ scanned s f (ℓ + 1) := by
  show x ∈ f :: (childFrames s f).flatMap (fun c => scanned s c ℓ)
  exact List.mem_cons_of_mem _ (List.mem_flatMap.mpr ⟨c, h1, hm⟩)

/-- A frame is in its own scanned set at positive fuel. -/
lemma self_mem_scanned {s : HMem} {f ℓ : Nat} (hℓ : 0 < ℓ) :
    f ∈ scanned s f ℓ := by
  cases ℓ with
  | zero => omega
  | succ ℓ => exact List.mem_cons_self _ _

/-- A frame of a child's last level is a last-level frame one level up. -/
lemma mem_leaf_child {s : HMem} {f c x ℓ : Nat}
    (h1 : c ∈ childFrames s f) (hm : x ∈ leafFrames s c ℓ) :
    x ∈ leafFrames s f (ℓ + 1) := by
  show x ∈ (childFrames s f).flatMap (fun c => leafFrames s c ℓ)
  exact List.mem_flatMap.mpr ⟨c, h1, hm⟩

/-- When the read-only top step succeeds, the create-walk's top step reads
the same frame without allocating. -/
lemma topFrameOrCreate_of_topFrame {s : HMem} {t : Table} {L : Levels}
    {v p3f : Nat} (h : topFrame s t L v = .ok p3f) :
    topFrameOrCreate s t L v = (.ok p3f, s) := by
  cases L
  · simp only [topFrame] at h
    injection h with h
    subst h
    rfl
  · simp only [topFrame] at h
    simp only [topFrameOrCreate]
    rw [ntmoc_not_unused (next_table_ok_not_unused h), h]

/-- Rebuilding a 1G walk from its path facts. -/
lemma get_entry_build_1G {s : HMem} {t : Table} {L : Levels} {v p3f : Nat}
    (htop : topFrame s t L v = .ok p3f)
    (h3 : (s.mem p3f (p3_idx v)).is_huge = true) :
    get_entry s t L v = .ok (p3f, p3_idx v, .Size1G) := by
  simp only [get_entry, htop, h3, if_true]

/-- Rebuilding a 2M walk from its path facts. -/
lemma get_entry_build_2M {s : HMem} {t : Table} {L : Levels} {v p3f p2f : Nat}
    (htop : topFrame s t L v = .ok p3f)
    (h3 : (s.mem p3f (p3_idx v)).is_huge = false)
    (hnt : next_table (s.mem p3f (p3_idx v)) = .ok p2f)
    (h2 : (s.mem p2f (p2_idx v)).is_huge = true) :
    get_entry s t L v = .ok (p2f, p2_idx v, .Size2M) := by
  simp only [get_entry, htop, h3, hnt, h2, Bool.false_eq_true, if_false, if_true]

/-- Rebuilding a 4K walk from its path facts. -/
lemma get_entry_build_4K {s : HMem} {t : Table} {L : Levels} {v p3f p2f p1f : Nat}
    (htop : topFrame s t L v = .ok p3f)
    (h3 : (s.mem p3f (p3_idx v)).is_huge = false)
    (hnt : next_table (s.mem p3f (p3_idx v)) = .ok p2f)
    (h2 : (s.mem p2f (p2_idx v)).is_huge = false)
    (hnt2 : next_table (s.mem p2f (p2_idx v)) = .ok p1f) :
    get_entry s t L v = .ok (p1f, p1_idx v, .Size4K) := by
  simp only [get_entry, htop, h3, hnt, h2, hnt2, Bool.false_eq_true, if_false]

/-- An entry that is present is not unused. -/
lemma is_present_not_unused {e : Entry} (h : e.is_present = true) :
    e.is_unused = false := by
  cases e with
  | unused => cases h
  | table p => rfl
  | page p fl hu => rfl

/-- A huge entry descends to `NotMapped` or `MappedToHugePage` depending
on whether its physical-address bits are zero (the `paddr == 0` test of
`next_table` fires first). -/
lemma next_table_huge {e : Entry} (h : e.is_huge = true) :
    next_table e = .error (if e.paddr = 0 then .NotMapped else .MappedToHugePage) := by
  unfold next_table
  by_cases hp : e.paddr = 0
  · simp [hp]
  · simp [hp, h]

/-- C4 counterexample: mapping 4K at an address covered by an existing 2M
huge mapping returns `MappedToHugePage`, not `AlreadyMapped` as the claim
states — the create-walk fails while descending through the huge entry
(`next_table_mut`), before the `AlreadyMapped` check is ever reached. -/
theorem c4_counterexample :
    query huge2MState (try_new HMem.init).1 .four 0 = .ok (2097152, flagsRW, .Size2M) ∧
    (map huge2MState (try_new HMem.init).1 .four .noneYet 0 4096 .Size4K flagsRW).1
      = .error .MappedToHugePage ∧
    PtError.MappedToHugePage ≠ PtError.AlreadyMapped :=
  ⟨rfl, rfl, by decide⟩

/-- C4 (amended): `map` on an already-mapped address (the walk finds a
present entry of size `sz0` at `(f0, i0)`) always fails and leaves the
state — hence the existing mapping — and the pending flushes completely
unchanged.  The error is `AlreadyMapped` when the existing mapping's size
is at most the requested size (the walk reaches the requested level and
finds it occupied), and `MappedToHugePage` when a huge mapping covers the
address at a higher level than requested (`NotMapped` in the corner case
that the huge entry's physical address bits are zero, because `next_table`
tests `paddr == 0` first). -/
theorem c4_no_double_mapping (s : HMem) (t : Table) (L : Levels)
    (fl : ToFlush) (v target : Nat) (szreq : PageSize) (flags : PagingFlags)
    (f0 i0 : Nat) (sz0 : PageSize)
    (hge : get_entry s t L v = .ok (f0, i0, sz0))
    (hpres : (s.mem f0 i0).is_present = true) :
    (sz0.bytes ≤ szreq.bytes →
      map s t L fl v target szreq flags = (.error .AlreadyMapped, s, fl)) ∧
    (szreq.bytes < sz0.bytes →
      map s t L fl v target szreq flags =
        (.error (if (s.mem f0 i0).paddr = 0 then .NotMapped
                 else .MappedToHugePage), s, fl)) := by
  cases sz0 with
  | Size4K =>
      obtain ⟨p3f, p2f, htop, h3, hnt, h2, hnt2, hi0⟩ := get_entry_4K hge
      subst hi0
      constructor
      · intro _
        cases szreq with
        | Size4K =>
            have hg : gemoc s t L v .Size4K = (.ok (f0, p1_idx v), s) := by
              simp only [gemoc, topFrameOrCreate_of_topFrame htop,
                ntmoc_not_unused (next_table_ok_not_unused hnt), hnt,
                ntmoc_not_unused (next_table_ok_not_unused hnt2), hnt2]
              rfl
            have hnu : (s.mem f0 (p1_idx v)).is_unused = false :=
              is_present_not_unused hpres
            simp only [map, hg, hnu]
            rfl
        | Size2M =>
            have hg : gemoc s t L v .Size2M = (.ok (p2f, p2_idx v), s) := by
              simp only [gemoc, topFrameOrCreate_of_topFrame htop,
                ntmoc_not_unused (next_table_ok_not_unused hnt), hnt]
              rfl
            have hnu : (s.mem p2f (p2_idx v)).is_unused = false :=
              next_table_ok_not_unused hnt2
            simp only [map, hg, hnu]
            rfl
        | Size1G =>
            have hg : gemoc s t L v .Size1G = (.ok (p3f, p3_idx v), s) := by
              simp only [gemoc, topFrameOrCreate_of_topFrame htop]
              rfl
            have hnu : (s.mem p3f (p3_idx v)).is_unused = false :=
              next_table_ok_not_unused hnt
            simp only [map, hg, hnu]
            rfl
      · intro hlt
        cases szreq <;> exact absurd hlt (by decide)
  | Size2M =>
      obtain ⟨p3f, htop, h3, hnt, hi0, hhuge⟩ := get_entry_2M hge
      subst hi0
      constructor
      · intro hle
        cases szreq with
        | Size4K => exact absurd hle (by decide)
        | Size2M =>
            have hg : gemoc s t L v .Size2M = (.ok (f0, p2_idx v), s) := by
              simp only [gemoc, topFrameOrCreate_of_topFrame htop,
                ntmoc_not_unused (next_table_ok_not_unused hnt), hnt]
              rfl
            have hnu : (s.mem f0 (p2_idx v)).is_unused = false :=
              is_present_not_unused hpres
            simp only [map, hg, hnu]
            rfl
        | Size1G =>
            have hg : gemoc s t L v .Size1G = (.ok (p3f, p3_idx v), s) := by
              simp only [gemoc, topFrameOrCreate_of_topFrame htop]
              rfl
            have hnu : (s.mem p3f (p3_idx v)).is_unused = false :=
              next_table_ok_not_unused hnt
            simp only [map, hg, hnu]
            rfl
      · intro hlt
        cases szreq with
        | Size4K =>
            have hg : gemoc s t L v .Size4K =
                (.error (if (s.mem f0 (p2_idx v)).paddr = 0 then .NotMapped
                         else .MappedToHugePage), s) := by
              simp only [gemoc, topFrameOrCreate_of_topFrame htop,
                ntmoc_not_unused (next_table_ok_not_unused hnt), hnt,
                ntmoc_not_unused (is_huge_not_unused hhuge),
                next_table_huge hhuge]
              rfl
            simp only [map, hg]
        | Size2M => exact absurd hlt (by decide)
        | Size1G => exact absurd hlt (by decide)
  | Size1G =>
      obtain ⟨htop, hi0, hhuge⟩ := get_entry_1G hge
      subst hi0
      constructor
      · intro hle
        cases szreq with
        | Size4K => exact absurd hle (by decide)
        | Size2M => exact absurd hle (by decide)
        | Size1G =>
            have hg : gemoc s t L v .Size1G = (.ok (f0, p3_idx v), s) := by
              simp only [gemoc, topFrameOrCreate_of_topFrame htop]
              rfl
            have hnu : (s.mem f0 (p3_idx v)).is_unused = false :=
              is_present_not_unused hpres
            simp only [map, hg, hnu]
            rfl
      · intro hlt
        cases szreq with
        | Size4K =>
            have hg : gemoc s t L v .Size4K =
                (.error (if (s.mem f0 (p3_idx v)).paddr = 0 then .NotMapped
                         else .MappedToHugePage), s) := by
              simp only [gemoc, topFrameOrCreate_of_topFrame htop,
                ntmoc_not_unused (is_huge_not_unused hhuge),
                next_table_huge hhuge]
              rfl
            simp only [map, hg]
        | Size2M =>
            have hg : gemoc s t L v .Size2M =
                (.error (if (s.mem f0 (p3_idx v)).paddr = 0 then .NotMapped
                         else .MappedToHugePage), s) := by
              simp only [gemoc, topFrameOrCreate_of_topFrame htop,
                ntmoc_not_unused (is_huge_not_unused hhuge),
                next_table_huge hhuge]
              rfl
            simp only [map, hg]
        | Size1G => exact absurd hlt (by decide)

/-- C4 witness: at the concrete 2M-mapped table, a 4K `map` over the huge
mapping errors with `MappedToHugePage` and changes nothing. -/
theorem c4_no_double_mapping_witness :
    map huge2MState (try_new HMem.init).1 .four .noneYet 0 4096 .Size4K flagsRW
      = (.error .MappedToHugePage, huge2MState, .noneYet) := by
  have h := (c4_no_double_mapping huge2MState (try_new HMem.init).1 .four
    .noneYet 0 4096 .Size4K flagsRW 12288 0 .Size2M rfl rfl).2 (by decide)
  rw [h]
  rfl

/-- Reading the cell just written. -/
lemma write_mem_self (s : HMem) (f i : Nat) (e : Entry) :
    (s.write f i e).mem f i = e := by
  simp [HMem.write]

/-- Reading any other cell after a write. -/
lemma write_mem_ne (s : HMem) (f i : Nat) (e : Entry) {g j : Nat}
    (h : ¬(g = f ∧ j = i)) : (s.write f i e).mem g j = s.mem g j := by
  simp only [HMem.write]
  rw [if_neg h]

/-- Reading a cell of a different frame after a write. -/
lemma write_mem_ne_frame (s : HMem) (f i : Nat) (e : Entry) {g j : Nat}
    (h : g ≠ f) : (s.write f i e).mem g j = s.mem g j :=
  write_mem_ne s f i e (fun hc => h hc.1)

/-- `next_table` on the all-zero entry reports `NotMapped`. -/
lemma next_table_unused : next_table .unused = .error .NotMapped := rfl

/-- The per-level index functions stay below the table fan-out. -/
lemma p4_idx_lt (v : Nat) : p4_idx v < ENTRY_COUNT := Nat.mod_lt _ (by norm_num)

/-- See `p4_idx_lt`. -/
lemma p3_idx_lt (v : Nat) : p3_idx v < ENTRY_COUNT := Nat.mod_lt _ (by norm_num)

/-- See `p4_idx_lt`. -/
lemma p2_idx_lt (v : Nat) : p2_idx v < ENTRY_COUNT := Nat.mod_lt _ (by norm_num)

/-- See `p4_idx_lt`. -/
lemma p1_idx_lt (v : Nat) : p1_idx v < ENTRY_COUNT := Nat.mod_lt _ (by norm_num)

/-- A successful `next_table` step names a child frame of that table. -/
lemma child_of_next_table {s : HMem} {g j c : Nat}
    (h : next_table (s.mem g j) = .ok c) (hj : j < ENTRY_COUNT) :
    c ∈ childFrames s g :=
  (mem_childFrames s g c).mpr ⟨j, hj, next_table_ok_tableTarget h⟩

/-- A walk failing while descending from the `p3` level. -/
lemma get_entry_err_p3 {s : HMem} {t : Table} {L : Levels} {v p3f : Nat}
    {e : PtError} (htop : topFrame s t L v = .ok p3f)
    (h3 : (s.mem p3f (p3_idx v)).is_huge = false)
    (hnt : next_table (s.mem p3f (p3_idx v)) = .error e) :
    get_entry s t L v = .error e := by
  simp only [get_entry, htop, h3, hnt, Bool.false_eq_true, if_false]

/-- A walk failing while descending from the `p2` level. -/
lemma get_entry_err_p2 {s : HMem} {t : Table} {L : Levels} {v p3f p2f : Nat}
    {e : PtError} (htop : topFrame s t L v = .ok p3f)
    (h3 : (s.mem p3f (p3_idx v)).is_huge = false)
    (hnt : next_table (s.mem p3f (p3_idx v)) = .ok p2f)
    (h2 : (s.mem p2f (p2_idx v)).is_huge = false)
    (hnt2 : next_table (s.mem p2f (p2_idx v)) = .error e) :
    get_entry s t L v = .error e := by
  simp only [get_entry, htop, h3, hnt, h2, hnt2, Bool.false_eq_true, if_false]

/-- `unmap` propagates a failed walk without touching anything. -/
lemma unmap_err {s : HMem} {t : Table} {L : Levels} {fl : ToFlush} {v : Nat}
    {e : PtError} (h : get_entry s t L v = .error e) :
    unmap s t L fl v = (.error e, s, fl) := by
  simp only [unmap, h]

/-- `unmap` on a walk that found a non-present entry: clears the entry,
records nothing, returns `NotMapped`. -/
lemma unmap_not_present {s : HMem} {t : Table} {L : Levels} {fl : ToFlush}
    {v f i : Nat} {sz : PageSize}
    (hge : get_entry s t L v = .ok (f, i, sz))
    (hnp : (s.mem f i).is_present = false) :
    unmap s t L fl v = (.error .NotMapped, s.write f i ((s.mem f i).clear), fl) := by
  simp only [unmap, hge, hnp]
  rfl

/-- `unmap` on a walk that found a present entry: captures its values,
clears it and records the flush. -/
lemma unmap_present {s : HMem} {t : Table} {L : Levels} {fl : ToFlush}
    {v f i : Nat} {sz : PageSize}
    (hge : get_entry s t L v = .ok (f, i, sz))
    (hp : (s.mem f i).is_present = true) :
    unmap s t L fl v = (.ok ((s.mem f i).paddr, (s.mem f i).flags, sz),
      s.write f i ((s.mem f i).clear), flushOp fl v) := by
  simp only [unmap, hge, hp]
  rfl

/-- Eliminating a successful `unmap`. -/
lemma unmap_ok_elim {s : HMem} {t : Table} {L : Levels} {fl : ToFlush}
    {v : Nat} {out : Nat × PagingFlags × PageSize} {s1 : HMem} {fl1 : ToFlush}
    (h : unmap s t L fl v = (.ok out, s1, fl1)) :
    ∃ f i sz, get_entry s t L v = .ok (f, i, sz) ∧
      (s.mem f i).is_present = true ∧
      out = ((s.mem f i).paddr, (s.mem f i).flags, sz) ∧
      s1 = s.write f i ((s.mem f i).clear) ∧ fl1 = flushOp fl v := by
  unfold unmap at h
  split at h
  · simp at h
  all_goals
    rename_i f i sz hge
    split at h
    · simp at h
    next hp =>
      simp only [Prod.mk.injEq, Except.ok.injEq] at h
      obtain ⟨h1, h2, h3⟩ := h
      exact ⟨f, i, sz, hge, by simpa using hp, h1.symm, h2.symm, h3.symm⟩

/-- C9: unmap of an absent mapping.  First part: whenever the walk reaches
an entry that is not present, `unmap` clears that (already-zero) entry,
records no TLB flush, and returns `Err(NotMapped)`.  Second part: after a
successful `unmap` on a well-formed table, a second `unmap` of the same
address returns `Err(NotMapped)`, leaves every entry exactly as it was and
records no flush — so the second of two consecutive unmaps is harmless. -/
theorem c9_unmap_absent :
    (∀ (s : HMem) (t : Table) (L : Levels) (fl : ToFlush) (v f i : Nat)
        (sz : PageSize),
      get_entry s t L v = .ok (f, i, sz) →
      (s.mem f i).is_present = false →
      unmap s t L fl v =
        (.error .NotMapped, s.write f i ((s.mem f i).clear), fl)) ∧
    (∀ (s : HMem) (t : Table) (L : Levels) (fl : ToFlush) (v : Nat)
        (out : Nat × PagingFlags × PageSize) (s1 : HMem) (fl1 : ToFlush),
      TreeWF s t L →
      unmap s t L fl v = (.ok out, s1, fl1) →
      (unmap s1 t L fl1 v).1 = .error .NotMapped ∧
      (∀ g j, (unmap s1 t L fl1 v).2.1.mem g j = s1.mem g j) ∧
      (unmap s1 t L fl1 v).2.2 = fl1) := by
  constructor
  · intro s t L fl v f i sz hge hnp
    exact unmap_not_present hge hnp
  · intro s t L fl v out s1 fl1 hwf hok
    obtain ⟨f, i, sz, hge, hp, hout, hs1, hfl1⟩ := unmap_ok_elim hok
    subst hs1
    cases sz with
    | Size4K =>
        obtain ⟨p3f, p2f, htop, h3, hnt, h2, hnt2, hi⟩ := get_entry_4K hge
        subst hi
        have hch2 : p2f ∈ childFrames s p3f :=
          child_of_next_table hnt (p3_idx_lt v)
        have hch3 : f ∈ childFrames s p2f :=
          child_of_next_table hnt2 (p2_idx_lt v)
        have hleaf0 : f ∈ leafFrames s f 0 := by simp [leafFrames]
        have hdist : f ≠ t.root ∧ f ≠ p3f ∧ f ≠ p2f := by
          cases L with
          | three =>
              have hroot : t.root = p3f := by
                simpa [topFrame] using htop
              subst hroot
              have hnd : (subFrames s t.root 2).Nodup := hwf.1
              have hs0 : t.root ∈ scanned s t.root 2 :=
                self_mem_scanned (by norm_num)
              have hs2m : p2f ∈ scanned s t.root 2 :=
                mem_scanned_child hch2 (self_mem_scanned (by norm_num))
              have hlf : f ∈ leafFrames s t.root 2 :=
                mem_leaf_child hch2 (mem_leaf_child hch3 hleaf0)
              refine ⟨?_, ?_, ?_⟩
              · intro he
                exact not_scanned_and_leaf s t.root 2 f hnd (by rw [he]; exact hs0) hlf
              · intro he
                exact not_scanned_and_leaf s t.root 2 f hnd (by rw [he]; exact hs0) hlf
              · intro he
                exact not_scanned_and_leaf s t.root 2 f hnd (by rw [he]; exact hs2m) hlf
          | four =>
              have hch1 : p3f ∈ childFrames s t.root := by
                refine child_of_next_table ?_ (p4_idx_lt v)
                simpa [topFrame] using htop
              have hnd : (subFrames s t.root 3).Nodup := hwf.1
              have hs0 : t.root ∈ scanned s t.root 3 :=
                self_mem_scanned (by norm_num)
              have hs3m : p3f ∈ scanned s t.root 3 :=
                mem_scanned_child hch1 (self_mem_scanned (by norm_num))
              have hs2m : p2f ∈ scanned s t.root 3 :=
                mem_scanned_child hch1
                  (mem_scanned_child hch2 (self_mem_scanned (by norm_num)))
              have hlf : f ∈ leafFrames s t.root 3 :=
                mem_leaf_child hch1 (mem_leaf_child hch2 (mem_leaf_child hch3 hleaf0))
              refine ⟨?_, ?_, ?_⟩
              · intro he
                exact not_scanned_and_leaf s t.root 3 f hnd (by rw [he]; exact hs0) hlf
              · intro he
                exact not_scanned_and_leaf s t.root 3 f hnd (by rw [he]; exact hs3m) hlf
              · intro he
                exact not_scanned_and_leaf s t.root 3 f hnd (by rw [he]; exact hs2m) hlf
        obtain ⟨hfr, hf3, hf2⟩ := hdist
        have h3' : (s.write f (p1_idx v) ((s.mem f (p1_idx v)).clear)).mem p3f (p3_idx v)
            = s.mem p3f (p3_idx v) :=
          write_mem_ne_frame _ _ _ _ (Ne.symm hf3)
        have h2' : (s.write f (p1_idx v) ((s.mem f (p1_idx v)).clear)).mem p2f (p2_idx v)
            = s.mem p2f (p2_idx v) :=
          write_mem_ne_frame _ _ _ _ (Ne.symm hf2)
        have htop' : topFrame (s.write f (p1_idx v) ((s.mem f (p1_idx v)).clear)) t L v
            = .ok p3f := by
          cases L with
          | three => exact htop
          | four =>
              show next_table _ = _
              rw [write_mem_ne_frame _ _ _ _ (Ne.symm hfr)]
              exact htop
        have hge2 : get_entry (s.write f (p1_idx v) ((s.mem f (p1_idx v)).clear)) t L v
            = .ok (f, p1_idx v, .Size4K) := by
          refine @get_entry_build_4K _ _ _ _ p3f p2f f htop' ?_ ?_ ?_ ?_
          · rw [h3']; exact h3
          · rw [h3']; exact hnt
          · rw [h2']; exact h2
          · rw [h2']; exact hnt2
        have hcellf : (s.write f (p1_idx v) ((s.mem f (p1_idx v)).clear)).mem f (p1_idx v)
            = Entry.unused := write_mem_self s f (p1_idx v) _
        have hnp2 : ((s.write f (p1_idx v) ((s.mem f (p1_idx v)).clear)).mem f (p1_idx v)).is_present
            = false := by rw [hcellf]; rfl
        rw [unmap_not_present hge2 hnp2]
        refine ⟨rfl, ?_, rfl⟩
        intro g j
        by_cases hc : g = f ∧ j = p1_idx v
        · obtain ⟨rfl, rfl⟩ := hc
          rw [write_mem_self, hcellf]
          rfl
        · rw [write_mem_ne _ _ _ _ hc]
    | Size2M =>
        obtain ⟨p3f, htop, h3, hnt, hi, hhuge⟩ := get_entry_2M hge
        subst hi
        have hch2 : f ∈ childFrames s p3f :=
          child_of_next_table hnt (p3_idx_lt v)
        have hdist : f ≠ t.root ∧ f ≠ p3f := by
          cases L with
          | three =>
              have hroot : t.root = p3f := by
                simpa [topFrame] using htop
              subst hroot
              have hnd : (subFrames s t.root 2).Nodup := hwf.1
              obtain ⟨hnd1, hne, -⟩ := subtree_step hch2 hnd
              have hfself : f ∈ subFrames s f 1 := root_mem_subFrames s f 1
              exact ⟨hne f hfself, hne f hfself⟩
          | four =>
              have hch1 : p3f ∈ childFrames s t.root := by
                refine child_of_next_table ?_ (p4_idx_lt v)
                simpa [topFrame] using htop
              have hnd : (subFrames s t.root 3).Nodup := hwf.1
              obtain ⟨hnd1, hne, -⟩ := subtree_step hch1 hnd
              obtain ⟨hnd2, hne2, -⟩ := subtree_step hch2 hnd1
              have hfself1 : f ∈ subFrames s f 1 := root_mem_subFrames s f 1
              have hfin : f ∈ subFrames s p3f 2 := by
                show f ∈ p3f :: (childFrames s p3f).flatMap (fun c => subFrames s c 1)
                exact List.mem_cons_of_mem _ (List.mem_flatMap.mpr ⟨f, hch2, hfself1⟩)
              exact ⟨hne f hfin, hne2 f hfself1⟩
        obtain ⟨hfr, hf3⟩ := hdist
        have h3' : (s.write f (p2_idx v) ((s.mem f (p2_idx v)).clear)).mem p3f (p3_idx v)
            = s.mem p3f (p3_idx v) :=
          write_mem_ne_frame _ _ _ _ (Ne.symm hf3)
        have htop' : topFrame (s.write f (p2_idx v) ((s.mem f (p2_idx v)).clear)) t L v
            = .ok p3f := by
          cases L with
          | three => exact htop
          | four =>
              show next_table _ = _
              rw [write_mem_ne_frame _ _ _ _ (Ne.symm hfr)]
              exact htop
        have hcellf : (s.write f (p2_idx v) ((s.mem f (p2_idx v)).clear)).mem f (p2_idx v)
            = Entry.unused := write_mem_self s f (p2_idx v) _
        have hge2 : get_entry (s.write f (p2_idx v) ((s.mem f (p2_idx v)).clear)) t L v
            = .error .NotMapped := by
          refine @get_entry_err_p2 _ _ _ _ p3f f _ htop' ?_ ?_ ?_ ?_
          · rw [h3']; exact h3
          · rw [h3']; exact hnt
          · rw [hcellf]; rfl
          · rw [hcellf]; exact next_table_unused
        rw [unmap_err hge2]
        exact ⟨rfl, fun g j => rfl, rfl⟩
    | Size1G =>
        obtain ⟨htop, hi, hhuge⟩ := get_entry_1G hge
        subst hi
        have hcellf : (s.write f (p3_idx v) ((s.mem f (p3_idx v)).clear)).mem f (p3_idx v)
            = Entry.unused := write_mem_self s f (p3_idx v) _
        have htop' : topFrame (s.write f (p3_idx v) ((s.mem f (p3_idx v)).clear)) t L v
            = .ok f := by
          cases L with
          | three => exact htop
          | four =>
              have hch1 : f ∈ childFrames s t.root := by
                refine child_of_next_table ?_ (p4_idx_lt v)
                simpa [topFrame] using htop
              have hnd : (subFrames s t.root 3).Nodup := hwf.1
              obtain ⟨-, hne, -⟩ := subtree_step hch1 hnd
              have hfr : f ≠ t.root := hne f (root_mem_subFrames s f 2)
              show next_table _ = _
              rw [write_mem_ne_frame _ _ _ _ (Ne.symm hfr)]
              exact htop
        have hge2 : get_entry (s.write f (p3_idx v) ((s.mem f (p3_idx v)).clear)) t L v
            = .error .NotMapped := by
          refine get_entry_err_p3 htop' ?_ ?_
          · rw [hcellf]; rfl
          · rw [hcellf]; exact next_table_unused
        rw [unmap_err hge2]
        exact ⟨rfl, fun g j => rfl, rfl⟩

set_option maxRecDepth 8192 in
/-- C9 witness: on the concrete table with one 4K page at 0, the first
`unmap` succeeds and the second returns `NotMapped` without changing any
entry. -/
theorem c9_unmap_absent_witness :
    (unmap (one4KState.write 16384 0 ((one4KState.mem 16384 0).clear))
        (try_new HMem.init).1 .four (flushOp .noneYet 0) 0).1
      = .error .NotMapped := by
  have h := c9_unmap_absent.2 one4KState (try_new HMem.init).1 .four .noneYet 0
    (4096, flagsRW, .Size4K)
    (one4KState.write 16384 0 ((one4KState.mem 16384 0).clear))
    (flushOp .noneYet 0)
    ⟨by decide, by decide⟩ (by rfl)
  exact h.1

/-! ### The create-walk: specification of `next_table_mut_or_create` -/

/-- The state produced by the create branch of `next_table_mut_or_create`:
a fresh frame is allocated and zero-filled, and a table entry for it is
installed at the stepped cell. -/
def createStep (s : HMem) (g j : Nat) : HMem :=
  ((s.allocFrame).2.zeroFrame s.fresh).write g j (Entry.new_table s.fresh)

/-- Memory after a create step. -/
lemma createStep_mem (s : HMem) (g j x jx : Nat) :
    (createStep s g j).mem x jx =
      if x = g ∧ jx = j then .table s.fresh
      else if x = s.fresh then .unused else s.mem x jx := rfl

/-- Watermark after a create step. -/
lemma createStep_fresh (s : HMem) (g j : Nat) :
    (createStep s g j).fresh = s.fresh + 4096 := rfl

/-- Allocation log after a create step. -/
lemma createStep_allocs (s : HMem) (g j : Nat) :
    (createStep s g j).allocs = s.allocs ++ [s.fresh] := rfl

/-- Deallocation log after a create step. -/
lemma createStep_deallocs (s : HMem) (g j : Nat) :
    (createStep s g j).deallocs = s.deallocs := rfl

/-- Full specification of a successful `next_table_mut_or_create` step at
cell `(g, j)`: afterwards the cell is a non-huge table entry leading to
`c`; the returned frame is nonzero and below the (non-decreasing)
watermark; the deallocation log is untouched; every other cell below the
old watermark is untouched; and the step either read an existing bounded
entry without changing anything, or allocated exactly the old watermark
frame. -/
lemma ntmoc_ok_spec {s : HMem} {g j c : Nat} {s' : HMem}
    (hres : ntmoc s g j = (.ok c, s'))
    (hfr : 0 < s.fresh)
    (hb : ∀ d, tableTarget (s.mem g j) = some d → d < s.fresh) :
    next_table (s'.mem g j) = .ok c ∧
    c ≠ 0 ∧ c < s'.fresh ∧ s.fresh ≤ s'.fresh ∧
    s'.deallocs = s.deallocs ∧
    (∀ x jx, ¬(x = g ∧ jx = j) → x < s.fresh → s'.mem x jx = s.mem x jx) ∧
    ((s' = s ∧ next_table (s.mem g j) = .ok c ∧ c < s.fresh ∧
        s'.allocs = s.allocs) ∨
     (c = s.fresh ∧ s' = createStep s g j ∧ (s.mem g j).is_unused = true)) := by
  unfold ntmoc at hres
  by_cases hu : (s.mem g j).is_unused
  · rw [if_pos hu] at hres
    have hc : c = s.fresh ∧ s' = createStep s g j := by
      simp only [alloc_table, HMem.allocFrame, Prod.mk.injEq, Except.ok.injEq] at hres
      exact ⟨hres.1.symm, hres.2.symm⟩
    obtain ⟨rfl, rfl⟩ := hc
    refine ⟨?_, by omega, ?_, ?_, rfl, ?_, Or.inr ⟨rfl, rfl, hu⟩⟩
    · have hcell : (createStep s g j).mem g j = .table s.fresh := by
        rw [createStep_mem]
        simp
      rw [hcell]
      unfold next_table
      simp only [Entry.paddr, Entry.is_huge]
      rw [if_neg (by omega)]
      rfl
    · rw [createStep_fresh]
      omega
    · rw [createStep_fresh]
      omega
    · intro x jx hxj hx
      rw [createStep_mem, if_neg hxj, if_neg (by omega)]
  · rw [if_neg hu] at hres
    simp only [Prod.mk.injEq] at hres
    obtain ⟨h1, h2⟩ := hres
    subst h2
    have hclt : c < s.fresh := hb c (next_table_ok_tableTarget h1)
    rw [next_table_ok_iff] at h1
    obtain ⟨hp, hc0, hh⟩ := h1
    refine ⟨?_, hc0, hclt, le_refl _, rfl, fun _ _ _ _ => rfl,
      Or.inl ⟨rfl, ?_, hclt, rfl⟩⟩
    · rw [next_table_ok_iff]
      exact ⟨hp, hc0, hh⟩
    · rw [next_table_ok_iff]
      exact ⟨hp, hc0, hh⟩

/-- Eliminating a successful create-walk at size 4K into its three
steps. -/
lemma gemoc_ok_4K {s : HMem} {t : Table} {L : Levels} {v f i : Nat}
    {s1 : HMem} (hg : gemoc s t L v .Size4K = (.ok (f, i), s1)) :
    ∃ p3f sA p2f sB, topFrameOrCreate s t L v = (.ok p3f, sA) ∧
      ntmoc sA p3f (p3_idx v) = (.ok p2f, sB) ∧
      ntmoc sB p2f (p2_idx v) = (.ok f, s1) ∧ i = p1_idx v := by
  unfold gemoc at hg
  split at hg
  next heq => simp only [Prod.mk.injEq] at hg; simp at hg
  next p3f sA heq =>
    rw [if_neg (by decide)] at hg
    split at hg
    next heq2 => simp at hg
    next p2f sB heq2 =>
      rw [if_neg (by decide)] at hg
      split at hg
      next heq3 => simp at hg
      next p1f sC heq3 =>
        simp only [Prod.mk.injEq, Except.ok.injEq] at hg
        obtain ⟨⟨hf, hi⟩, hs⟩ := hg
        subst hf
        subst hs
        exact ⟨p3f, sA, p2f, sB, heq, heq2, heq3, hi.symm⟩

/-- Eliminating a successful create-walk at size 2M into its two steps. -/
lemma gemoc_ok_2M {s : HMem} {t : Table} {L : Levels} {v f i : Nat}
    {s1 : HMem} (hg : gemoc s t L v .Size2M = (.ok (f, i), s1)) :
    ∃ p3f sA, topFrameOrCreate s t L v = (.ok p3f, sA) ∧
      ntmoc sA p3f (p3_idx v) = (.ok f, s1) ∧ i = p2_idx v := by
  unfold gemoc at hg
  split at hg
  next heq => simp at hg
  next p3f sA heq =>
    rw [if_neg (by decide)] at hg
    split at hg
    next heq2 => simp at hg
    next p2f sB heq2 =>
      rw [if_pos rfl] at hg
      simp only [Prod.mk.injEq, Except.ok.injEq] at hg
      obtain ⟨⟨hf, hi⟩, hs⟩ := hg
      subst hf
      subst hs
      exact ⟨p3f, sA, heq, heq2, hi.symm⟩

/-- Eliminating a successful create-walk at size 1G into its top step. -/
lemma gemoc_ok_1G {s : HMem} {t : Table} {L : Levels} {v f i : Nat}
    {s1 : HMem} (hg : gemoc s t L v .Size1G = (.ok (f, i), s1)) :
    topFrameOrCreate s t L v = (.ok f, s1) ∧ i = p3_idx v := by
  unfold gemoc at hg
  split at hg
  next heq => simp at hg
  next p3f sA heq =>
    rw [if_pos rfl] at hg
    simp only [Prod.mk.injEq, Except.ok.injEq] at hg
    obtain ⟨⟨hf, hi⟩, hs⟩ := hg
    subst hf
    subst hs
    exact ⟨heq, hi.symm⟩

/-- A well-formed subtree at a given remaining depth: no duplicate frames,
all frames nonzero and below the watermark. -/
def GoodSub (s : HMem) (g ℓ : Nat) : Prop :=
  (subFrames s g ℓ).Nodup ∧ ∀ x ∈ subFrames s g ℓ, x ≠ 0 ∧ x < s.fresh

/-- A child frame occurs in the parent's subtree listing. -/
lemma child_mem_subFrames {s : HMem} {f c ℓ : Nat} (h : c ∈ childFrames s f) :
    c ∈ subFrames s f (ℓ + 1) := by
  show c ∈ f :: (childFrames s f).flatMap (fun d => subFrames s d ℓ)
  exact List.mem_cons_of_mem _
    (List.mem_flatMap.mpr ⟨c, h, root_mem_subFrames s c ℓ⟩)

/-- Lifting a grandchild-subtree member into the parent's listing. -/
lemma sub_mem_subFrames {s : HMem} {f c x ℓ : Nat} (hc : c ∈ childFrames s f)
    (hx : x ∈ subFrames s c ℓ) : x ∈ subFrames s f (ℓ + 1) := by
  show x ∈ f :: (childFrames s f).flatMap (fun d => subFrames s d ℓ)
  exact List.mem_cons_of_mem _ (List.mem_flatMap.mpr ⟨c, hc, hx⟩)

/-- Descending a well-formed subtree into a child. -/
lemma goodSub_child {s : HMem} {g c ℓ : Nat} (hgs : GoodSub s g (ℓ + 1))
    (hc : c ∈ childFrames s g) :
    GoodSub s c ℓ ∧ (∀ x ∈ subFrames s c ℓ, x ≠ g) := by
  obtain ⟨hnd, hb⟩ := hgs
  obtain ⟨hnd1, hne, hlift⟩ := subtree_step hc hnd
  exact ⟨⟨hnd1, fun x hx => hb x (hlift x hx)⟩, hne⟩

/-- A frame with no table entries has no children. -/
lemma childFrames_eq_nil {s : HMem} {f : Nat}
    (h : ∀ j, j < ENTRY_COUNT → tableTarget (s.mem f j) = none) :
    childFrames s f = [] := by
  unfold childFrames
  rw [List.filterMap_eq_nil_iff]
  intro j hj
  exact h j (List.mem_range.mp hj)

/-- The subtree of a childless frame is just the frame itself. -/
lemma subFrames_of_no_children {s : HMem} {f : Nat}
    (h : childFrames s f = []) : ∀ ℓ, subFrames s f ℓ = [f] := by
  intro ℓ
  cases ℓ with
  | zero => rfl
  | succ ℓ =>
      show f :: (childFrames s f).flatMap (fun c => subFrames s c ℓ) = [f]
      rw [h]
      rfl

/-- Full package for one successful create-walk step at cell `(g, j)` of a
well-formed subtree: the cell now links to the returned frame `c`; `c` is
nonzero, fresh-bounded, and roots a well-formed subtree one level shorter
that avoids `g`; all other cells below the old watermark are untouched;
and the step either reused an existing child without any state change, or
allocated exactly the old watermark frame, zero-filled. -/
lemma step_package {s : HMem} {g j c : Nat} {s' : HMem} (ℓ : Nat)
    (hres : ntmoc s g j = (.ok c, s'))
    (hj : j < ENTRY_COUNT)
    (hfr : 0 < s.fresh)
    (hglt : g < s.fresh)
    (hgs : GoodSub s g (ℓ + 1)) :
    next_table (s'.mem g j) = .ok c ∧
    c ≠ 0 ∧ c < s'.fresh ∧ s.fresh ≤ s'.fresh ∧ 0 < s'.fresh ∧
    s'.deallocs = s.deallocs ∧
    (∀ x jx, ¬(x = g ∧ jx = j) → x < s.fresh → s'.mem x jx = s.mem x jx) ∧
    GoodSub s' c ℓ ∧
    (∀ x ∈ subFrames s' c ℓ, x ≠ g) ∧
    ((s' = s ∧ c ∈ childFrames s g ∧
        (∀ x ∈ subFrames s c ℓ, x ∈ subFrames s g (ℓ + 1)) ∧
        s'.allocs = s.allocs) ∨
     (c = s.fresh ∧ s' = createStep s g j ∧ (s.mem g j).is_unused = true ∧
        childFrames s' c = [])) := by
  have hb : ∀ d, tableTarget (s.mem g j) = some d → d < s.fresh := by
    intro d hd
    have hmem : d ∈ childFrames s g := (mem_childFrames s g d).mpr ⟨j, hj, hd⟩
    exact (hgs.2 d (child_mem_subFrames hmem)).2
  obtain ⟨hlink, hc0, hclt, hmono, hdea, hpres, hbr⟩ :=
    ntmoc_ok_spec hres hfr hb
  rcases hbr with ⟨hse, hnt, hcl, hal⟩ | ⟨hcF, hsC, hu⟩
  · have hfr' : 0 < s'.fresh := by rw [hse]; exact hfr
    have hmem : c ∈ childFrames s g :=
      (mem_childFrames s g c).mpr ⟨j, hj, next_table_ok_tableTarget hnt⟩
    obtain ⟨hgood, hne⟩ := goodSub_child hgs hmem
    obtain ⟨-, -, hlift⟩ := subtree_step hmem hgs.1
    rw [← hse] at hgood hne
    exact ⟨hlink, hc0, hclt, hmono, hfr', hdea, hpres, hgood, hne,
      Or.inl ⟨hse, hmem, hlift, hal⟩⟩
  · subst hcF
    subst hsC
    have hnil : childFrames (createStep s g j) s.fresh = [] := by
      refine childFrames_eq_nil ?_
      intro jx _
      rw [createStep_mem, if_neg (fun hc => by omega), if_pos rfl]
      rfl
    have hsub1 : ∀ ℓ', subFrames (createStep s g j) s.fresh ℓ' = [s.fresh] :=
      subFrames_of_no_children hnil
    refine ⟨hlink, hc0, hclt, hmono, by rw [createStep_fresh]; omega, hdea,
      hpres, ⟨?_, ?_⟩, ?_, Or.inr ⟨rfl, rfl, hu, hnil⟩⟩
    · rw [hsub1]
      exact List.nodup_singleton _
    · intro x hx
      rw [hsub1] at hx
      rcases List.mem_singleton.mp hx with rfl
      rw [createStep_fresh]
      omega
    · intro x hx
      rw [hsub1] at hx
      rcases List.mem_singleton.mp hx with rfl
      omega

/-- Eliminating a successful `map` into its create-walk, its
`AlreadyMapped` check and its final entry write. -/
lemma map_ok_elim {s : HMem} {t : Table} {L : Levels} {fl : ToFlush}
    {v p : Nat} {sz : PageSize} {flags : PagingFlags} {s2 : HMem}
    {fl2 : ToFlush}
    (h : map s t L fl v p sz flags = (.ok (), s2, fl2)) :
    ∃ f i s1, gemoc s t L v sz = (.ok (f, i), s1) ∧
      (s1.mem f i).is_unused = true ∧
      s2 = s1.write f i (Entry.new_page (sz.align_down p) flags sz.is_huge) ∧
      fl2 = flushOp fl v := by
  unfold map at h
  split at h
  · simp at h
  next f i s1 heq =>
    split at h
    next hu => simp at h
    next hu =>
      simp only [Prod.mk.injEq] at h
      obtain ⟨-, h2, h3⟩ := h
      exact ⟨f, i, s1, heq, by simpa using hu, h2.symm, h3.symm⟩

/-- Nonzero watermark and root bound, from well-formedness. -/
lemma treeWF_root_facts {s : HMem} {t : Table} {L : Levels}
    (hwf : TreeWF s t L) :
    t.root ≠ 0 ∧ t.root < s.fresh ∧ 0 < s.fresh := by
  have h := hwf.2 t.root (root_mem_subFrames s t.root (L.num - 1))
  exact ⟨h.1, h.2, by omega⟩

/-- Path facts for a successful 1G create-walk: the returned location is
the `p3`-level cell for `v`, and the top step of the walk still reads the
same frame after any write to that cell. -/
lemma gemoc_1G_paths {s : HMem} {t : Table} {L : Levels} {v f i : Nat}
    {s1 : HMem} (hwf : TreeWF s t L)
    (hg : gemoc s t L v .Size1G = (.ok (f, i), s1)) :
    i = p3_idx v ∧
    ∀ e : Entry, topFrame (s1.write f (p3_idx v) e) t L v = .ok f := by
  obtain ⟨htopc, hi⟩ := gemoc_ok_1G hg
  obtain ⟨hr0, hrlt, hfr0⟩ := treeWF_root_facts hwf
  refine ⟨hi, ?_⟩
  intro e
  cases L with
  | three =>
      simp only [topFrameOrCreate, Prod.mk.injEq, Except.ok.injEq] at htopc
      obtain ⟨hp3, -⟩ := htopc
      show Except.ok t.root = Except.ok f
      rw [hp3]
  | four =>
      simp only [topFrameOrCreate] at htopc
      obtain ⟨hlink, -, -, -, -, -, -, -, hne, hbr⟩ :=
        step_package 2 htopc (p4_idx_lt v) hfr0 hrlt ⟨hwf.1, hwf.2⟩
      have hfr : f ≠ t.root := hne f (root_mem_subFrames s1 f 2)
      show next_table _ = _
      rw [write_mem_ne_frame _ _ _ _ (Ne.symm hfr)]
      exact hlink

/-- Path facts for a successful 2M create-walk: the returned location is
the `p2`-level cell for `v`, and after any write to it the walk still
reaches it through an unchanged top step and `p3` link. -/
lemma gemoc_2M_paths {s : HMem} {t : Table} {L : Levels} {v f i : Nat}
    {s1 : HMem} (hwf : TreeWF s t L)
    (hg : gemoc s t L v .Size2M = (.ok (f, i), s1)) :
    i = p2_idx v ∧
    ∀ e : Entry, ∃ p3f,
      topFrame (s1.write f (p2_idx v) e) t L v = .ok p3f ∧
      next_table ((s1.write f (p2_idx v) e).mem p3f (p3_idx v)) = .ok f := by
  obtain ⟨p3f, sA, htopc, hB, hi⟩ := gemoc_ok_2M hg
  obtain ⟨hr0, hrlt, hfr0⟩ := treeWF_root_facts hwf
  refine ⟨hi, ?_⟩
  intro e
  cases L with
  | three =>
      simp only [topFrameOrCreate, Prod.mk.injEq, Except.ok.injEq] at htopc
      obtain ⟨hp3, hsA⟩ := htopc
      rw [← hsA] at hB
      rw [← hp3] at hB
      obtain ⟨hlinkB, -, -, -, -, -, -, -, hneB, -⟩ :=
        step_package 1 hB (p3_idx_lt v) hfr0 hrlt ⟨hwf.1, hwf.2⟩
      have hfne : f ≠ t.root := hneB f (root_mem_subFrames s1 f 1)
      refine ⟨t.root, rfl, ?_⟩
      rw [write_mem_ne_frame _ _ _ _ (Ne.symm hfne)]
      exact hlinkB
  | four =>
      simp only [topFrameOrCreate] at htopc
      obtain ⟨hlinkT, hp30, hp3lt, hmonoT, hfrA, -, -, hgoodA, hneT, hbrT⟩ :=
        step_package 2 htopc (p4_idx_lt v) hfr0 hrlt ⟨hwf.1, hwf.2⟩
      obtain ⟨hlinkB, -, -, hmonoB, -, -, hpresB, -, hneB, hbrB⟩ :=
        step_package 1 hB (p3_idx_lt v) hfrA hp3lt hgoodA
      have hp3ne_root : p3f ≠ t.root := hneT p3f (root_mem_subFrames sA p3f 2)
      have hfne3 : f ≠ p3f := hneB f (root_mem_subFrames s1 f 1)
      have hfne_root : f ≠ t.root := by
        rcases hbrB with ⟨hse, hmem, -, -⟩ | ⟨hcF, -, -, -⟩
        · exact hneT f (child_mem_subFrames hmem)
        · intro hc
          rw [hc] at hcF
          omega
      refine ⟨p3f, ?_, ?_⟩
      · show next_table _ = _
        rw [write_mem_ne_frame _ _ _ _ (Ne.symm hfne_root)]
        rw [hpresB t.root (p4_idx v) (fun hc => hp3ne_root hc.1.symm) (by omega)]
        exact hlinkT
      · rw [write_mem_ne_frame _ _ _ _ (Ne.symm hfne3)]
        exact hlinkB

/-- Path facts for a successful 4K create-walk: the returned location is
the leaf cell for `v`, and after any write to it the walk still reaches it
through unchanged top, `p3` and `p2` links. -/
lemma gemoc_4K_paths {s : HMem} {t : Table} {L : Levels} {v f i : Nat}
    {s1 : HMem} (hwf : TreeWF s t L)
    (hg : gemoc s t L v .Size4K = (.ok (f, i), s1)) :
    i = p1_idx v ∧
    ∀ e : Entry, ∃ p3f p2f,
      topFrame (s1.write f (p1_idx v) e) t L v = .ok p3f ∧
      next_table ((s1.write f (p1_idx v) e).mem p3f (p3_idx v)) = .ok p2f ∧
      next_table ((s1.write f (p1_idx v) e).mem p2f (p2_idx v)) = .ok f := by
  obtain ⟨p3f, sA, p2f, sB, htopc, hB, hC, hi⟩ := gemoc_ok_4K hg
  obtain ⟨hr0, hrlt, hfr0⟩ := treeWF_root_facts hwf
  refine ⟨hi, ?_⟩
  intro e
  cases L with
  | three =>
      simp only [topFrameOrCreate, Prod.mk.injEq, Except.ok.injEq] at htopc
      obtain ⟨hp3, hsA⟩ := htopc
      rw [← hsA] at hB
      rw [← hp3] at hB
      obtain ⟨hlinkB, hp20, hp2lt, hmonoB, hfrB, -, -, hgoodB, hneB, hbrB⟩ :=
        step_package 1 hB (p3_idx_lt v) hfr0 hrlt ⟨hwf.1, hwf.2⟩
      obtain ⟨hlinkC, -, -, hmonoC, -, -, hpresC, -, hneC, hbrC⟩ :=
        step_package 0 hC (p2_idx_lt v) hfrB hp2lt hgoodB
      have hp2ne_root : p2f ≠ t.root := hneB p2f (root_mem_subFrames sB p2f 1)
      have hfne2 : f ≠ p2f := hneC f (root_mem_subFrames s1 f 0)
      have hfne_root : f ≠ t.root := by
        rcases hbrC with ⟨hse, hmem, -, -⟩ | ⟨hcF, -, -, -⟩
        · exact hneB f (child_mem_subFrames hmem)
        · intro hc
          rw [hc] at hcF
          omega
      refine ⟨t.root, p2f, rfl, ?_, ?_⟩
      · rw [write_mem_ne_frame _ _ _ _ (Ne.symm hfne_root)]
        rw [hpresC t.root (p3_idx v) (fun hc => hp2ne_root hc.1.symm) (by omega)]
        exact hlinkB
      · rw [write_mem_ne_frame _ _ _ _ (Ne.symm hfne2)]
        exact hlinkC
  | four =>
      simp only [topFrameOrCreate] at htopc
      obtain ⟨hlinkT, hp30, hp3lt, hmonoT, hfrA, -, -, hgoodA, hneT, hbrT⟩ :=
        step_package 2 htopc (p4_idx_lt v) hfr0 hrlt ⟨hwf.1, hwf.2⟩
      obtain ⟨hlinkB, hp20, hp2lt, hmonoB, hfrB, -, hpresB, hgoodB, hneB, hbrB⟩ :=
        step_package 1 hB (p3_idx_lt v) hfrA hp3lt hgoodA
      obtain ⟨hlinkC, -, -, hmonoC, -, -, hpresC, -, hneC, hbrC⟩ :=
        step_package 0 hC (p2_idx_lt v) hfrB hp2lt hgoodB
      have hp3ne_root : p3f ≠ t.root := hneT p3f (root_mem_subFrames sA p3f 2)
      have hp2ne3 : p2f ≠ p3f := hneB p2f (root_mem_subFrames sB p2f 1)
      have hp2ne_root : p2f ≠ t.root := by
        rcases hbrB with ⟨hse, hmem, -, -⟩ | ⟨hcF, -, -, -⟩
        · exact hneT p2f (child_mem_subFrames hmem)
        · intro hc
          rw [hc] at hcF
          omega
      have hfne2 : f ≠ p2f := hneC f (root_mem_subFrames s1 f 0)
      have hfne3 : f ≠ p3f := by
        rcases hbrC with ⟨hse, hmem, -, -⟩ | ⟨hcF, -, -, -⟩
        · exact hneB f (child_mem_subFrames hmem)
        · intro hc
          rw [hc] at hcF
          omega
      have hfne_root : f ≠ t.root := by
        rcases hbrC with ⟨hse, hmemC, -, -⟩ | ⟨hcF, -, -, -⟩
        · rcases hbrB with ⟨hse2, hmemB, hliftB, -⟩ | ⟨-, -, -, hnil⟩
          · refine hneT f ?_
            rw [hse2] at hmemC
            exact hliftB f (child_mem_subFrames hmemC)
          · rw [hnil] at hmemC
            cases hmemC
        · intro hc
          rw [hc] at hcF
          omega
      refine ⟨p3f, p2f, ?_, ?_, ?_⟩
      · show next_table _ = _
        rw [write_mem_ne_frame _ _ _ _ (Ne.symm hfne_root)]
        rw [hpresC t.root (p4_idx v) (fun hc => hp2ne_root hc.1.symm) (by omega)]
        rw [hpresB t.root (p4_idx v) (fun hc => hp3ne_root hc.1.symm) (by omega)]
        exact hlinkT
      · rw [write_mem_ne_frame _ _ _ _ (Ne.symm hfne3)]
        rw [hpresC p3f (p3_idx v) (fun hc => hp2ne3 hc.1.symm) (by omega)]
        exact hlinkB
      · rw [write_mem_ne_frame _ _ _ _ (Ne.symm hfne2)]
        exact hlinkC

/-- The top walk step depends on the address only through `p4_idx`. -/
lemma topFrame_congr {s : HMem} {t : Table} {L : Levels} {v w : Nat}
    (h4 : p4_idx v = p4_idx w) : topFrame s t L v = topFrame s t L w := by
  cases L <;> simp only [topFrame, h4]

/-- Reading `query` off a walk that found a page entry. -/
lemma query_build {s : HMem} {t : Table} {L : Levels} {v f i pa : Nat}
    {sz : PageSize} {fl : PagingFlags} {hu : Bool}
    (hge : get_entry s t L v = .ok (f, i, sz))
    (he : s.mem f i = .page pa fl hu) :
    query s t L v = .ok (pa + sz.align_offset v, fl, sz) := by
  simp only [query, hge]
  rw [he]
  rfl

/-- C1: map/query consistency.  On a well-formed table, whenever
`map(vaddr, paddr, size, flags)` succeeds for a size-aligned virtual and
physical address, `query(vaddr)` returns exactly `(paddr, flags, size)`,
and `query(vaddr + size - 1)` — the inclusive upper bound of the mapping —
returns the same mapping with the in-page offset `size - 1` added to the
entry's physical address. -/
theorem c1_map_query_consistency (s : HMem) (t : Table) (L : Levels)
    (fl : ToFlush) (v p : Nat) (sz : PageSize) (flags : PagingFlags)
    (s2 : HMem) (fl2 : ToFlush)
    (hwf : TreeWF s t L)
    (hva : sz.is_aligned v = true) (hpa : sz.is_aligned p = true)
    (hok : map s t L fl v p sz flags = (.ok (), s2, fl2)) :
    query s2 t L v = .ok (p, flags, sz) ∧
    query s2 t L (v + sz.bytes - 1) = .ok (p + (sz.bytes - 1), flags, sz) := by
  obtain ⟨f, i, s1, hg, hu, hs2, -⟩ := map_ok_elim hok
  simp only [PageSize.is_aligned, decide_eq_true_eq] at hva hpa
  have hpd : sz.align_down p = p := by
    unfold PageSize.align_down
    omega
  rw [hpd] at hs2
  cases sz with
  | Size1G =>
      obtain ⟨hi, htopw⟩ := gemoc_1G_paths hwf hg
      subst hi
      subst hs2
      have hcell : (s1.write f (p3_idx v)
          (Entry.new_page p flags PageSize.Size1G.is_huge)).mem f (p3_idx v)
          = .page p flags true := write_mem_self _ _ _ _
      have hge1 : get_entry (s1.write f (p3_idx v)
          (Entry.new_page p flags PageSize.Size1G.is_huge)) t L v
          = .ok (f, p3_idx v, .Size1G) := by
        refine get_entry_build_1G (htopw _) ?_
        rw [hcell]
        rfl
      have hv' : v + PageSize.Size1G.bytes - 1 = v + (2 ^ 30 - 1) := by
        simp only [PageSize.bytes]
        omega
      have hb : PageSize.Size1G.bytes = 2 ^ 30 := by rfl
      rw [hb] at hva
      have h4 : p4_idx (v + (2 ^ 30 - 1)) = p4_idx v := by
        unfold p4_idx
        omega
      have h3 : p3_idx (v + (2 ^ 30 - 1)) = p3_idx v := by
        unfold p3_idx
        omega
      have hge2 : get_entry (s1.write f (p3_idx v)
          (Entry.new_page p flags PageSize.Size1G.is_huge)) t L (v + (2 ^ 30 - 1))
          = .ok (f, p3_idx (v + (2 ^ 30 - 1)), .Size1G) := by
        refine get_entry_build_1G ?_ ?_
        · rw [topFrame_congr h4]
          exact htopw _
        · rw [h3, hcell]
          rfl
      constructor
      · rw [query_build hge1 hcell]
        have hoff : PageSize.Size1G.align_offset v = 0 := by
          show v % PageSize.Size1G.bytes = 0
          rw [hb]
          exact hva
        rw [hoff, Nat.add_zero]
      · rw [hv', query_build hge2 (by rw [h3]; exact hcell)]
        have hoff : PageSize.Size1G.align_offset (v + (2 ^ 30 - 1)) = 2 ^ 30 - 1 := by
          show (v + (2 ^ 30 - 1)) % PageSize.Size1G.bytes = 2 ^ 30 - 1
          rw [hb]
          omega
        rw [hoff, hb]
  | Size2M =>
      obtain ⟨hi, htopw⟩ := gemoc_2M_paths hwf hg
      subst hi
      subst hs2
      obtain ⟨p3f, htop, hlink⟩ :=
        htopw (Entry.new_page p flags PageSize.Size2M.is_huge)
      have hcell : (s1.write f (p2_idx v)
          (Entry.new_page p flags PageSize.Size2M.is_huge)).mem f (p2_idx v)
          = .page p flags true := write_mem_self _ _ _ _
      have h3huge : ((s1.write f (p2_idx v)
          (Entry.new_page p flags PageSize.Size2M.is_huge)).mem p3f (p3_idx v)).is_huge
          = false := ((next_table_ok_iff _ _).mp hlink).2.2
      have hge1 : get_entry (s1.write f (p2_idx v)
          (Entry.new_page p flags PageSize.Size2M.is_huge)) t L v
          = .ok (f, p2_idx v, .Size2M) := by
        refine get_entry_build_2M htop h3huge hlink ?_
        rw [hcell]
        rfl
      have hb : PageSize.Size2M.bytes = 2 ^ 21 := by rfl
      rw [hb] at hva
      have hv' : v + PageSize.Size2M.bytes - 1 = v + (2 ^ 21 - 1) := by
        rw [hb]
        omega
      have h4 : p4_idx (v + (2 ^ 21 - 1)) = p4_idx v := by
        unfold p4_idx
        omega
      have h3 : p3_idx (v + (2 ^ 21 - 1)) = p3_idx v := by
        unfold p3_idx
        omega
      have h2 : p2_idx (v + (2 ^ 21 - 1)) = p2_idx v := by
        unfold p2_idx
        omega
      have hge2 : get_entry (s1.write f (p2_idx v)
          (Entry.new_page p flags PageSize.Size2M.is_huge)) t L (v + (2 ^ 21 - 1))
          = .ok (f, p2_idx (v + (2 ^ 21 - 1)), .Size2M) := by
        refine @get_entry_build_2M _ _ _ _ p3f f ?_ ?_ ?_ ?_
        · rw [topFrame_congr h4]
          exact htop
        · rw [h3]
          exact h3huge
        · rw [h3]
          exact hlink
        · rw [h2, hcell]
          rfl
      constructor
      · rw [query_build hge1 hcell]
        have hoff : PageSize.Size2M.align_offset v = 0 := by
          show v % PageSize.Size2M.bytes = 0
          rw [hb]
          exact hva
        rw [hoff, Nat.add_zero]
      · rw [hv', query_build hge2 (by rw [h2]; exact hcell)]
        have hoff : PageSize.Size2M.align_offset (v + (2 ^ 21 - 1)) = 2 ^ 21 - 1 := by
          show (v + (2 ^ 21 - 1)) % PageSize.Size2M.bytes = 2 ^ 21 - 1
          rw [hb]
          omega
        rw [hoff, hb]
  | Size4K =>
      obtain ⟨hi, htopw⟩ := gemoc_4K_paths hwf hg
      subst hi
      subst hs2
      obtain ⟨p3f, p2f, htop, hlink3, hlink2⟩ :=
        htopw (Entry.new_page p flags PageSize.Size4K.is_huge)
      have hcell : (s1.write f (p1_idx v)
          (Entry.new_page p flags PageSize.Size4K.is_huge)).mem f (p1_idx v)
          = .page p flags false := write_mem_self _ _ _ _
      have h3huge := ((next_table_ok_iff _ _).mp hlink3).2.2
      have h2huge := ((next_table_ok_iff _ _).mp hlink2).2.2
      have hge1 : get_entry (s1.write f (p1_idx v)
          (Entry.new_page p flags PageSize.Size4K.is_huge)) t L v
          = .ok (f, p1_idx v, .Size4K) :=
        get_entry_build_4K htop h3huge hlink3 h2huge hlink2
      have hb : PageSize.Size4K.bytes = 2 ^ 12 := by rfl
      rw [hb] at hva
      have hv' : v + PageSize.Size4K.bytes - 1 = v + (2 ^ 12 - 1) := by
        rw [hb]
        omega
      have h4 : p4_idx (v + (2 ^ 12 - 1)) = p4_idx v := by
        unfold p4_idx
        omega
      have h3 : p3_idx (v + (2 ^ 12 - 1)) = p3_idx v := by
        unfold p3_idx
        omega
      have h2 : p2_idx (v + (2 ^ 12 - 1)) = p2_idx v := by
        unfold p2_idx
        omega
      have h1 : p1_idx (v + (2 ^ 12 - 1)) = p1_idx v := by
        unfold p1_idx
        omega
      have hge2 : get_entry (s1.write f (p1_idx v)
          (Entry.new_page p flags PageSize.Size4K.is_huge)) t L (v + (2 ^ 12 - 1))
          = .ok (f, p1_idx (v + (2 ^ 12 - 1)), .Size4K) := by
        refine @get_entry_build_4K _ _ _ _ p3f p2f f ?_ ?_ ?_ ?_ ?_
        · rw [topFrame_congr h4]
          exact htop
        · rw [h3]
          exact h3huge
        · rw [h3]
          exact hlink3
        · rw [h2]
          exact h2huge
        · rw [h2]
          exact hlink2
      constructor
      · rw [query_build hge1 hcell]
        have hoff : PageSize.Size4K.align_offset v = 0 := by
          show v % PageSize.Size4K.bytes = 0
          rw [hb]
          exact hva
        rw [hoff, Nat.add_zero]
      · rw [hv', query_build hge2 (by rw [h1]; exact hcell)]
        have hoff : PageSize.Size4K.align_offset (v + (2 ^ 12 - 1)) = 2 ^ 12 - 1 := by
          show (v + (2 ^ 12 - 1)) % PageSize.Size4K.bytes = 2 ^ 12 - 1
          rw [hb]
          omega
        rw [hoff, hb]

set_option maxRecDepth 8192 in
/-- C1 witness: on a fresh table, mapping a 2M page at `0x200000` to
physical `0x400000` and querying both ends of the mapping. -/
theorem c1_map_query_consistency_witness :
    query (map (try_new HMem.init).2 (try_new HMem.init).1 .four .noneYet
        0x200000 0x400000 .Size2M flagsRW).2.1 (try_new HMem.init).1 .four
      0x200000 = .ok (0x400000, flagsRW, .Size2M) :=
  (c1_map_query_consistency (try_new HMem.init).2 (try_new HMem.init).1
    .four .noneYet 0x200000 0x400000 .Size2M flagsRW
    (map (try_new HMem.init).2 (try_new HMem.init).1 .four .noneYet
      0x200000 0x400000 .Size2M flagsRW).2.1
    (map (try_new HMem.init).2 (try_new HMem.init).1 .four .noneYet
      0x200000 0x400000 .Size2M flagsRW).2.2
    ⟨by decide, by decide⟩ (by decide) (by decide) (by rfl)).1

/-- An unused entry carries no table link. -/
lemma tableTarget_unused {e : Entry} (h : e.is_unused = true) :
    tableTarget e = none := by
  cases e with
  | unused => rfl
  | table p => cases h
  | page p fl hu => cases h

/-- A table entry to a nonzero frame links to that frame. -/
lemma tableTarget_table {p : Nat} (hp : p ≠ 0) :
    tableTarget (.table p) = some p := by
  unfold tableTarget nextTableOk
  simp [Entry.paddr, Entry.is_huge, hp]

/-- Tree listings depend only on the table-link view of memory: two states
whose cells agree under `tableTarget` have identical listings. -/
lemma subFrames_congr_tt {s s' : HMem}
    (h : ∀ g j, tableTarget (s'.mem g j) = tableTarget (s.mem g j)) :
    ∀ ℓ f, subFrames s' f ℓ = subFrames s f ℓ := by
  intro ℓ
  induction ℓ with
  | zero => intro f; rfl
  | succ ℓ ih =>
      intro f
      have hcf : childFrames s' f = childFrames s f := by
        unfold childFrames
        exact List.filterMap_congr (fun i _ => h f i)
      show f :: (childFrames s' f).flatMap (fun c => subFrames s' c ℓ)
        = f :: (childFrames s f).flatMap (fun c => subFrames s c ℓ)
      rw [hcf, funext (fun c => ih c)]

/-- The child listing depends only on the frame's own cells. -/
lemma childFrames_congr {s s' : HMem} {f : Nat}
    (h : ∀ j, j < ENTRY_COUNT → s'.mem f j = s.mem f j) :
    childFrames s' f = childFrames s f := by
  unfold childFrames
  refine List.filterMap_congr (fun i hi => ?_)
  rw [h i (List.mem_range.mp hi)]

/-- Every scanned frame occurs in the subtree listing. -/
lemma scanned_subset {s : HMem} :
    ∀ ℓ f x, x ∈ scanned s f ℓ → x ∈ subFrames s f ℓ := by
  intro ℓ
  induction ℓ with
  | zero => intro f x hx; cases hx
  | succ ℓ ih =>
      intro f x hx
      have hx' : x ∈ f :: (childFrames s f).flatMap (fun c => scanned s c ℓ) := hx
      show x ∈ f :: (childFrames s f).flatMap (fun c => subFrames s c ℓ)
      rcases List.mem_cons.mp hx' with rfl | hx2
      · exact List.mem_cons_self _ _
      · obtain ⟨c, hc, hxc⟩ := List.mem_flatMap.mp hx2
        exact List.mem_cons_of_mem _ (List.mem_flatMap.mpr ⟨c, hc, ih c x hxc⟩)

/-- Pointwise-equal list functions give equal flat maps. -/
lemma flatMap_congr_mem {l : List Nat} {F G : Nat → List Nat}
    (h : ∀ x ∈ l, F x = G x) : l.flatMap F = l.flatMap G := by
  induction l with
  | nil => rfl
  | cons a l ih =>
      rw [List.flatMap_cons, List.flatMap_cons, h a (List.mem_cons_self _ _),
        ih (fun x hx => h x (List.mem_cons_of_mem _ hx))]

/-- Listings are unchanged by a memory change confined to frames outside
the scanned set. -/
lemma out_of_tree_congr {s s' : HMem} {P : Nat → Prop}
    (h : ∀ g j, ¬ P g → s'.mem g j = s.mem g j) :
    ∀ ℓ f, (∀ x ∈ scanned s f ℓ, ¬ P x) →
      subFrames s' f ℓ = subFrames s f ℓ ∧ scanned s' f ℓ = scanned s f ℓ := by
  intro ℓ
  induction ℓ with
  | zero => intro f _; exact ⟨rfl, rfl⟩
  | succ ℓ ih =>
      intro f hP
      have hPf : ¬ P f := hP f (List.mem_cons_self _ _)
      have hcf : childFrames s' f = childFrames s f :=
        childFrames_congr (fun j _ => h f j hPf)
      have hch : ∀ c ∈ childFrames s f,
          subFrames s' c ℓ = subFrames s c ℓ ∧
          scanned s' c ℓ = scanned s c ℓ := by
        intro c hc
        refine ih c (fun x hx => ?_)
        exact hP x (List.mem_cons_of_mem _ (List.mem_flatMap.mpr ⟨c, hc, hx⟩))
      constructor
      · show f :: (childFrames s' f).flatMap (fun c => subFrames s' c ℓ)
          = f :: (childFrames s f).flatMap (fun c => subFrames s c ℓ)
        rw [hcf, flatMap_congr_mem (fun c hc => (hch c hc).1)]
      · show f :: (childFrames s' f).flatMap (fun c => scanned s' c ℓ)
          = f :: (childFrames s f).flatMap (fun c => scanned s c ℓ)
        rw [hcf, flatMap_congr_mem (fun c hc => (hch c hc).2)]

/-- The children of a duplicate-free subtree are pairwise distinct. -/
lemma childFrames_nodup {s : HMem} {f ℓ : Nat}
    (hnd : (subFrames s f (ℓ + 1)).Nodup) : (childFrames s f).Nodup := by
  have hshape : subFrames s f (ℓ + 1)
      = f :: (childFrames s f).flatMap (fun c => subFrames s c ℓ) := rfl
  rw [hshape, List.nodup_cons] at hnd
  obtain ⟨-, hX⟩ := hnd
  obtain ⟨-, hpw⟩ := List.nodup_flatMap.mp hX
  refine List.Pairwise.imp (fun {a b} hdisj => ?_) hpw
  intro hab
  have hdisj' : List.Disjoint (subFrames s a ℓ) (subFrames s b ℓ) := hdisj
  rw [hab] at hdisj'
  exact List.disjoint_left.mp hdisj' (root_mem_subFrames s b ℓ)
    (root_mem_subFrames s b ℓ)

/-- Flat maps over permuted index lists agree as multisets. -/
lemma flatMap_ms_perm {F : Nat → List Nat} {l l' : List Nat}
    (h : l.Perm l') :
    ((l.flatMap F : List Nat) : Multiset Nat)
      = ((l'.flatMap F : List Nat) : Multiset Nat) := by
  induction h with
  | nil => rfl
  | cons x h ih =>
      rw [List.flatMap_cons, List.flatMap_cons, ← Multiset.coe_add,
        ← Multiset.coe_add, ih]
  | swap x y l =>
      rw [List.flatMap_cons, List.flatMap_cons, List.flatMap_cons,
        List.flatMap_cons, ← Multiset.coe_add, ← Multiset.coe_add,
        ← Multiset.coe_add, ← Multiset.coe_add, ← add_assoc, ← add_assoc,
        add_comm ((F y : List Nat) : Multiset Nat) ((F x : List Nat) : Multiset Nat)]
  | trans h1 h2 ih1 ih2 => rw [ih1, ih2]

/-- A flat map where exactly one (duplicate-free) index gains one extra
element gains exactly that element as a multiset. -/
lemma flatMap_update_ms {F G : Nat → List Nat} {x0 c : Nat} :
    ∀ {l : List Nat}, l.Nodup → x0 ∈ l →
      (∀ x ∈ l, x ≠ x0 → G x = F x) →
      ((G x0 : List Nat) : Multiset Nat)
        = ((F x0 : List Nat) : Multiset Nat) + {c} →
      ((l.flatMap G : List Nat) : Multiset Nat)
        = ((l.flatMap F : List Nat) : Multiset Nat) + {c} := by
  intro l
  induction l with
  | nil => intro _ h; cases h
  | cons a l ih =>
      intro hnd hmem hsame hch
      rw [List.nodup_cons] at hnd
      rw [List.flatMap_cons, List.flatMap_cons, ← Multiset.coe_add,
        ← Multiset.coe_add]
      rcases List.mem_cons.mp hmem with rfl | hmem'
      · have hrest : l.flatMap G = l.flatMap F :=
          flatMap_congr_mem (fun x hx => hsame x (List.mem_cons_of_mem _ hx)
            (fun hxx => hnd.1 (hxx ▸ hx)))
        rw [hch, hrest, add_right_comm]
      · have hax : a ≠ x0 := fun hc => hnd.1 (hc ▸ hmem')
        rw [hsame a (List.mem_cons_self _ _) hax,
          ih hnd.2 hmem' (fun x hx h2 => hsame x (List.mem_cons_of_mem _ hx) h2)
            hch, ← add_assoc]

/-- A filter-map where one (duplicate-free) index turns from `none` to
`some c` gains exactly `c` as a multiset. -/
lemma filterMap_update_ms {f g : Nat → Option Nat} {j0 c : Nat} :
    ∀ {l : List Nat}, l.Nodup → j0 ∈ l →
      (∀ x ∈ l, x ≠ j0 → g x = f x) → f j0 = none → g j0 = some c →
      ((l.filterMap g : List Nat) : Multiset Nat)
        = ((l.filterMap f : List Nat) : Multiset Nat) + {c} := by
  intro l
  induction l with
  | nil => intro _ h; cases h
  | cons a l ih =>
      intro hnd hmem hsame hold hnew
      rw [List.nodup_cons] at hnd
      rcases List.mem_cons.mp hmem with rfl | hmem'
      · rw [List.filterMap_cons_some hnew, List.filterMap_cons_none hold]
        have hl : List.filterMap g l = List.filterMap f l :=
          List.filterMap_congr (fun x hx => hsame x (List.mem_cons_of_mem _ hx)
            (fun hxx => hnd.1 (hxx ▸ hx)))
        rw [hl, ← Multiset.cons_coe, ← Multiset.singleton_add]
        exact add_comm _ _
      · have hax : a ≠ j0 := fun hc => hnd.1 (hc ▸ hmem')
        have hga : g a = f a := hsame a (List.mem_cons_self _ _) hax
        rcases hfa : f a with - | b
        · rw [List.filterMap_cons_none (hga.trans hfa),
            List.filterMap_cons_none hfa]
          exact ih hnd.2 hmem'
            (fun x hx h2 => hsame x (List.mem_cons_of_mem _ hx) h2) hold hnew
        · rw [List.filterMap_cons_some (hga.trans hfa),
            List.filterMap_cons_some hfa, ← Multiset.cons_coe,
            ← Multiset.cons_coe,
            ih hnd.2 hmem'
              (fun x hx h2 => hsame x (List.mem_cons_of_mem _ hx) h2) hold hnew,
            Multiset.cons_add]

/-- A create step at an unused cell of a scanned frame of a duplicate-free,
watermark-bounded subtree adds exactly the freshly allocated frame to the
subtree listing, as a multiset. -/
lemma subFrames_createStep_ms {s : HMem} {g0 j0 : Nat}
    (hj0 : j0 < ENTRY_COUNT)
    (hu : (s.mem g0 j0).is_unused = true)
    (hfr : 0 < s.fresh) :
    ∀ ℓ f, (subFrames s f ℓ).Nodup →
      (∀ x ∈ subFrames s f ℓ, x < s.fresh) →
      g0 ∈ scanned s f ℓ →
      ((subFrames (createStep s g0 j0) f ℓ : List Nat) : Multiset Nat)
        = ((subFrames s f ℓ : List Nat) : Multiset Nat) + {s.fresh} := by
  intro ℓ
  induction ℓ with
  | zero => intro f _ _ hsc; cases hsc
  | succ ℓ ih =>
      intro f hnd hbd hsc
      have hg0lt : g0 < s.fresh := hbd g0 (scanned_subset _ _ _ hsc)
      have hflt : f < s.fresh := hbd f (root_mem_subFrames s f _)
      have hshape' : subFrames (createStep s g0 j0) f (ℓ + 1)
          = f :: (childFrames (createStep s g0 j0) f).flatMap
              (fun c => subFrames (createStep s g0 j0) c ℓ) := rfl
      have hshape : subFrames s f (ℓ + 1)
          = f :: (childFrames s f).flatMap (fun c => subFrames s c ℓ) := rfl
      have hndC : (childFrames s f).Nodup := childFrames_nodup hnd
      have hnd2 := hnd
      rw [hshape, List.nodup_cons] at hnd2
      obtain ⟨hfnotin, hndflat⟩ := hnd2
      obtain ⟨-, hpw⟩ := List.nodup_flatMap.mp hndflat
      by_cases hfg : f = g0
      · subst hfg
        have hch_ms : ((childFrames (createStep s f j0) f : List Nat) : Multiset Nat)
            = ((childFrames s f : List Nat) : Multiset Nat) + {s.fresh} := by
          refine filterMap_update_ms (List.nodup_range _)
            (List.mem_range.mpr hj0) ?_ (tableTarget_unused hu) ?_
          · intro x _ hxne
            rw [createStep_mem, if_neg (fun hc => hxne hc.2),
              if_neg (fun hc => by omega)]
          · rw [createStep_mem, if_pos ⟨rfl, rfl⟩]
            exact tableTarget_table (by omega)
        have hold_c : ∀ c ∈ childFrames s f,
            subFrames (createStep s f j0) c ℓ = subFrames s c ℓ := by
          intro c hc
          obtain ⟨-, hnec, hliftc⟩ := subtree_step hc hnd
          refine (out_of_tree_congr (P := fun x => x = f ∨ x = s.fresh) ?_ ℓ c ?_).1
          · intro g j hg
            simp only [not_or] at hg
            rw [createStep_mem, if_neg (fun h2 => hg.1 h2.1), if_neg hg.2]
          · intro x hx
            simp only [not_or]
            have hxs : x ∈ subFrames s c ℓ := scanned_subset ℓ c x hx
            exact ⟨hnec x hxs, by have := hbd x (hliftc x hxs); omega⟩
        have hnilF : childFrames (createStep s f j0) s.fresh = [] := by
          refine childFrames_eq_nil ?_
          intro jx _
          rw [createStep_mem, if_neg (fun hc => by omega), if_pos rfl]
          rfl
        have hsubF : ∀ ℓ', subFrames (createStep s f j0) s.fresh ℓ' = [s.fresh] :=
          subFrames_of_no_children hnilF
        have hperm : (childFrames (createStep s f j0) f).Perm
            (childFrames s f ++ [s.fresh]) := by
          refine Multiset.coe_eq_coe.mp ?_
          rw [hch_ms, ← Multiset.coe_singleton s.fresh]
          exact Multiset.coe_add _ _
        have hmain : (((childFrames (createStep s f j0) f).flatMap
              (fun c => subFrames (createStep s f j0) c ℓ) : List Nat) : Multiset Nat)
            = (((childFrames s f).flatMap
                (fun c => subFrames s c ℓ) : List Nat) : Multiset Nat) + {s.fresh} := by
          rw [flatMap_ms_perm hperm, List.flatMap_append,
            flatMap_congr_mem hold_c]
          have hsingle : [s.fresh].flatMap
              (fun c => subFrames (createStep s f j0) c ℓ) = [s.fresh] := by
            rw [List.flatMap_cons, hsubF ℓ]
            rfl
          rw [hsingle, ← Multiset.coe_add, Multiset.coe_singleton]
        rw [hshape', hshape, ← Multiset.cons_coe, ← Multiset.cons_coe, hmain,
          Multiset.cons_add]
      · have hsc' : g0 ∈ (childFrames s f).flatMap (fun c => scanned s c ℓ) := by
          have hsc2 : g0 ∈ f :: (childFrames s f).flatMap
              (fun c => scanned s c ℓ) := hsc
          rcases List.mem_cons.mp hsc2 with h | h
          · exact absurd h.symm hfg
          · exact h
        obtain ⟨c0, hc0, hg0c0⟩ := List.mem_flatMap.mp hsc'
        have hcf : childFrames (createStep s g0 j0) f = childFrames s f :=
          childFrames_congr (fun j _ => by
            rw [createStep_mem, if_neg (fun hc => hfg hc.1),
              if_neg (fun hc => by omega)])
        have hdisj : ∀ c ∈ childFrames s f, c ≠ c0 → g0 ∉ scanned s c ℓ := by
          intro c hc hcc0 hgc
          have hpair : (List.Disjoint on fun d => subFrames s d ℓ) c c0 :=
            List.Pairwise.forall (fun a b h => List.Disjoint.symm h) hpw hc hc0 hcc0
          have hpair' : List.Disjoint (subFrames s c ℓ) (subFrames s c0 ℓ) := hpair
          exact hpair' (scanned_subset ℓ c g0 hgc) (scanned_subset ℓ c0 g0 hg0c0)
        have hsame_c : ∀ c ∈ childFrames s f, c ≠ c0 →
            subFrames (createStep s g0 j0) c ℓ = subFrames s c ℓ := by
          intro c hc hcc0
          obtain ⟨-, -, hliftc⟩ := subtree_step hc hnd
          refine (out_of_tree_congr (P := fun x => x = g0 ∨ x = s.fresh) ?_ ℓ c ?_).1
          · intro g j hg
            simp only [not_or] at hg
            rw [createStep_mem, if_neg (fun h2 => hg.1 h2.1), if_neg hg.2]
          · intro x hx
            simp only [not_or]
            have hxs : x ∈ subFrames s c ℓ := scanned_subset ℓ c x hx
            refine ⟨?_, by have := hbd x (hliftc x hxs); omega⟩
            intro hxg0
            subst hxg0
            exact hdisj c hc hcc0 hx
        have hc0nd : (subFrames s c0 ℓ).Nodup := (subtree_step hc0 hnd).1
        have hc0bd : ∀ x ∈ subFrames s c0 ℓ, x < s.fresh := fun x hx =>
          hbd x ((subtree_step hc0 hnd).2.2 x hx)
        have hch0 := ih c0 hc0nd hc0bd hg0c0
        have hmain : (((childFrames s f).flatMap
              (fun c => subFrames (createStep s g0 j0) c ℓ) : List Nat) : Multiset Nat)
            = (((childFrames s f).flatMap
                (fun c => subFrames s c ℓ) : List Nat) : Multiset Nat) + {s.fresh} :=
          flatMap_update_ms hndC hc0 hsame_c hch0
        rw [hshape', hshape, ← Multiset.cons_coe, ← Multiset.cons_coe, hcf,
          hmain, Multiset.cons_add]

/-- One successful create-walk step with root-level accounting: besides the
`step_package` facts, the listing of any well-formed `root` tree whose
scanned set contains `g` grows by exactly the frames the step allocated
(none, or the one fresh frame), and the allocation log grows by the same
frames. -/
lemma step_acct {s : HMem} {g j c : Nat} {s' : HMem} {root F : Nat} (ℓ : Nat)
    (hres : ntmoc s g j = (.ok c, s'))
    (hj : j < ENTRY_COUNT)
    (hfr : 0 < s.fresh)
    (hglt : g < s.fresh)
    (hgs : GoodSub s g (ℓ + 1))
    (hroot : GoodSub s root F)
    (hg_sc : g ∈ scanned s root F) :
    next_table (s'.mem g j) = .ok c ∧
    c ≠ 0 ∧ c < s'.fresh ∧ s.fresh ≤ s'.fresh ∧ 0 < s'.fresh ∧
    s'.deallocs = s.deallocs ∧
    (∀ x jx, ¬(x = g ∧ jx = j) → x < s.fresh → s'.mem x jx = s.mem x jx) ∧
    GoodSub s' c ℓ ∧ (∀ x ∈ subFrames s' c ℓ, x ≠ g) ∧
    c ∈ childFrames s' g ∧
    GoodSub s' root F ∧
    ((s' = s ∧ c ∈ childFrames s g ∧
        (∀ x ∈ subFrames s c ℓ, x ∈ subFrames s g (ℓ + 1))) ∨
      c = s.fresh) ∧
    ∃ cr : List Nat,
      ((subFrames s' root F : List Nat) : Multiset Nat)
        = ((subFrames s root F : List Nat) : Multiset Nat) + ↑cr ∧
      s'.allocs = s.allocs ++ cr ∧
      (∀ x ∈ cr, s.fresh ≤ x ∧ x < s'.fresh) := by
  obtain ⟨hlink, hc0, hclt, hmono, hfr', hdea, hpres, hgood, hne, hbr⟩ :=
    step_package ℓ hres hj hfr hglt hgs
  have hchild : c ∈ childFrames s' g := by
    refine (mem_childFrames s' g c).mpr ⟨j, hj, ?_⟩
    exact next_table_ok_tableTarget hlink
  rcases hbr with ⟨hse, hmem, hlift, hal⟩ | ⟨hcF, hsC, hu, -⟩
  · subst hse
    refine ⟨hlink, hc0, hclt, hmono, hfr', hdea, hpres, hgood, hne, hchild,
      hroot, Or.inl ⟨rfl, hmem, hlift⟩, [], ?_, ?_, ?_⟩
    · rw [Multiset.coe_nil, add_zero]
    · rw [hal, List.append_nil]
    · intro x hx
      cases hx
  · subst hcF
    subst hsC
    have hms := subFrames_createStep_ms hj hu hfr F root hroot.1
      (fun x hx => (hroot.2 x hx).2) hg_sc
    have hms' : ((subFrames (createStep s g j) root F : List Nat) : Multiset Nat)
        = s.fresh ::ₘ ((subFrames s root F : List Nat) : Multiset Nat) := by
      rw [hms, add_comm, Multiset.singleton_add]
    refine ⟨hlink, hc0, hclt, hmono, hfr', hdea, hpres, hgood, hne, hchild,
      ⟨?_, ?_⟩, Or.inr rfl, [s.fresh], ?_, createStep_allocs s g j, ?_⟩
    · rw [← Multiset.coe_nodup, hms', Multiset.nodup_cons]
      refine ⟨?_, Multiset.coe_nodup.mpr hroot.1⟩
      intro hmem2
      have := (hroot.2 s.fresh (Multiset.mem_coe.mp hmem2)).2
      omega
    · intro x hx
      have hx2 : (x : Nat) ∈
          ((subFrames (createStep s g j) root F : List Nat) : Multiset Nat) :=
        Multiset.mem_coe.mpr hx
      rw [hms'] at hx2
      rcases Multiset.mem_cons.mp hx2 with rfl | hx3
      · rw [createStep_fresh]
        omega
      · have := hroot.2 x (Multiset.mem_coe.mp hx3)
        rw [createStep_fresh]
        omega
    · rw [hms, Multiset.coe_singleton]
    · intro x hx
      rcases List.mem_singleton.mp hx with rfl
      rw [createStep_fresh]
      omega

/-- Composition of two accounting deltas. -/
lemma acct_trans {A B C : Multiset Nat} {cr1 cr2 : List Nat}
    (h1 : B = A + ↑cr1) (h2 : C = B + ↑cr2) : C = A + ↑(cr1 ++ cr2) := by
  rw [h2, h1, ← Multiset.coe_add]
  exact add_assoc _ _ _

/-- Accounting for a successful 1G create-walk: the tree stays well-formed
and its listing and the allocation log grow by the same fresh frames. -/
lemma gemoc_1G_acct {s : HMem} {t : Table} {L : Levels} {v f i : Nat}
    {s1 : HMem} (hwf : TreeWF s t L)
    (hg : gemoc s t L v .Size1G = (.ok (f, i), s1)) :
    GoodSub s1 t.root (L.num - 1) ∧
    ∃ cr : List Nat,
      ((subFrames s1 t.root (L.num - 1) : List Nat) : Multiset Nat)
        = ((subFrames s t.root (L.num - 1) : List Nat) : Multiset Nat) + ↑cr ∧
      s1.allocs = s.allocs ++ cr ∧ s1.deallocs = s.deallocs ∧
      s.fresh ≤ s1.fresh ∧ (∀ x ∈ cr, s.fresh ≤ x ∧ x < s1.fresh) := by
  obtain ⟨htopc, -⟩ := gemoc_ok_1G hg
  obtain ⟨hr0, hrlt, hfr0⟩ := treeWF_root_facts hwf
  cases L with
  | three =>
      simp only [topFrameOrCreate, Prod.mk.injEq, Except.ok.injEq] at htopc
      obtain ⟨-, hsA⟩ := htopc
      subst hsA
      refine ⟨⟨hwf.1, hwf.2⟩, [], ?_, ?_, rfl, le_refl _, ?_⟩
      · rw [Multiset.coe_nil, add_zero]
      · rw [List.append_nil]
      · intro x hx
        cases hx
  | four =>
      simp only [topFrameOrCreate] at htopc
      have hroot : GoodSub s t.root 3 := ⟨hwf.1, hwf.2⟩
      obtain ⟨-, -, -, hmono, -, hdea, -, -, -, -, hgroot, -, cr, hms, hal, hbd⟩ :=
        step_acct 2 htopc (p4_idx_lt v) hfr0 hrlt hroot hroot
          (self_mem_scanned (by omega))
      exact ⟨hgroot, cr, hms, hal, hdea, hmono, hbd⟩

/-- Accounting for a successful 2M create-walk. -/
lemma gemoc_2M_acct {s : HMem} {t : Table} {L : Levels} {v f i : Nat}
    {s1 : HMem} (hwf : TreeWF s t L)
    (hg : gemoc s t L v .Size2M = (.ok (f, i), s1)) :
    GoodSub s1 t.root (L.num - 1) ∧
    ∃ cr : List Nat,
      ((subFrames s1 t.root (L.num - 1) : List Nat) : Multiset Nat)
        = ((subFrames s t.root (L.num - 1) : List Nat) : Multiset Nat) + ↑cr ∧
      s1.allocs = s.allocs ++ cr ∧ s1.deallocs = s.deallocs ∧
      s.fresh ≤ s1.fresh ∧ (∀ x ∈ cr, s.fresh ≤ x ∧ x < s1.fresh) := by
  obtain ⟨p3f, sA, htopc, hB, -⟩ := gemoc_ok_2M hg
  obtain ⟨hr0, hrlt, hfr0⟩ := treeWF_root_facts hwf
  cases L with
  | three =>
      simp only [topFrameOrCreate, Prod.mk.injEq, Except.ok.injEq] at htopc
      obtain ⟨hp3, hsA⟩ := htopc
      rw [← hsA, ← hp3] at hB
      have hroot : GoodSub s t.root 2 := ⟨hwf.1, hwf.2⟩
      obtain ⟨-, -, -, hmono, -, hdea, -, -, -, -, hgroot, -, cr, hms, hal, hbd⟩ :=
        step_acct 1 hB (p3_idx_lt v) hfr0 hrlt hroot hroot
          (self_mem_scanned (by omega))
      exact ⟨hgroot, cr, hms, hal, hdea, hmono, hbd⟩
  | four =>
      simp only [topFrameOrCreate] at htopc
      have hroot : GoodSub s t.root 3 := ⟨hwf.1, hwf.2⟩
      obtain ⟨-, -, hp3lt, hmonoT, hfrA, hdeaT, -, hgoodA, -, hchildT,
          hgrootA, -, cr1, hms1, hal1, hbd1⟩ :=
        step_acct 2 htopc (p4_idx_lt v) hfr0 hrlt hroot hroot
          (self_mem_scanned (by omega))
      have hscB : p3f ∈ scanned sA t.root 3 :=
        mem_scanned_child hchildT (self_mem_scanned (by omega))
      obtain ⟨-, -, -, hmonoB, -, hdeaB, -, -, -, -, hgrootB, -, cr2, hms2,
          hal2, hbd2⟩ :=
        step_acct 1 hB (p3_idx_lt v) hfrA hp3lt hgoodA hgrootA hscB
      refine ⟨hgrootB, cr1 ++ cr2, acct_trans hms1 hms2, ?_, ?_, by omega, ?_⟩
      · rw [hal2, hal1, List.append_assoc]
      · rw [hdeaB, hdeaT]
      · intro x hx
        rcases List.mem_append.mp hx with hx | hx
        · have := hbd1 x hx
          omega
        · have := hbd2 x hx
          omega

/-- Accounting for a successful 4K create-walk; additionally, the returned
frame is a last-level frame of the tree, whose cells the recursive walks
never read. -/
lemma gemoc_4K_acct {s : HMem} {t : Table} {L : Levels} {v f i : Nat}
    {s1 : HMem} (hwf : TreeWF s t L)
    (hg : gemoc s t L v .Size4K = (.ok (f, i), s1)) :
    GoodSub s1 t.root (L.num - 1) ∧
    f ∈ leafFrames s1 t.root (L.num - 1) ∧
    ∃ cr : List Nat,
      ((subFrames s1 t.root (L.num - 1) : List Nat) : Multiset Nat)
        = ((subFrames s t.root (L.num - 1) : List Nat) : Multiset Nat) + ↑cr ∧
      s1.allocs = s.allocs ++ cr ∧ s1.deallocs = s.deallocs ∧
      s.fresh ≤ s1.fresh ∧ (∀ x ∈ cr, s.fresh ≤ x ∧ x < s1.fresh) := by
  obtain ⟨p3f, sA, p2f, sB, htopc, hB, hC, -⟩ := gemoc_ok_4K hg
  obtain ⟨hr0, hrlt, hfr0⟩ := treeWF_root_facts hwf
  cases L with
  | three =>
      simp only [topFrameOrCreate, Prod.mk.injEq, Except.ok.injEq] at htopc
      obtain ⟨hp3, hsA⟩ := htopc
      rw [← hsA, ← hp3] at hB
      have hroot : GoodSub s t.root 2 := ⟨hwf.1, hwf.2⟩
      obtain ⟨hlinkB, -, hp2lt, hmonoB, hfrB, hdeaB, -, hgoodB, hneB, -,
          hgrootB, -, cr1, hms1, hal1, hbd1⟩ :=
        step_acct 1 hB (p3_idx_lt v) hfr0 hrlt hroot hroot
          (self_mem_scanned (by omega))
      have hrltB : t.root < sB.fresh := by omega
      have hchildB : p2f ∈ childFrames sB t.root :=
        (mem_childFrames sB t.root p2f).mpr
          ⟨p3_idx v, p3_idx_lt v, next_table_ok_tableTarget hlinkB⟩
      have hscC : p2f ∈ scanned sB t.root 2 :=
        mem_scanned_child hchildB (self_mem_scanned (by omega))
      obtain ⟨-, -, -, hmonoC, -, hdeaC, hpresC, -, -, hchildC,
          hgrootC, -, cr2, hms2, hal2, hbd2⟩ :=
        step_acct 0 hC (p2_idx_lt v) hfrB hp2lt hgoodB hgrootB hscC
      have hp2ne_root : p2f ≠ t.root :=
        hneB p2f (root_mem_subFrames sB p2f 1)
      have hchildB1 : p2f ∈ childFrames s1 t.root := by
        refine (mem_childFrames s1 t.root p2f).mpr ⟨p3_idx v, p3_idx_lt v, ?_⟩
        rw [hpresC t.root (p3_idx v) (fun hc => hp2ne_root hc.1.symm) hrltB]
        exact next_table_ok_tableTarget hlinkB
      have hleaf : f ∈ leafFrames s1 t.root 2 :=
        mem_leaf_child hchildB1
          (mem_leaf_child hchildC (List.mem_singleton.mpr rfl))
      refine ⟨hgrootC, hleaf, cr1 ++ cr2, acct_trans hms1 hms2, ?_, ?_,
        by omega, ?_⟩
      · rw [hal2, hal1, List.append_assoc]
      · rw [hdeaC, hdeaB]
      · intro x hx
        rcases List.mem_append.mp hx with hx | hx
        · have := hbd1 x hx
          omega
        · have := hbd2 x hx
          omega
  | four =>
      simp only [topFrameOrCreate] at htopc
      have hroot : GoodSub s t.root 3 := ⟨hwf.1, hwf.2⟩
      obtain ⟨hlinkT, -, hp3lt, hmonoT, hfrA, hdeaT, -, hgoodA, hneT, hchildT,
          hgrootA, -, cr1, hms1, hal1, hbd1⟩ :=
        step_acct 2 htopc (p4_idx_lt v) hfr0 hrlt hroot hroot
          (self_mem_scanned (by omega))
      have hrltA : t.root < sA.fresh := by omega
      have hscB : p3f ∈ scanned sA t.root 3 :=
        mem_scanned_child hchildT (self_mem_scanned (by omega))
      obtain ⟨hlinkB, -, hp2lt, hmonoB, hfrB, hdeaB, hpresB, hgoodB, hneB,
          hchildB, hgrootB, hbrB, cr2, hms2, hal2, hbd2⟩ :=
        step_acct 1 hB (p3_idx_lt v) hfrA hp3lt hgoodA hgrootA hscB
      have hp3ne_root : p3f ≠ t.root :=
        hneT p3f (root_mem_subFrames sA p3f 2)
      have hrltB : t.root < sB.fresh := by omega
      have hp3ltB : p3f < sB.fresh := by omega
      have hchildT_B : p3f ∈ childFrames sB t.root := by
        refine (mem_childFrames sB t.root p3f).mpr ⟨p4_idx v, p4_idx_lt v, ?_⟩
        rw [hpresB t.root (p4_idx v) (fun hc => hp3ne_root hc.1.symm) hrltA]
        exact next_table_ok_tableTarget hlinkT
      have hscC : p2f ∈ scanned sB t.root 3 :=
        mem_scanned_child hchildT_B
          (mem_scanned_child hchildB (self_mem_scanned (by omega)))
      obtain ⟨-, -, -, hmonoC, -, hdeaC, hpresC, -, -, hchildC,
          hgrootC, -, cr3, hms3, hal3, hbd3⟩ :=
        step_acct 0 hC (p2_idx_lt v) hfrB hp2lt hgoodB hgrootB hscC
      have hp2ne3 : p2f ≠ p3f := hneB p2f (root_mem_subFrames sB p2f 1)
      have hp2ne_root : p2f ≠ t.root := by
        rcases hbrB with ⟨hse, hmemB, hliftB⟩ | hcF
        · exact hneT p2f (hliftB p2f (root_mem_subFrames sA p2f 1))
        · omega
      have hchildT_1 : p3f ∈ childFrames s1 t.root := by
        refine (mem_childFrames s1 t.root p3f).mpr ⟨p4_idx v, p4_idx_lt v, ?_⟩
        rw [hpresC t.root (p4_idx v) (fun hc => hp2ne_root hc.1.symm) hrltB,
          hpresB t.root (p4_idx v) (fun hc => hp3ne_root hc.1.symm) hrltA]
        exact next_table_ok_tableTarget hlinkT
      have hchildB_1 : p2f ∈ childFrames s1 p3f := by
        refine (mem_childFrames s1 p3f p2f).mpr ⟨p3_idx v, p3_idx_lt v, ?_⟩
        rw [hpresC p3f (p3_idx v) (fun hc => hp2ne3 hc.1.symm) hp3ltB]
        exact next_table_ok_tableTarget hlinkB
      have hleaf : f ∈ leafFrames s1 t.root 3 :=
        mem_leaf_child hchildT_1 (mem_leaf_child hchildB_1
          (mem_leaf_child hchildC (List.mem_singleton.mpr rfl)))
      refine ⟨hgrootC, hleaf, cr1 ++ cr2 ++ cr3,
        acct_trans (acct_trans hms1 hms2) hms3, ?_, ?_, by omega, ?_⟩
      · rw [hal3, hal2, hal1]
        simp [List.append_assoc]
      · rw [hdeaC, hdeaB, hdeaT]
      · intro x hx
        rcases List.mem_append.mp hx with hx | hx
        · rcases List.mem_append.mp hx with hx | hx
          · have := hbd1 x hx
            omega
          · have := hbd2 x hx
            omega
        · have := hbd3 x hx
          omega

/-- A huge entry carries no table link (the walks refuse to descend). -/
lemma tableTarget_huge {e : Entry} (h : e.is_huge = true) :
    tableTarget e = none := by
  unfold tableTarget nextTableOk
  rw [h]
  simp

/-- Writing to a cell of a last-level frame of a duplicate-free tree leaves
the tree listing untouched: the recursive walks never read such cells. -/
lemma subFrames_write_leaf {s : HMem} {root F f0 i0 : Nat} {e : Entry}
    (hnd : (subFrames s root F).Nodup)
    (hleaf : f0 ∈ leafFrames s root F) :
    subFrames (s.write f0 i0 e) root F = subFrames s root F := by
  refine (out_of_tree_congr (P := fun x => x = f0) ?_ F root ?_).1
  · intro g j hg
    exact write_mem_ne_frame s f0 i0 e hg
  · intro x hx hxf
    subst hxf
    exact not_scanned_and_leaf s root F x hnd hx hleaf

/-- A write that does not change the cell's table link leaves every tree
listing untouched. -/
lemma subFrames_write_tt {s : HMem} {f0 i0 : Nat} {e : Entry}
    (h : tableTarget e = tableTarget (s.mem f0 i0)) :
    ∀ ℓ root, subFrames (s.write f0 i0 e) root ℓ = subFrames s root ℓ :=
  subFrames_congr_tt (fun g j => by
    by_cases hc : g = f0 ∧ j = i0
    · obtain ⟨rfl, rfl⟩ := hc
      rw [write_mem_self]
      exact h
    · rw [write_mem_ne s f0 i0 e hc])

/-- Accounting for a successful `map`: the tree stays well-formed, its
listing and the allocation log grow by the same (fresh intermediate-table)
frames, and no frame is deallocated. -/
lemma map_acct {s : HMem} {t : Table} {L : Levels} {fl : ToFlush}
    {v p : Nat} {sz : PageSize} {flags : PagingFlags} {s2 : HMem}
    {fl2 : ToFlush}
    (hwf : TreeWF s t L)
    (hok : map s t L fl v p sz flags = (.ok (), s2, fl2)) :
    TreeWF s2 t L ∧ ∃ cr : List Nat,
      ((subFrames s2 t.root (L.num - 1) : List Nat) : Multiset Nat)
        = ((subFrames s t.root (L.num - 1) : List Nat) : Multiset Nat) + ↑cr ∧
      s2.allocs = s.allocs ++ cr ∧ s2.deallocs = s.deallocs ∧
      s.fresh ≤ s2.fresh := by
  obtain ⟨f, i, s1, hg, hu, hs2, -⟩ := map_ok_elim hok
  cases sz with
  | Size4K =>
      obtain ⟨hgood, hleaf, cr, hms, hal, hdea, hmono, -⟩ := gemoc_4K_acct hwf hg
      subst hs2
      have heq : subFrames (s1.write f i
            (Entry.new_page (PageSize.Size4K.align_down p) flags
              PageSize.Size4K.is_huge)) t.root (L.num - 1)
          = subFrames s1 t.root (L.num - 1) :=
        subFrames_write_leaf hgood.1 hleaf
      refine ⟨⟨?_, ?_⟩, cr, ?_, hal, hdea, hmono⟩
      · rw [heq]
        exact hgood.1
      · intro x hx
        rw [heq] at hx
        exact hgood.2 x hx
      · rw [heq]
        exact hms
  | Size2M =>
      obtain ⟨hgood, cr, hms, hal, hdea, hmono, -⟩ := gemoc_2M_acct hwf hg
      subst hs2
      have heq := subFrames_write_tt
        ((tableTarget_huge (e := Entry.new_page (PageSize.Size2M.align_down p)
            flags PageSize.Size2M.is_huge) rfl).trans
          (tableTarget_unused hu).symm) (L.num - 1) t.root
      refine ⟨⟨?_, ?_⟩, cr, ?_, hal, hdea, hmono⟩
      · rw [heq]
        exact hgood.1
      · intro x hx
        rw [heq] at hx
        exact hgood.2 x hx
      · rw [heq]
        exact hms
  | Size1G =>
      obtain ⟨hgood, cr, hms, hal, hdea, hmono, -⟩ := gemoc_1G_acct hwf hg
      subst hs2
      have heq := subFrames_write_tt
        ((tableTarget_huge (e := Entry.new_page (PageSize.Size1G.align_down p)
            flags PageSize.Size1G.is_huge) rfl).trans
          (tableTarget_unused hu).symm) (L.num - 1) t.root
      refine ⟨⟨?_, ?_⟩, cr, ?_, hal, hdea, hmono⟩
      · rw [heq]
        exact hgood.1
      · intro x hx
        rw [heq] at hx
        exact hgood.2 x hx
      · rw [heq]
        exact hms

/-- The two branches of `next_table_mut_or_create`, as equations. -/
lemma ntmoc_dichotomy (s : HMem) (g j : Nat) :
    ((s.mem g j).is_unused = false ∧
        ntmoc s g j = (next_table (s.mem g j), s)) ∨
    ((s.mem g j).is_unused = true ∧
        ntmoc s g j = (.ok s.fresh, createStep s g j)) := by
  by_cases hu : (s.mem g j).is_unused
  · right
    refine ⟨hu, ?_⟩
    unfold ntmoc
    rw [if_pos hu]
    rfl
  · left
    refine ⟨by simpa using hu, ?_⟩
    unfold ntmoc
    rw [if_neg hu]

/-- Cell targets of the root of a well-formed subtree are bounded by the
watermark. -/
lemma goodSub_cell_bound {s : HMem} {g ℓ : Nat} (hgs : GoodSub s g (ℓ + 1))
    {j : Nat} (hj : j < ENTRY_COUNT) :
    ∀ d, tableTarget (s.mem g j) = some d → d < s.fresh := by
  intro d hd
  exact (hgs.2 d (child_mem_subFrames
    ((mem_childFrames s g d).mpr ⟨j, hj, hd⟩))).2

/-- A failing `next_table_mut_or_create` step leaves the state untouched:
the error arises in the read-only branch. -/
lemma ntmoc_err_state {s : HMem} {g j : Nat} {e : PtError} {s' : HMem}
    (h : ntmoc s g j = (.error e, s')) : s' = s := by
  rcases ntmoc_dichotomy s g j with ⟨-, heq⟩ | ⟨-, heq⟩
  · rw [heq] at h
    simp only [Prod.mk.injEq] at h
    exact h.2.symm
  · rw [heq] at h
    simp only [Prod.mk.injEq] at h
    exact absurd h.1 (by simp)

/-- Accounting for a failed create-walk: the steps before the failing one
may have created tables (all duly logged and linked into the tree), and the
failing step changes nothing, so the tree stays well-formed and the listing
and the allocation log grow by the same frames. -/
lemma gemoc_err_acct {s : HMem} {t : Table} {L : Levels} {v : Nat}
    {sz : PageSize} {e : PtError} {s1 : HMem}
    (hwf : TreeWF s t L)
    (hg : gemoc s t L v sz = (.error e, s1)) :
    GoodSub s1 t.root (L.num - 1) ∧
    ∃ cr : List Nat,
      ((subFrames s1 t.root (L.num - 1) : List Nat) : Multiset Nat)
        = ((subFrames s t.root (L.num - 1) : List Nat) : Multiset Nat) + ↑cr ∧
      s1.allocs = s.allocs ++ cr ∧ s1.deallocs = s.deallocs ∧
      s.fresh ≤ s1.fresh := by
  obtain ⟨hr0, hrlt, hfr0⟩ := treeWF_root_facts hwf
  cases L with
  | three =>
      have hroot : GoodSub s t.root 2 := ⟨hwf.1, hwf.2⟩
      simp only [gemoc, topFrameOrCreate] at hg
      split at hg
      · simp at hg
      · split at hg
        next e2 s2 heqB =>
          simp only [Prod.mk.injEq] at hg
          obtain ⟨-, hs1⟩ := hg
          rw [← hs1, ntmoc_err_state heqB]
          refine ⟨hroot, [], ?_, ?_, rfl, le_refl _⟩
          · rw [Multiset.coe_nil, add_zero]
          · rw [List.append_nil]
        next p2f s2 heqB =>
          split at hg
          · simp at hg
          · split at hg
            next e3 s3 heqC =>
              simp only [Prod.mk.injEq] at hg
              obtain ⟨-, hs1⟩ := hg
              obtain ⟨-, -, -, hmonoB, -, hdeaB, -, -, -, -, hgrootB, -,
                  cr, hms, hal, hbd⟩ :=
                step_acct 1 heqB (p3_idx_lt v) hfr0 hrlt hroot hroot
                  (self_mem_scanned (by omega))
              rw [← hs1, ntmoc_err_state heqC]
              exact ⟨hgrootB, cr, hms, hal, hdeaB, hmonoB⟩
            next p1f s3 heqC => simp at hg
  | four =>
      have hroot : GoodSub s t.root 3 := ⟨hwf.1, hwf.2⟩
      simp only [gemoc, topFrameOrCreate] at hg
      split at hg
      next e2 sA heqT =>
        simp only [Prod.mk.injEq] at hg
        obtain ⟨-, hs1⟩ := hg
        rw [← hs1, ntmoc_err_state heqT]
        refine ⟨hroot, [], ?_, ?_, rfl, le_refl _⟩
        · rw [Multiset.coe_nil, add_zero]
        · rw [List.append_nil]
      next p3f sA heqT =>
        split at hg
        · simp at hg
        · obtain ⟨-, -, hp3lt, hmonoT, hfrA, hdeaT, -, hgoodA, -, hchildT,
              hgrootA, -, cr1, hms1, hal1, hbd1⟩ :=
            step_acct 2 heqT (p4_idx_lt v) hfr0 hrlt hroot hroot
              (self_mem_scanned (by omega))
          split at hg
          next e3 sB heqB =>
            simp only [Prod.mk.injEq] at hg
            obtain ⟨-, hs1⟩ := hg
            rw [← hs1, ntmoc_err_state heqB]
            exact ⟨hgrootA, cr1, hms1, hal1, hdeaT, hmonoT⟩
          next p2f sB heqB =>
            split at hg
            · simp at hg
            · split at hg
              next e4 sC heqC =>
                simp only [Prod.mk.injEq] at hg
                obtain ⟨-, hs1⟩ := hg
                have hscB : p3f ∈ scanned sA t.root 3 :=
                  mem_scanned_child hchildT (self_mem_scanned (by omega))
                obtain ⟨-, -, -, hmonoB, -, hdeaB, -, -, -, -, hgrootB, -,
                    cr2, hms2, hal2, hbd2⟩ :=
                  step_acct 1 heqB (p3_idx_lt v) hfrA hp3lt hgoodA hgrootA hscB
                rw [← hs1, ntmoc_err_state heqC]
                refine ⟨hgrootB, cr1 ++ cr2, acct_trans hms1 hms2, ?_, ?_,
                  by omega⟩
                · rw [hal2, hal1, List.append_assoc]
                · rw [hdeaB, hdeaT]
              next p1f sC heqC => simp at hg

/-- `set_flags` installs exactly the huge bit it is given. -/
lemma set_flags_is_huge (e : Entry) (f : PagingFlags) (h : Bool) :
    (Entry.set_flags e f h).is_huge = h := by
  cases e <;> rfl

/-- The frame a 4K walk returns is a last-level frame of the tree. -/
lemma get_entry_4K_leaf {s : HMem} {t : Table} {L : Levels} {v f i : Nat}
    (hge : get_entry s t L v = .ok (f, i, .Size4K)) :
    f ∈ leafFrames s t.root (L.num - 1) := by
  obtain ⟨p3f, p2f, htop, -, hnt, -, hnt2, -⟩ := get_entry_4K hge
  have hf2 : f ∈ childFrames s p2f :=
    (mem_childFrames s p2f f).mpr
      ⟨p2_idx v, p2_idx_lt v, next_table_ok_tableTarget hnt2⟩
  have h23 : p2f ∈ childFrames s p3f :=
    (mem_childFrames s p3f p2f).mpr
      ⟨p3_idx v, p3_idx_lt v, next_table_ok_tableTarget hnt⟩
  cases L with
  | three =>
      have hp3 : p3f = t.root := by
        simp only [topFrame, Except.ok.injEq] at htop
        exact htop.symm
      subst hp3
      exact mem_leaf_child h23
        (mem_leaf_child hf2 (List.mem_singleton.mpr rfl))
  | four =>
      have h3r : p3f ∈ childFrames s t.root := by
        simp only [topFrame] at htop
        exact (mem_childFrames s t.root p3f).mpr
          ⟨p4_idx v, p4_idx_lt v, next_table_ok_tableTarget htop⟩
      exact mem_leaf_child h3r (mem_leaf_child h23
        (mem_leaf_child hf2 (List.mem_singleton.mpr rfl)))

/-- Writing the found entry of a `get_entry` walk never disturbs the tree
listing: a 4K hit lands in a last-level frame (never read by the walks),
and a 1G/2M hit replaces a huge entry by another huge (or unused) entry,
neither of which is a table link. -/
lemma write_at_found_preserves {s : HMem} {t : Table} {L : Levels}
    {v f i : Nat} {sz : PageSize} {e : Entry}
    (hwf : TreeWF s t L)
    (hge : get_entry s t L v = .ok (f, i, sz))
    (he : sz = .Size4K ∨ e.is_huge = true ∨ e = .unused) :
    subFrames (s.write f i e) t.root (L.num - 1)
      = subFrames s t.root (L.num - 1) := by
  cases sz with
  | Size4K => exact subFrames_write_leaf hwf.1 (get_entry_4K_leaf hge)
  | Size2M =>
      obtain ⟨p3f, -, -, -, hi, hhuge⟩ := get_entry_2M hge
      subst hi
      have htt : tableTarget e = tableTarget (s.mem f (p2_idx v)) := by
        rw [tableTarget_huge hhuge]
        rcases he with he | he | he
        · cases he
        · exact tableTarget_huge he
        · rw [he]
          exact tableTarget_unused rfl
      exact subFrames_write_tt htt (L.num - 1) t.root
  | Size1G =>
      obtain ⟨-, hi, hhuge⟩ := get_entry_1G hge
      subst hi
      have htt : tableTarget e = tableTarget (s.mem f (p3_idx v)) := by
        rw [tableTarget_huge hhuge]
        rcases he with he | he | he
        · cases he
        · exact tableTarget_huge he
        · rw [he]
          exact tableTarget_unused rfl
      exact subFrames_write_tt htt (L.num - 1) t.root

/-- Accounting for a successful create-walk of any size. -/
lemma gemoc_ok_acct {s : HMem} {t : Table} {L : Levels} {v f i : Nat}
    {sz : PageSize} {s1 : HMem}
    (hwf : TreeWF s t L)
    (hg : gemoc s t L v sz = (.ok (f, i), s1)) :
    GoodSub s1 t.root (L.num - 1) ∧
    ∃ cr : List Nat,
      ((subFrames s1 t.root (L.num - 1) : List Nat) : Multiset Nat)
        = ((subFrames s t.root (L.num - 1) : List Nat) : Multiset Nat) + ↑cr ∧
      s1.allocs = s.allocs ++ cr ∧ s1.deallocs = s.deallocs ∧
      s.fresh ≤ s1.fresh := by
  cases sz with
  | Size4K =>
      obtain ⟨hgood, -, cr, hms, hal, hdea, hmono, -⟩ := gemoc_4K_acct hwf hg
      exact ⟨hgood, cr, hms, hal, hdea, hmono⟩
  | Size2M =>
      obtain ⟨hgood, cr, hms, hal, hdea, hmono, -⟩ := gemoc_2M_acct hwf hg
      exact ⟨hgood, cr, hms, hal, hdea, hmono⟩
  | Size1G =>
      obtain ⟨hgood, cr, hms, hal, hdea, hmono, -⟩ := gemoc_1G_acct hwf hg
      exact ⟨hgood, cr, hms, hal, hdea, hmono⟩

/-- `unmap` (success or failure) preserves the tree listing and the
allocator books: it only clears the found entry. -/
lemma unmap_acct {s : HMem} {t : Table} {L : Levels} {fl : ToFlush} {v : Nat}
    {r : Except PtError (Nat × PagingFlags × PageSize)} {sA : HMem}
    {flA : ToFlush}
    (hwf : TreeWF s t L) (h : unmap s t L fl v = (r, sA, flA)) :
    TreeWF sA t L ∧
    subFrames sA t.root (L.num - 1) = subFrames s t.root (L.num - 1) ∧
    sA.allocs = s.allocs ∧ sA.deallocs = s.deallocs ∧ sA.fresh = s.fresh := by
  unfold unmap at h
  split at h
  next e2 heq2 =>
    simp only [Prod.mk.injEq] at h
    obtain ⟨-, hsA, -⟩ := h
    rw [← hsA]
    exact ⟨hwf, rfl, rfl, rfl, rfl⟩
  next f1 i1 size1 heq2 =>
    have hsub := write_at_found_preserves (e := (s.mem f1 i1).clear) hwf heq2
      (Or.inr (Or.inr rfl))
    split at h <;>
    · simp only [Prod.mk.injEq] at h
      obtain ⟨-, hsA, -⟩ := h
      rw [← hsA]
      refine ⟨⟨?_, ?_⟩, hsub, rfl, rfl, rfl⟩
      · rw [hsub]
        exact hwf.1
      · intro x hx
        rw [hsub] at hx
        exact hwf.2 x hx

/-- `remap` (success or failure) preserves the tree listing and the
allocator books: it only overwrites the found entry in place, keeping a
huge entry huge. -/
lemma remap_acct {s : HMem} {t : Table} {L : Levels} {fl : ToFlush}
    {v p : Nat} {fgs : PagingFlags}
    {r : Except PtError PageSize} {sA : HMem} {flA : ToFlush}
    (hwf : TreeWF s t L) (h : remap s t L fl v p fgs = (r, sA, flA)) :
    TreeWF sA t L ∧
    subFrames sA t.root (L.num - 1) = subFrames s t.root (L.num - 1) ∧
    sA.allocs = s.allocs ∧ sA.deallocs = s.deallocs ∧ sA.fresh = s.fresh := by
  unfold remap at h
  split at h
  next e2 heq2 =>
    simp only [Prod.mk.injEq] at h
    obtain ⟨-, hsA, -⟩ := h
    rw [← hsA]
    exact ⟨hwf, rfl, rfl, rfl, rfl⟩
  next f1 i1 size1 heq2 =>
    have hsub := write_at_found_preserves
      (e := ((s.mem f1 i1).set_paddr p).set_flags fgs size1.is_huge)
      hwf heq2 ?_
    · simp only [Prod.mk.injEq] at h
      obtain ⟨-, hsA, -⟩ := h
      rw [← hsA]
      refine ⟨⟨?_, ?_⟩, hsub, rfl, rfl, rfl⟩
      · rw [hsub]
        exact hwf.1
      · intro x hx
        rw [hsub] at hx
        exact hwf.2 x hx
    · cases size1 with
      | Size4K => exact Or.inl rfl
      | Size2M => exact Or.inr (Or.inl (by rw [set_flags_is_huge]; rfl))
      | Size1G => exact Or.inr (Or.inl (by rw [set_flags_is_huge]; rfl))

/-- `protect` (success or failure) preserves the tree listing and the
allocator books. -/
lemma protect_acct {s : HMem} {t : Table} {L : Levels} {fl : ToFlush}
    {v : Nat} {fgs : PagingFlags}
    {r : Except PtError PageSize} {sA : HMem} {flA : ToFlush}
    (hwf : TreeWF s t L) (h : protect s t L fl v fgs = (r, sA, flA)) :
    TreeWF sA t L ∧
    subFrames sA t.root (L.num - 1) = subFrames s t.root (L.num - 1) ∧
    sA.allocs = s.allocs ∧ sA.deallocs = s.deallocs ∧ sA.fresh = s.fresh := by
  unfold protect at h
  split at h
  next e2 heq2 =>
    simp only [Prod.mk.injEq] at h
    obtain ⟨-, hsA, -⟩ := h
    rw [← hsA]
    exact ⟨hwf, rfl, rfl, rfl, rfl⟩
  next f1 i1 size1 heq2 =>
    split at h
    · simp only [Prod.mk.injEq] at h
      obtain ⟨-, hsA, -⟩ := h
      rw [← hsA]
      exact ⟨hwf, rfl, rfl, rfl, rfl⟩
    · have hsub := write_at_found_preserves
        (e := (s.mem f1 i1).set_flags fgs size1.is_huge) hwf heq2 ?_
      · simp only [Prod.mk.injEq] at h
        obtain ⟨-, hsA, -⟩ := h
        rw [← hsA]
        refine ⟨⟨?_, ?_⟩, hsub, rfl, rfl, rfl⟩
        · rw [hsub]
          exact hwf.1
        · intro x hx
          rw [hsub] at hx
          exact hwf.2 x hx
      · cases size1 with
        | Size4K => exact Or.inl rfl
        | Size2M => exact Or.inr (Or.inl (by rw [set_flags_is_huge]; rfl))
        | Size1G => exact Or.inr (Or.inl (by rw [set_flags_is_huge]; rfl))

/-- Accounting for `map` with any outcome. -/
lemma map_full_acct {s : HMem} {t : Table} {L : Levels} {fl : ToFlush}
    {v p : Nat} {sz : PageSize} {fgs : PagingFlags}
    {r : Except PtError Unit} {sA : HMem} {flA : ToFlush}
    (hwf : TreeWF s t L) (h : map s t L fl v p sz fgs = (r, sA, flA)) :
    TreeWF sA t L ∧ ∃ cr : List Nat,
      ((subFrames sA t.root (L.num - 1) : List Nat) : Multiset Nat)
        = ((subFrames s t.root (L.num - 1) : List Nat) : Multiset Nat) + ↑cr ∧
      sA.allocs = s.allocs ++ cr ∧ sA.deallocs = s.deallocs ∧
      s.fresh ≤ sA.fresh := by
  cases r with
  | ok u =>
      cases u
      exact map_acct hwf h
  | error e =>
      unfold map at h
      split at h
      next e2 sB heq2 =>
        simp only [Prod.mk.injEq] at h
        obtain ⟨-, hsA, -⟩ := h
        obtain ⟨hgood, cr, hms, hal, hdea, hmono⟩ := gemoc_err_acct hwf heq2
        rw [← hsA]
        exact ⟨⟨hgood.1, hgood.2⟩, cr, hms, hal, hdea, hmono⟩
      next f1 i1 sB heq2 =>
        split at h
        · simp only [Prod.mk.injEq] at h
          obtain ⟨-, hsA, -⟩ := h
          obtain ⟨hgood, cr, hms, hal, hdea, hmono⟩ := gemoc_ok_acct hwf heq2
          rw [← hsA]
          exact ⟨⟨hgood.1, hgood.2⟩, cr, hms, hal, hdea, hmono⟩
        · simp at h

/-- One single-page operation — any kind, any outcome — keeps the tree
well-formed, grows the tree listing and the allocation log by the same
fresh frames, and never deallocates. -/
lemma stepOp_acct {s : HMem} {t : Table} {L : Levels} {fl : ToFlush}
    {op : Op} {b : Bool} {s' : HMem} {fl' : ToFlush}
    (hwf : TreeWF s t L) (h : stepOp s t L fl op = (b, s', fl')) :
    TreeWF s' t L ∧ ∃ cr : List Nat,
      ((subFrames s' t.root (L.num - 1) : List Nat) : Multiset Nat)
        = ((subFrames s t.root (L.num - 1) : List Nat) : Multiset Nat) + ↑cr ∧
      s'.allocs = s.allocs ++ cr ∧ s'.deallocs = s.deallocs ∧
      s.fresh ≤ s'.fresh := by
  cases op with
  | map v0 p0 sz0 f0 =>
      simp only [stepOp] at h
      split at h <;>
      · rename_i heq
        simp only [Prod.mk.injEq] at h
        obtain ⟨-, hs', -⟩ := h
        rw [← hs']
        exact map_full_acct hwf heq
  | unmap v0 =>
      simp only [stepOp] at h
      split at h <;>
      · rename_i heq
        simp only [Prod.mk.injEq] at h
        obtain ⟨-, hs', -⟩ := h
        obtain ⟨hwfA, hsub, hal, hdea, hfr⟩ := unmap_acct hwf heq
        rw [← hs']
        refine ⟨hwfA, [], ?_, ?_, hdea, le_of_eq hfr.symm⟩
        · rw [hsub, Multiset.coe_nil, add_zero]
        · rw [hal, List.append_nil]
  | remap v0 p0 f0 =>
      simp only [stepOp] at h
      split at h <;>
      · rename_i heq
        simp only [Prod.mk.injEq] at h
        obtain ⟨-, hs', -⟩ := h
        obtain ⟨hwfA, hsub, hal, hdea, hfr⟩ := remap_acct hwf heq
        rw [← hs']
        refine ⟨hwfA, [], ?_, ?_, hdea, le_of_eq hfr.symm⟩
        · rw [hsub, Multiset.coe_nil, add_zero]
        · rw [hal, List.append_nil]
  | protect v0 f0 =>
      simp only [stepOp] at h
      split at h <;>
      · rename_i heq
        simp only [Prod.mk.injEq] at h
        obtain ⟨-, hs', -⟩ := h
        obtain ⟨hwfA, hsub, hal, hdea, hfr⟩ := protect_acct hwf heq
        rw [← hs']
        refine ⟨hwfA, [], ?_, ?_, hdea, le_of_eq hfr.symm⟩
        · rw [hsub, Multiset.coe_nil, add_zero]
        · rw [hal, List.append_nil]

/-- A whole `PageTableMut` session of single-page operations keeps the tree
well-formed, grows the tree listing and the allocation log by the same
fresh frames, and never deallocates. -/
lemma runOps_acct {t : Table} {L : Levels} :
    ∀ (ops : List Op) (s : HMem) (fl : ToFlush), TreeWF s t L →
      TreeWF (runOps s t L fl ops).1 t L ∧ ∃ cr : List Nat,
        ((subFrames (runOps s t L fl ops).1 t.root (L.num - 1) :
            List Nat) : Multiset Nat)
          = ((subFrames s t.root (L.num - 1) : List Nat) : Multiset Nat)
            + ↑cr ∧
        (runOps s t L fl ops).1.allocs = s.allocs ++ cr ∧
        (runOps s t L fl ops).1.deallocs = s.deallocs ∧
        s.fresh ≤ (runOps s t L fl ops).1.fresh := by
  intro ops
  induction ops with
  | nil =>
      intro s fl hwf
      refine ⟨hwf, [], ?_, ?_, rfl, le_refl _⟩
      · rw [Multiset.coe_nil, add_zero]
        rfl
      · rw [List.append_nil]
        rfl
  | cons op rest ih =>
      intro s fl hwf
      rcases hst : stepOp s t L fl op with ⟨ok1, sA, flA⟩
      obtain ⟨hwfA, cr1, hms1, hal1, hdea1, hmono1⟩ := stepOp_acct hwf hst
      obtain ⟨hwfB, cr2, hms2, hal2, hdea2, hmono2⟩ := ih sA flA hwfA
      rcases hrr : runOps sA t L flA rest with ⟨sB, flB, recB⟩
      rw [hrr] at hwfB hms2 hal2 hdea2 hmono2
      have hwfB' : TreeWF sB t L := hwfB
      have hms2' : ((subFrames sB t.root (L.num - 1) : List Nat) : Multiset Nat)
          = ((subFrames sA t.root (L.num - 1) : List Nat) : Multiset Nat)
            + ↑cr2 := hms2
      have hal2' : sB.allocs = sA.allocs ++ cr2 := hal2
      have hdea2' : sB.deallocs = sA.deallocs := hdea2
      have hmono2' : sA.fresh ≤ sB.fresh := hmono2
      have hrun : runOps s t L fl (op :: rest)
          = (sB, flB, (if ok1 then [op.vaddr] else []) ++ recB) := by
        simp only [runOps, hst, hrr]
      rw [hrun]
      refine ⟨hwfB', cr1 ++ cr2, acct_trans hms1 hms2', ?_, ?_, ?_⟩
      · show sB.allocs = s.allocs ++ (cr1 ++ cr2)
        rw [hal2', hal1, List.append_assoc]
      · show sB.deallocs = s.deallocs
        rw [hdea2', hdea1]
      · show s.fresh ≤ sB.fresh
        omega

/-- An entry `next_table` accepts links to its own physical address. -/
lemma tableTarget_of_ok {e : Entry} (h : nextTableOk e = true) :
    tableTarget e = some e.paddr := by
  unfold tableTarget
  rw [if_pos h]

/-- An entry `next_table` rejects carries no link. -/
lemma tableTarget_of_not {e : Entry} (h : ¬ nextTableOk e = true) :
    tableTarget e = none := by
  unfold tableTarget
  rw [if_neg h]

set_option maxRecDepth 8192 in
/-- Full specification of `dealloc_tree`: it never touches memory, the
watermark or the allocation log, and it appends to the deallocation log
exactly the frames of the subtree it walks — each exactly once, the
subtree listing as a multiset. -/
lemma dealloc_tree_spec (L : Levels) :
    ∀ (fuel : Nat) (s : HMem) (f : Nat),
      (dealloc_tree s L f fuel).mem = s.mem ∧
      (dealloc_tree s L f fuel).fresh = s.fresh ∧
      (dealloc_tree s L f fuel).allocs = s.allocs ∧
      ∃ ds : List Nat,
        (dealloc_tree s L f fuel).deallocs = s.deallocs ++ ds ∧
        ((ds : List Nat) : Multiset Nat)
          = ((subFrames s f fuel : List Nat) : Multiset Nat) := by
  intro fuel
  induction fuel with
  | zero =>
      intro s f
      exact ⟨rfl, rfl, rfl, [f], rfl, rfl⟩
  | succ fuel ih =>
      intro s f
      have aux : ∀ (l : List Nat) (acc : HMem), acc.mem = s.mem →
          (l.foldl (fun acc2 i =>
              if nextTableOk (s.mem f i) then
                dealloc_tree acc2 L (s.mem f i).paddr fuel
              else acc2) acc).mem = s.mem ∧
          (l.foldl (fun acc2 i =>
              if nextTableOk (s.mem f i) then
                dealloc_tree acc2 L (s.mem f i).paddr fuel
              else acc2) acc).fresh = acc.fresh ∧
          (l.foldl (fun acc2 i =>
              if nextTableOk (s.mem f i) then
                dealloc_tree acc2 L (s.mem f i).paddr fuel
              else acc2) acc).allocs = acc.allocs ∧
          ∃ ds : List Nat,
            (l.foldl (fun acc2 i =>
                if nextTableOk (s.mem f i) then
                  dealloc_tree acc2 L (s.mem f i).paddr fuel
                else acc2) acc).deallocs = acc.deallocs ++ ds ∧
            ((ds : List Nat) : Multiset Nat)
              = (((l.filterMap (fun i => tableTarget (s.mem f i))).flatMap
                  (fun c => subFrames s c fuel) : List Nat) : Multiset Nat) := by
        intro l
        induction l with
        | nil =>
            intro acc hacc
            refine ⟨hacc, rfl, rfl, [], ?_, rfl⟩
            rw [List.append_nil]
            rfl
        | cons i l ihl =>
            intro acc hacc
            rw [List.foldl_cons]
            by_cases hok : nextTableOk (s.mem f i) = true
            · rw [if_pos hok]
              obtain ⟨hmem1, hfr1, hal1, ds1, hdea1, hms1⟩ :=
                ih acc ((s.mem f i).paddr)
              have hsubc : subFrames acc ((s.mem f i).paddr) fuel
                  = subFrames s ((s.mem f i).paddr) fuel :=
                subFrames_congr_tt (fun g j => by rw [hacc]) fuel _
              obtain ⟨hmem2, hfr2, hal2, ds2, hdea2, hms2⟩ :=
                ihl (dealloc_tree acc L ((s.mem f i).paddr) fuel)
                  (by rw [hmem1, hacc])
              refine ⟨hmem2, hfr2.trans hfr1, hal2.trans hal1,
                ds1 ++ ds2, ?_, ?_⟩
              · rw [hdea2, hdea1, List.append_assoc]
              · rw [@List.filterMap_cons_some Nat Nat
                    (fun j => tableTarget (s.mem f j)) i l ((s.mem f i).paddr)
                    (tableTarget_of_ok hok),
                  List.flatMap_cons, ← Multiset.coe_add, ← Multiset.coe_add,
                  hms1, hms2, hsubc]
            · rw [if_neg hok]
              obtain ⟨hmem2, hfr2, hal2, ds2, hdea2, hms2⟩ := ihl acc hacc
              refine ⟨hmem2, hfr2, hal2, ds2, hdea2, ?_⟩
              rw [@List.filterMap_cons_none Nat Nat
                (fun j => tableTarget (s.mem f j)) i l (tableTarget_of_not hok)]
              exact hms2
      obtain ⟨hmem, hfr, hal, ds, hdea, hms⟩ := aux (List.range ENTRY_COUNT) s rfl
      have hshape : dealloc_tree s L f (fuel + 1)
          = ((List.range ENTRY_COUNT).foldl (fun acc2 i =>
              if nextTableOk (s.mem f i) then
                dealloc_tree acc2 L (s.mem f i).paddr fuel
              else acc2) s).deallocFrame f := rfl
      rw [hshape]
      refine ⟨hmem, hfr, hal, ds ++ [f], ?_, ?_⟩
      · show ((List.range ENTRY_COUNT).foldl (fun acc2 i =>
              if nextTableOk (s.mem f i) then
                dealloc_tree acc2 L (s.mem f i).paddr fuel
              else acc2) s).deallocs ++ [f] = s.deallocs ++ (ds ++ [f])
        rw [hdea, List.append_assoc]
      · have hsub : subFrames s f (fuel + 1)
            = f :: ((List.range ENTRY_COUNT).filterMap
                (fun i => tableTarget (s.mem f i))).flatMap
                  (fun c => subFrames s c fuel) := rfl
        rw [hsub, ← Multiset.coe_add, ← Multiset.cons_coe,
          ← Multiset.singleton_add, hms, add_comm]
        simp

/-- With no borrowed entries, `Drop` is exactly a `dealloc_tree` walk of
the root with the fuel of a top-level table (children at `LEVELS - 2`
further levels). -/
lemma dropTable_eq {s : HMem} {t : Table} {L : Levels}
    (hb : ∀ i, t.borrowed i = false) :
    dropTable s t L = dealloc_tree s L t.root (L.num - 2 + 1) := by
  have hfun : (fun (acc : HMem) (i : Nat) =>
        if t.borrowed i then acc
        else if nextTableOk (s.mem t.root i) then
          dealloc_tree acc L (s.mem t.root i).paddr (L.num - 2)
        else acc)
      = (fun (acc : HMem) (i : Nat) =>
        if nextTableOk (s.mem t.root i) then
          dealloc_tree acc L (s.mem t.root i).paddr (L.num - 2)
        else acc) := by
    funext acc i
    rw [hb i]
    simp
  show ((List.range ENTRY_COUNT).foldl (fun acc i =>
      if t.borrowed i then acc
      else if nextTableOk (s.mem t.root i) then
        dealloc_tree acc L (s.mem t.root i).paddr (L.num - 2)
      else acc) s).deallocFrame t.root = _
  rw [hfun]
  rfl

/-- The concrete effect of `try_new` on the mock handler. -/
lemma try_new_spec (s0 : HMem) :
    (try_new s0).1.root = s0.fresh ∧
    ((try_new s0).1.borrowed = fun _ => false) ∧
    (try_new s0).2.fresh = s0.fresh + 4096 ∧
    (try_new s0).2.allocs = s0.allocs ++ [s0.fresh] ∧
    (try_new s0).2.deallocs = s0.deallocs ∧
    (∀ j, (try_new s0).2.mem s0.fresh j = .unused) := by
  refine ⟨rfl, rfl, rfl, rfl, rfl, fun j => ?_⟩
  show (((s0.allocFrame).2).zeroFrame s0.fresh).mem s0.fresh j = .unused
  simp [HMem.zeroFrame]

/-- A freshly created table is well-formed and its tree is just the zeroed
root frame. -/
lemma try_new_wf (s0 : HMem) (L : Levels) (hfr : 0 < s0.fresh) :
    TreeWF (try_new s0).2 (try_new s0).1 L ∧
    subFrames (try_new s0).2 (try_new s0).1.root (L.num - 1)
      = [s0.fresh] := by
  obtain ⟨hroot, -, hfre, -, -, hcells⟩ := try_new_spec s0
  have hnil : childFrames (try_new s0).2 (try_new s0).1.root = [] := by
    rw [hroot]
    refine childFrames_eq_nil (fun j _ => ?_)
    rw [hcells j]
    exact tableTarget_unused rfl
  have hsub := subFrames_of_no_children hnil (L.num - 1)
  refine ⟨⟨?_, ?_⟩, ?_⟩
  · rw [hsub]
    exact List.nodup_singleton _
  · intro x hx
    rw [hsub] at hx
    rcases List.mem_singleton.mp hx with rfl
    rw [hroot, hfre]
    omega
  · rw [hsub, hroot]

/-- C2: tree cleanup is balanced.  Build a table with `try_new`, run any
sequence of single-page `map`/`unmap`/`remap`/`protect` requests through
one `PageTableMut` session, then drop the table: the deallocation log
grows by exactly the frames the allocation log grew by — as a multiset,
so each allocated frame (root and intermediate tables) is freed exactly
once, nothing else (in particular no leaf data frame) is freed, and the
allocator returns to its pre-creation baseline with no leak and no
double-free. -/
theorem c2_tree_cleanup (s0 : HMem) (L : Levels) (fl : ToFlush)
    (ops : List Op) (hfr : 0 < s0.fresh) :
    ∃ allocated freed : List Nat,
      (dropTable (runOps (try_new s0).2 (try_new s0).1 L fl ops).1
          (try_new s0).1 L).allocs = s0.allocs ++ allocated ∧
      (dropTable (runOps (try_new s0).2 (try_new s0).1 L fl ops).1
          (try_new s0).1 L).deallocs = s0.deallocs ++ freed ∧
      ((freed : List Nat) : Multiset Nat)
        = ((allocated : List Nat) : Multiset Nat) := by
  obtain ⟨hroot, hbor, hfre, hall, hdeal, -⟩ := try_new_spec s0
  obtain ⟨hwf1, hsub1⟩ := try_new_wf s0 L hfr
  obtain ⟨hwf2, cr, hms2, hal2, hdea2, hmono2⟩ :=
    runOps_acct ops (try_new s0).2 fl hwf1
  rcases hrr : runOps (try_new s0).2 (try_new s0).1 L fl ops
    with ⟨s2, fl2, rec2⟩
  rw [hrr] at hwf2 hms2 hal2 hdea2 hmono2
  have hms2' : ((subFrames s2 (try_new s0).1.root (L.num - 1) :
        List Nat) : Multiset Nat)
      = ((subFrames (try_new s0).2 (try_new s0).1.root (L.num - 1) :
          List Nat) : Multiset Nat) + ↑cr := hms2
  have hal2' : s2.allocs = (try_new s0).2.allocs ++ cr := hal2
  have hdea2' : s2.deallocs = (try_new s0).2.deallocs := hdea2
  have hdropeq : dropTable s2 (try_new s0).1 L
      = dealloc_tree s2 L (try_new s0).1.root (L.num - 2 + 1) :=
    dropTable_eq (fun i => by rw [hbor])
  obtain ⟨-, -, hal3, ds, hdea3, hms3⟩ :=
    dealloc_tree_spec L (L.num - 2 + 1) s2 (try_new s0).1.root
  have hL : L.num - 2 + 1 = L.num - 1 := by cases L <;> rfl
  rw [hL] at hms3
  refine ⟨s0.fresh :: cr, ds, ?_, ?_, ?_⟩
  · show (dropTable s2 (try_new s0).1 L).allocs
      = s0.allocs ++ (s0.fresh :: cr)
    rw [hdropeq, hal3, hal2', hall, List.append_assoc]
    rfl
  · show (dropTable s2 (try_new s0).1 L).deallocs = s0.deallocs ++ ds
    rw [hdropeq, hdea3, hdea2', hdeal]
  · rw [hms3, hms2', hsub1, Multiset.coe_add]
    rfl

set_option maxRecDepth 8192 in
/-- C2 witness: a fresh 4-level table, one 4K mapping, then drop — the
logs balance. -/
theorem c2_tree_cleanup_witness :
    0 < HMem.init.fresh ∧
    ∃ allocated freed : List Nat,
      (dropTable (runOps (try_new HMem.init).2 (try_new HMem.init).1 .four
          .noneYet [Op.map 0 4096 .Size4K flagsRW]).1 (try_new HMem.init).1
          .four).allocs = HMem.init.allocs ++ allocated ∧
      (dropTable (runOps (try_new HMem.init).2 (try_new HMem.init).1 .four
          .noneYet [Op.map 0 4096 .Size4K flagsRW]).1 (try_new HMem.init).1
          .four).deallocs = HMem.init.deallocs ++ freed ∧
      ((freed : List Nat) : Multiset Nat)
        = ((allocated : List Nat) : Multiset Nat) :=
  ⟨by decide, c2_tree_cleanup HMem.init .four .noneYet
    [Op.map 0 4096 .Size4K flagsRW] (by decide)⟩

/-- The frame a successful walk returns belongs to the table's subtree. -/
lemma get_entry_frame_mem {s : HMem} {t : Table} {L : Levels} {v f i : Nat}
    {sz : PageSize} (hge : get_entry s t L v = .ok (f, i, sz)) :
    f ∈ subFrames s t.root (L.num - 1) := by
  cases sz with
  | Size4K =>
      have hlf := get_entry_4K_leaf hge
      have hms := subFrames_eq_scanned_add_leaves s (L.num - 1) t.root
      have hmem : f ∈ ((subFrames s t.root (L.num - 1) :
          List Nat) : Multiset Nat) := by
        rw [hms]
        exact Multiset.mem_add.mpr (Or.inr (Multiset.mem_coe.mpr hlf))
      exact Multiset.mem_coe.mp hmem
  | Size2M =>
      obtain ⟨p3f, htop, -, hnt, -, -⟩ := get_entry_2M hge
      have hc : f ∈ childFrames s p3f := (mem_childFrames s p3f f).mpr
        ⟨p3_idx v, p3_idx_lt v, next_table_ok_tableTarget hnt⟩
      cases L with
      | three =>
          have hp3 : p3f = t.root := by
            simp only [topFrame, Except.ok.injEq] at htop
            exact htop.symm
          subst hp3
          exact child_mem_subFrames hc
      | four =>
          have h3r : p3f ∈ childFrames s t.root := by
            simp only [topFrame] at htop
            exact (mem_childFrames s t.root p3f).mpr
              ⟨p4_idx v, p4_idx_lt v, next_table_ok_tableTarget htop⟩
          exact sub_mem_subFrames h3r (child_mem_subFrames hc)
  | Size1G =>
      obtain ⟨htop, -, -⟩ := get_entry_1G hge
      cases L with
      | three =>
          have hp3 : t.root = f := by
            simp only [topFrame, Except.ok.injEq] at htop
            exact htop
          subst hp3
          exact root_mem_subFrames s t.root _
      | four =>
          have h3r : f ∈ childFrames s t.root := by
            simp only [topFrame] at htop
            exact (mem_childFrames s t.root f).mpr
              ⟨p4_idx v, p4_idx_lt v, next_table_ok_tableTarget htop⟩
          exact child_mem_subFrames h3r

/-- The read-only walk reads only cells of the table's own subtree frames:
states agreeing there walk identically. -/
lemma get_entry_mem_congr {s s' : HMem} {t : Table} {L : Levels}
    (h : ∀ g j, g ∈ subFrames s t.root (L.num - 1) → s'.mem g j = s.mem g j)
    (v : Nat) : get_entry s' t L v = get_entry s t L v := by
  cases L with
  | three =>
      have hroot : t.root ∈ subFrames s t.root 2 :=
        root_mem_subFrames s t.root _
      simp only [get_entry, topFrame]
      rw [h t.root (p3_idx v) hroot]
      cases hh3 : (s.mem t.root (p3_idx v)).is_huge
      · simp only [hh3, Bool.false_eq_true, if_false]
        rcases hnt : next_table (s.mem t.root (p3_idx v)) with e | p2f
        · rfl
        · have hp2 : p2f ∈ subFrames s t.root 2 :=
            child_mem_subFrames ((mem_childFrames s t.root p2f).mpr
              ⟨p3_idx v, p3_idx_lt v, next_table_ok_tableTarget hnt⟩)
          simp only [h p2f (p2_idx v) hp2]
      · simp only [hh3, if_true]
  | four =>
      have hroot : t.root ∈ subFrames s t.root 3 :=
        root_mem_subFrames s t.root _
      simp only [get_entry, topFrame]
      rw [h t.root (p4_idx v) hroot]
      rcases hntT : next_table (s.mem t.root (p4_idx v)) with e | p3f
      · rfl
      · have h3r : p3f ∈ childFrames s t.root :=
          (mem_childFrames s t.root p3f).mpr
            ⟨p4_idx v, p4_idx_lt v, next_table_ok_tableTarget hntT⟩
        have hp3 : p3f ∈ subFrames s t.root 3 := child_mem_subFrames h3r
        simp only [h p3f (p3_idx v) hp3]
        cases hh3 : (s.mem p3f (p3_idx v)).is_huge
        · simp only [hh3, Bool.false_eq_true, if_false]
          rcases hnt : next_table (s.mem p3f (p3_idx v)) with e | p2f
          · rfl
          · have hp2 : p2f ∈ subFrames s t.root 3 :=
              sub_mem_subFrames h3r
                (child_mem_subFrames ((mem_childFrames s p3f p2f).mpr
                  ⟨p3_idx v, p3_idx_lt v, next_table_ok_tableTarget hnt⟩))
            simp only [h p2f (p2_idx v) hp2]
        · simp only [hh3, if_true]

/-- `query` reads only cells of the table's own subtree frames. -/
lemma query_mem_congr {s s' : HMem} {t : Table} {L : Levels}
    (h : ∀ g j, g ∈ subFrames s t.root (L.num - 1) → s'.mem g j = s.mem g j)
    (v : Nat) : query s' t L v = query s t L v := by
  unfold query
  rw [get_entry_mem_congr h v]
  rcases hge : get_entry s t L v with e | ⟨f, i, sz⟩
  · rfl
  · simp only [h f i (get_entry_frame_mem hge)]

set_option maxRecDepth 8192 in
/-- What `Drop` deallocates: memory is untouched, and every frame appended
to the deallocation log is the root or lies in the subtree of a
non-borrowed root entry. -/
lemma dropTable_spec (s : HMem) (t : Table) (L : Levels) :
    (dropTable s t L).mem = s.mem ∧
    ∃ ds : List Nat,
      (dropTable s t L).deallocs = s.deallocs ++ ds ∧
      ∀ x ∈ ds, x = t.root ∨
        ∃ i, i < ENTRY_COUNT ∧ t.borrowed i = false ∧
          ∃ c, tableTarget (s.mem t.root i) = some c ∧
            x ∈ subFrames s c (L.num - 2) := by
  have aux : ∀ (l : List Nat) (acc : HMem), acc.mem = s.mem →
      (l.foldl (fun acc2 i =>
          if t.borrowed i then acc2
          else if nextTableOk (s.mem t.root i) then
            dealloc_tree acc2 L (s.mem t.root i).paddr (L.num - 2)
          else acc2) acc).mem = s.mem ∧
      ∃ ds : List Nat,
        (l.foldl (fun acc2 i =>
            if t.borrowed i then acc2
            else if nextTableOk (s.mem t.root i) then
              dealloc_tree acc2 L (s.mem t.root i).paddr (L.num - 2)
            else acc2) acc).deallocs = acc.deallocs ++ ds ∧
        ∀ x ∈ ds, ∃ i, i ∈ l ∧ t.borrowed i = false ∧
          ∃ c, tableTarget (s.mem t.root i) = some c ∧
            x ∈ subFrames s c (L.num - 2) := by
    intro l
    induction l with
    | nil =>
        intro acc hacc
        refine ⟨hacc, [], ?_, fun x hx => absurd hx (List.not_mem_nil x)⟩
        rw [List.append_nil]
        rfl
    | cons i l ihl =>
        intro acc hacc
        rw [List.foldl_cons]
        by_cases hbor : t.borrowed i = true
        · rw [if_pos hbor]
          obtain ⟨hm, ds, hd, hpr⟩ := ihl acc hacc
          refine ⟨hm, ds, hd, fun x hx => ?_⟩
          obtain ⟨i2, hi2, rest⟩ := hpr x hx
          exact ⟨i2, List.mem_cons_of_mem _ hi2, rest⟩
        · rw [if_neg hbor]
          by_cases hok : nextTableOk (s.mem t.root i) = true
          · rw [if_pos hok]
            obtain ⟨hm1, -, -, ds1, hd1, hms1⟩ :=
              dealloc_tree_spec L (L.num - 2) acc ((s.mem t.root i).paddr)
            have hsubeq : subFrames acc ((s.mem t.root i).paddr) (L.num - 2)
                = subFrames s ((s.mem t.root i).paddr) (L.num - 2) :=
              subFrames_congr_tt (fun g j => by rw [hacc]) _ _
            obtain ⟨hm2, ds2, hd2, hpr2⟩ :=
              ihl (dealloc_tree acc L ((s.mem t.root i).paddr) (L.num - 2))
                (hm1.trans hacc)
            refine ⟨hm2, ds1 ++ ds2, ?_, ?_⟩
            · rw [hd2, hd1, List.append_assoc]
            · intro x hx
              rcases List.mem_append.mp hx with hx | hx
              · refine ⟨i, List.mem_cons_self _ _, by simpa using hbor,
                  (s.mem t.root i).paddr, tableTarget_of_ok hok, ?_⟩
                have hxms : x ∈ ((subFrames s ((s.mem t.root i).paddr)
                    (L.num - 2) : List Nat) : Multiset Nat) := by
                  rw [← hsubeq, ← hms1]
                  exact Multiset.mem_coe.mpr hx
                exact Multiset.mem_coe.mp hxms
              · obtain ⟨i2, hi2, rest⟩ := hpr2 x hx
                exact ⟨i2, List.mem_cons_of_mem _ hi2, rest⟩
          · rw [if_neg hok]
            obtain ⟨hm, ds, hd, hpr⟩ := ihl acc hacc
            refine ⟨hm, ds, hd, fun x hx => ?_⟩
            obtain ⟨i2, hi2, rest⟩ := hpr x hx
            exact ⟨i2, List.mem_cons_of_mem _ hi2, rest⟩
  obtain ⟨hm, ds, hd, hpr⟩ := aux (List.range ENTRY_COUNT) s rfl
  have hshape : dropTable s t L
      = ((List.range ENTRY_COUNT).foldl (fun acc2 i =>
          if t.borrowed i then acc2
          else if nextTableOk (s.mem t.root i) then
            dealloc_tree acc2 L (s.mem t.root i).paddr (L.num - 2)
          else acc2) s).deallocFrame t.root := rfl
  rw [hshape]
  refine ⟨hm, ds ++ [t.root], ?_, ?_⟩
  · show ((List.range ENTRY_COUNT).foldl (fun acc2 i =>
        if t.borrowed i then acc2
        else if nextTableOk (s.mem t.root i) then
          dealloc_tree acc2 L (s.mem t.root i).paddr (L.num - 2)
        else acc2) s).deallocs ++ [t.root] = s.deallocs ++ (ds ++ [t.root])
    rw [hd, List.append_assoc]
  · intro x hx
    rcases List.mem_append.mp hx with hx | hx
    · obtain ⟨i, hi, hbor, c, htt, hsub⟩ := hpr x hx
      exact Or.inr ⟨i, List.mem_range.mp hi, hbor, c, htt, hsub⟩
    · rcases List.mem_singleton.mp hx with rfl
      exact Or.inl rfl

/-- Invariant of the `copy_from` index loop: only cells of the destination
root frame change; a processed index holds the source table's entry and is
marked borrowed; unprocessed indices are untouched; deallocations only
grow. -/
lemma copy_from_fold {s : HMem} {ta tb : Table} {L : Levels}
    (hne : ta.root ≠ tb.root) :
    ∀ (l : List Nat) (tb0 : Table) (s0 : HMem),
      tb0.root = tb.root →
      (∀ g j, g ≠ tb.root → s0.mem g j = s.mem g j) →
      (l.foldl (fun acc i => copyFromStep ta acc.1 L acc.2 i)
          (tb0, s0)).1.root = tb.root ∧
      (∀ g j, g ≠ tb.root →
        (l.foldl (fun acc i => copyFromStep ta acc.1 L acc.2 i)
            (tb0, s0)).2.mem g j = s.mem g j) ∧
      (∀ j, j ∉ l →
        (l.foldl (fun acc i => copyFromStep ta acc.1 L acc.2 i)
            (tb0, s0)).2.mem tb.root j = s0.mem tb.root j ∧
        (l.foldl (fun acc i => copyFromStep ta acc.1 L acc.2 i)
            (tb0, s0)).1.borrowed j = tb0.borrowed j) ∧
      (∀ j, j ∈ l →
        (l.foldl (fun acc i => copyFromStep ta acc.1 L acc.2 i)
            (tb0, s0)).2.mem tb.root j = s.mem ta.root j ∧
        (l.foldl (fun acc i => copyFromStep ta acc.1 L acc.2 i)
            (tb0, s0)).1.borrowed j = true) ∧
      ∃ dds : List Nat,
        (l.foldl (fun acc i => copyFromStep ta acc.1 L acc.2 i)
            (tb0, s0)).2.deallocs = s0.deallocs ++ dds := by
  intro l
  induction l with
  | nil =>
      intro tb0 s0 hroot0 hmem0
      refine ⟨hroot0, fun g j hg => hmem0 g j hg, fun j _ => ⟨rfl, rfl⟩,
        fun j hj => absurd hj (List.not_mem_nil j), [], ?_⟩
      rw [List.append_nil]
      rfl
  | cons i l ihl =>
      intro tb0 s0 hroot0 hmem0
      have hroot1 : (copyFromStep ta tb0 L s0 i).1.root = tb0.root := rfl
      have hbor1 : ∀ j, (copyFromStep ta tb0 L s0 i).1.borrowed j
          = if j = i then true else tb0.borrowed j := fun j => rfl
      have hmem1 : ∀ g j, ¬(g = tb0.root ∧ j = i) →
          (copyFromStep ta tb0 L s0 i).2.mem g j = s0.mem g j := by
        intro g j hgj
        show (((if ¬tb0.borrowed i ∧ nextTableOk (s0.mem tb0.root i) then
            dealloc_tree s0 L (s0.mem tb0.root i).paddr (L.num - 2)
          else s0)).write tb0.root i _).mem g j = s0.mem g j
        rw [write_mem_ne _ _ _ _ hgj]
        split
        · exact congrFun (congrFun
            (dealloc_tree_spec L (L.num - 2) s0
              ((s0.mem tb0.root i).paddr)).1 g) j
        · rfl
      have hmem2 : (copyFromStep ta tb0 L s0 i).2.mem tb0.root i
          = s0.mem ta.root i := by
        show (((if ¬tb0.borrowed i ∧ nextTableOk (s0.mem tb0.root i) then
            dealloc_tree s0 L (s0.mem tb0.root i).paddr (L.num - 2)
          else s0)).write tb0.root i _).mem tb0.root i = s0.mem ta.root i
        rw [write_mem_self]
        split
        · exact congrFun (congrFun
            (dealloc_tree_spec L (L.num - 2) s0
              ((s0.mem tb0.root i).paddr)).1 ta.root) i
        · rfl
      have hdea1 : ∃ d : List Nat,
          (copyFromStep ta tb0 L s0 i).2.deallocs = s0.deallocs ++ d := by
        have hd : (copyFromStep ta tb0 L s0 i).2.deallocs
            = (if ¬tb0.borrowed i ∧ nextTableOk (s0.mem tb0.root i) then
                dealloc_tree s0 L (s0.mem tb0.root i).paddr (L.num - 2)
              else s0).deallocs := rfl
        rw [hd]
        split
        · obtain ⟨-, -, -, d, hdd, -⟩ :=
            dealloc_tree_spec L (L.num - 2) s0 ((s0.mem tb0.root i).paddr)
          exact ⟨d, hdd⟩
        · exact ⟨[], (List.append_nil _).symm⟩
      have hroot0' : (copyFromStep ta tb0 L s0 i).1.root = tb.root :=
        hroot1.trans hroot0
      have hmem0' : ∀ g j, g ≠ tb.root →
          (copyFromStep ta tb0 L s0 i).2.mem g j = s.mem g j := by
        intro g j hg
        rw [hmem1 g j (fun hc => hg (hc.1.trans hroot0))]
        exact hmem0 g j hg
      obtain ⟨ih1, ih2, ih3, ih4, ih5⟩ :=
        ihl (copyFromStep ta tb0 L s0 i).1 (copyFromStep ta tb0 L s0 i).2
          hroot0' hmem0'
      rw [List.foldl_cons]
      refine ⟨ih1, ih2, ?_, ?_, ?_⟩
      · intro j hj
        have hji : j ≠ i := fun hc => hj (hc ▸ List.mem_cons_self i l)
        have hjl : j ∉ l := fun hc => hj (List.mem_cons_of_mem _ hc)
        obtain ⟨hm, hb⟩ := ih3 j hjl
        refine ⟨?_, ?_⟩
        · rw [hm, hmem1 tb.root j (fun hc => hji hc.2)]
        · rw [hb, hbor1 j, if_neg hji]
      · intro j hj
        by_cases hjl : j ∈ l
        · exact ih4 j hjl
        · have hji : j = i := by
            rcases List.mem_cons.mp hj with h | h
            · exact h
            · exact absurd h hjl
          subst hji
          obtain ⟨hm, hb⟩ := ih3 j hjl
          refine ⟨?_, ?_⟩
          · rw [hm, ← hroot0, hmem2]
            exact hmem0 ta.root j hne
          · rw [hb, hbor1 j, if_pos rfl]
      · obtain ⟨d1, hd1⟩ := hdea1
        obtain ⟨d2, hd2⟩ := ih5
        exact ⟨d1 ++ d2, by rw [hd2, hd1, List.append_assoc]⟩

/-- C3: borrowed-subtree safety.  For two disjoint well-formed tables,
after `table_b.copy_from(&table_a, v, size)` (nonempty range) every
top-level entry of `table_b` in the covered index range equals `table_a`'s
entry bit pattern and is marked borrowed; `table_a.query` returns the same
results as before the copy, and still after dropping `table_b`; and the
drop deallocates no frame of `table_a`'s tree — borrowed indices are
skipped, so the shared subtrees survive. -/
theorem c3_borrowed_subtree_safety (s : HMem) (ta tb : Table) (L : Levels)
    (v size : Nat)
    (hsz : size ≠ 0)
    (hwfA : TreeWF s ta L) (hwfB : TreeWF s tb L)
    (hdisj : ∀ x ∈ subFrames s tb.root (L.num - 1),
      x ∉ subFrames s ta.root (L.num - 1)) :
    (∀ i, (match L with | .three => p3_idx | .four => p4_idx) v ≤ i →
        i < (match L with | .three => p3_idx | .four => p4_idx)
          (v + size - 1) + 1 →
      (copy_from s tb ta L v size).2.mem tb.root i = s.mem ta.root i ∧
      (copy_from s tb ta L v size).1.borrowed i = true) ∧
    (∀ w, query (copy_from s tb ta L v size).2 ta L w = query s ta L w) ∧
    (∀ w, query (dropTable (copy_from s tb ta L v size).2
        (copy_from s tb ta L v size).1 L) ta L w = query s ta L w) ∧
    (∃ ds : List Nat,
      (dropTable (copy_from s tb ta L v size).2
          (copy_from s tb ta L v size).1 L).deallocs
        = (copy_from s tb ta L v size).2.deallocs ++ ds ∧
      ∀ x ∈ ds, x ∉ subFrames s ta.root (L.num - 1)) := by
  have hrootB_notin : tb.root ∉ subFrames s ta.root (L.num - 1) :=
    hdisj tb.root (root_mem_subFrames s tb.root _)
  have hne : ta.root ≠ tb.root := by
    intro hc
    exact hrootB_notin (hc ▸ root_mem_subFrames s ta.root (L.num - 1))
  have hcf : copy_from s tb ta L v size
      = (List.range' ((match L with | .three => p3_idx | .four => p4_idx) v)
          ((((match L with | .three => p3_idx | .four => p4_idx)
              (v + size - 1) + 1))
            - (match L with | .three => p3_idx | .four => p4_idx) v)).foldl
          (fun acc i => copyFromStep ta acc.1 L acc.2 i) (tb, s) := by
    unfold copy_from
    rw [if_neg hsz]
  obtain ⟨hr1, hr2, hr3, hr4, hr5⟩ :=
    copy_from_fold hne
      (List.range' ((match L with | .three => p3_idx | .four => p4_idx) v)
        ((((match L with | .three => p3_idx | .four => p4_idx)
            (v + size - 1) + 1))
          - (match L with | .three => p3_idx | .four => p4_idx) v))
      tb s rfl (fun g j _ => rfl)
  rw [← hcf] at hr1 hr2 hr3 hr4 hr5
  have hquery1 : ∀ w, query (copy_from s tb ta L v size).2 ta L w
      = query s ta L w := by
    intro w
    refine query_mem_congr (fun g j hg => ?_) w
    refine hr2 g j (fun hc => ?_)
    rw [hc] at hg
    exact hrootB_notin hg
  obtain ⟨hdmem, ds, hdds, hdchar⟩ :=
    dropTable_spec (copy_from s tb ta L v size).2
      (copy_from s tb ta L v size).1 L
  have hL2 : L.num - 1 = L.num - 2 + 1 := by cases L <;> rfl
  refine ⟨?_, hquery1, ?_, ds, hdds, ?_⟩
  · intro i h1 h2
    have hi : i ∈ List.range'
        ((match L with | .three => p3_idx | .four => p4_idx) v)
        ((((match L with | .three => p3_idx | .four => p4_idx)
            (v + size - 1) + 1))
          - (match L with | .three => p3_idx | .four => p4_idx) v) :=
      List.mem_range'_1.mpr ⟨h1, by omega⟩
    exact hr4 i hi
  · intro w
    have hq2 : query (dropTable (copy_from s tb ta L v size).2
        (copy_from s tb ta L v size).1 L) ta L w
        = query (copy_from s tb ta L v size).2 ta L w := by
      refine query_mem_congr (fun g j _ => ?_) w
      exact congrFun (congrFun hdmem g) j
    rw [hq2]
    exact hquery1 w
  · intro x hx
    rcases hdchar x hx with hxr | ⟨i, hi512, hbor, c, htt, hsub⟩
    · rw [hxr, hr1]
      exact hrootB_notin
    · have hinotin : i ∉ List.range'
          ((match L with | .three => p3_idx | .four => p4_idx) v)
          ((((match L with | .three => p3_idx | .four => p4_idx)
              (v + size - 1) + 1))
            - (match L with | .three => p3_idx | .four => p4_idx) v) := by
        intro hc
        have := (hr4 i hc).2
        rw [this] at hbor
        cases hbor
      obtain ⟨hmemi, -⟩ := hr3 i hinotin
      rw [hr1, hmemi] at htt
      have hc_child : c ∈ childFrames s tb.root :=
        (mem_childFrames s tb.root c).mpr ⟨i, hi512, htt⟩
      have hndB : (subFrames s tb.root (L.num - 2 + 1)).Nodup := by
        rw [← hL2]
        exact hwfB.1
      obtain ⟨-, hneC, -⟩ := subtree_step hc_child hndB
      have hsubeq : subFrames (copy_from s tb ta L v size).2 c (L.num - 2)
          = subFrames s c (L.num - 2) := by
        refine (out_of_tree_congr (P := fun y => y = tb.root)
          (fun g j hg => hr2 g j hg) (L.num - 2) c ?_).1
        intro y hy
        exact hneC y (scanned_subset _ c y hy)
      rw [hsubeq] at hsub
      have hxtb : x ∈ subFrames s tb.root (L.num - 1) := by
        rw [hL2]
        exact sub_mem_subFrames hc_child hsub
      exact hdisj x hxtb

set_option maxRecDepth 8192 in
/-- C3 witness: two fresh 4-level tables built back to back; copying the
first 4K range from the first into the second, then dropping the second,
keeps the first table's queries intact and frees none of its frames. -/
theorem c3_borrowed_subtree_safety_witness :
    ((4096 : Nat) ≠ 0 ∧
      TreeWF (try_new (try_new HMem.init).2).2 (try_new HMem.init).1 .four ∧
      TreeWF (try_new (try_new HMem.init).2).2
        (try_new (try_new HMem.init).2).1 .four ∧
      (∀ x ∈ subFrames (try_new (try_new HMem.init).2).2
          (try_new (try_new HMem.init).2).1.root (Levels.four.num - 1),
        x ∉ subFrames (try_new (try_new HMem.init).2).2
          (try_new HMem.init).1.root (Levels.four.num - 1))) ∧
    ((∀ i, (match Levels.four with
          | .three => p3_idx | .four => p4_idx) 0 ≤ i →
        i < (match Levels.four with
          | .three => p3_idx | .four => p4_idx) (0 + 4096 - 1) + 1 →
      (copy_from (try_new (try_new HMem.init).2).2
          (try_new (try_new HMem.init).2).1 (try_new HMem.init).1 .four 0
          4096).2.mem (try_new (try_new HMem.init).2).1.root i
        = (try_new (try_new HMem.init).2).2.mem
            (try_new HMem.init).1.root i ∧
      (copy_from (try_new (try_new HMem.init).2).2
          (try_new (try_new HMem.init).2).1 (try_new HMem.init).1 .four 0
          4096).1.borrowed i = true) ∧
    (∀ w, query (copy_from (try_new (try_new HMem.init).2).2
        (try_new (try_new HMem.init).2).1 (try_new HMem.init).1 .four 0
        4096).2 (try_new HMem.init).1 .four w
      = query (try_new (try_new HMem.init).2).2 (try_new HMem.init).1
          .four w) ∧
    (∀ w, query (dropTable (copy_from (try_new (try_new HMem.init).2).2
        (try_new (try_new HMem.init).2).1 (try_new HMem.init).1 .four 0
        4096).2
        (copy_from (try_new (try_new HMem.init).2).2
          (try_new (try_new HMem.init).2).1 (try_new HMem.init).1 .four 0
          4096).1 .four) (try_new HMem.init).1 .four w
      = query (try_new (try_new HMem.init).2).2 (try_new HMem.init).1
          .four w) ∧
    (∃ ds : List Nat,
      (dropTable (copy_from (try_new (try_new HMem.init).2).2
          (try_new (try_new HMem.init).2).1 (try_new HMem.init).1 .four 0
          4096).2
          (copy_from (try_new (try_new HMem.init).2).2
            (try_new (try_new HMem.init).2).1 (try_new HMem.init).1 .four 0
            4096).1 .four).deallocs
        = (copy_from (try_new (try_new HMem.init).2).2
            (try_new (try_new HMem.init).2).1 (try_new HMem.init).1 .four 0
            4096).2.deallocs ++ ds ∧
      ∀ x ∈ ds, x ∉ subFrames (try_new (try_new HMem.init).2).2
        (try_new HMem.init).1.root (Levels.four.num - 1))) :=
  ⟨⟨by decide, ⟨by decide, by decide⟩, ⟨by decide, by decide⟩, by decide⟩,
    c3_borrowed_subtree_safety (try_new (try_new HMem.init).2).2
      (try_new HMem.init).1 (try_new (try_new HMem.init).2).1 .four 0 4096
      (by decide) ⟨by decide, by decide⟩ ⟨by decide, by decide⟩ (by decide)⟩

end PT
